import Mathlib

/-!
# Bit-packed quantized matrices (snowboy `BitMatrix`, `BitVector`, bit kernel)

A shallow embedding of `bit-kernel.cc`, `bit-vector.cc` / `bit-vector.h` and
`bit-matrix.cc` / `bit-matrix.h`, followed by theorems about it.

Conventions of the embedding.

* `uint64` words are natural numbers below `2 ^ 64`; every operation that can leave that
  range is reduced modulo `2 ^ 64` explicitly.
* `int32` values that are computed (the kernel result, the `VecVec` accumulator, the result
  of `quantize`) are integers reduced to the two's complement range by `toInt32`.
* `float` and `double` values are rationals, and `roundf` rounds half away from zero. Where
  a floating-point value stays one (the scale, the elements that `ToMatrix` and
  `BitMatBitMat` write) its rounding is not modelled. Where it is converted to an integer,
  in `quantize`, the roundings that precede the conversion are those of the `FloatUnit`
  given: `FloatUnit.ieee` rounds to `double` and to `float` as the machine does (to nearest,
  ties to even; the exponent range is not limited), `FloatUnit.exact` does not round, which
  is the exact arithmetic of the specification.
* Sizes and offsets (`MatrixIndexT`) are natural numbers; a matrix is assumed small enough
  for its offsets to be representable.
* A failed `SNOWBOY_ASSERT`, a raised `SNOWBOY_ERROR`, `std::bad_alloc` and behaviour the
  language leaves undefined (division by zero, access through a null pointer) are the four
  values of `Failure`; fallible code returns `Except Failure _`.
* A stream is a list of elements (`Item`): single characters, raw words, and the tokens and
  basic values that the helpers of `utils/snowboy-io.h` write and read, which are modelled
  from the specification. `Read` returns, with a failure, the state it leaves the matrix in.
* Objects are values: whether an argument is the object itself (`&mat == this`) is an
  explicit flag where the code tests it, and a view writes back to its matrix explicitly.
-/

namespace snowboy

/-! ## Failures -/

/-- The ways an operation can stop without a result. -/
inductive Failure where
  | assertion
  | error
  | bad_alloc
  | undefined
  deriving DecidableEq

/-- `SNOWBOY_ASSERT(c)`. -/
def SNOWBOY_ASSERT (c : Prop) [Decidable c] : Except Failure Unit :=
  if c then Except.ok () else Except.error Failure.assertion

/-- A counted loop `for (i = 0; i < n; ++i) s = body(i, s)`, stopping at the first failure. -/
def forRange {ε σ : Type} (n : Nat) (body : Nat → σ → Except ε σ) (s : σ) :
    Except ε σ :=
  match n with
  | 0 => Except.ok s
  | k + 1 =>
    match forRange k body s with
    | Except.ok s1 => body k s1
    | Except.error e => Except.error e

/-! ## Machine arithmetic -/

/-- Reduction of an integer to the `int32` range (two's complement). -/
def toInt32 (v : Int) : Int := (v + 2147483648) % 4294967296 - 2147483648

/-- Conversion of an integer to `uint64` (reduction modulo `2 ^ 64`). -/
def toUInt64 (v : Int) : Nat := (v % 18446744073709551616).toNat

/-- Left shift of a `uint64` word: `x << b`. -/
def shl64 (x b : Nat) : Nat := (x <<< b) % 2 ^ 64

/-- Bitwise complement of a `uint64` word: `~x`. -/
def not64 (x : Nat) : Nat := 2 ^ 64 - 1 - x % 2 ^ 64

/-- The builtin `__builtin_popcountll`: the number of set bits among the 64 bits of a word. -/
def popcountll (x : Nat) : Nat := (List.range 64).countP (fun j => x.testBit j)

/-- The function `roundf`: nearest integer, halfway cases away from zero. -/
def roundf (x : ℚ) : Int := if 0 ≤ x then ⌊x + 1 / 2⌋ else -⌊-x + 1 / 2⌋

/-- Rounding to the nearest integer, halfway cases to the even integer. -/
def roundEven (t : ℚ) : Int :=
  if t - ⌊t⌋ < 1 / 2 then ⌊t⌋
  else if 1 / 2 < t - ⌊t⌋ then ⌊t⌋ + 1
  else if ⌊t⌋ % 2 = 0 then ⌊t⌋ else ⌊t⌋ + 1

/-- The unit in the last place of a binary floating-point format with a significand of `p`
bits at a value `x` other than 0: `2 ^ (e - p + 1)` where `2 ^ e <= |x| < 2 ^ (e + 1)`. -/
def ulp (p : Nat) (x : ℚ) : ℚ := (2 : ℚ) ^ (Int.log 2 |x| - (p : Int) + 1)

/-- The value nearest to `x` in the binary floating-point format with a significand of `p`
bits, halfway cases to the even significand (the default rounding of the machine). The
exponent range is not limited. -/
def roundToPrecision (p : Nat) (x : ℚ) : ℚ :=
  if x = 0 then 0 else (roundEven (x / ulp p x) : ℚ) * ulp p x

/-- The arithmetic in which the floating-point expression of `quantize` is evaluated: that of
the machine (`ieee`), or exact arithmetic (`exact`). -/
inductive FloatUnit where
  | ieee
  | exact
  deriving DecidableEq

/-- The result of an operation of type `double` whose exact value is `x`: 53 bits of
significand. -/
def FloatUnit.toDouble : FloatUnit → ℚ → ℚ
  | FloatUnit.ieee, x => roundToPrecision 53 x
  | FloatUnit.exact, x => x

/-- The conversion of a `double` to `float`: 24 bits of significand. -/
def FloatUnit.toFloat : FloatUnit → ℚ → ℚ
  | FloatUnit.ieee, x => roundToPrecision 24 x
  | FloatUnit.exact, x => x

/-- Conversion of a `float` to `int32` as done when a `float` is stored in an `int32` field:
truncation toward zero. -/
def truncToInt32 (x : ℚ) : Int := toInt32 (if 0 ≤ x then ⌊x⌋ else ⌈x⌉)

/-! ## bit-kernel.cc -/

/-- The constant `mask_8_1`: bit 0 of each of the eight byte lanes. -/
def mask_8_1 : Nat := 0x0101010101010101

/-- One iteration of the loop of `bit_kernel_for_uint64_8_1`:
`rt += (popcount(x & (y << b)) - popcount(x & (y_ << b))) << b`. -/
def kernelStep (x y y_ : Nat) (rt : Int) (b : Nat) : Int :=
  toInt32 (rt + ((popcountll (x &&& shl64 y b) : Int) - (popcountll (x &&& shl64 y_ b) : Int))
    * 2 ^ b)

/-- The function `bit_kernel_for_uint64_8_1(x, y)`. -/
def bit_kernel_for_uint64_8_1 (x y : Nat) : Int :=
  let y_ := not64 y &&& mask_8_1
  (List.range 8).foldl (kernelStep x y y_) 0

/-! ## The dense matrix (`MatrixBase`), as far as the bit matrix uses it -/

/-- A dense real matrix: its shape and its elements. -/
structure MatrixBase where
  num_rows_ : Nat
  num_cols_ : Nat
  elem : Nat → Nat → ℚ

namespace MatrixBase

/-- Read access `in(row, col)`, with its range assertion. -/
def get (m : MatrixBase) (row col : Nat) : Except Failure ℚ :=
  if row < m.num_rows_ ∧ col < m.num_cols_ then Except.ok (m.elem row col)
  else Except.error Failure.assertion

/-- Write access `(*out)(row, col) = v`, with its range assertion. -/
def set (m : MatrixBase) (row col : Nat) (v : ℚ) : Except Failure MatrixBase :=
  if row < m.num_rows_ ∧ col < m.num_cols_ then
    Except.ok { m with elem := fun r c => if r = row ∧ c = col then v else m.elem r c }
  else Except.error Failure.assertion

end MatrixBase

/-! ## The allocator -/

/-- The memory environment: the constant `SNOWBOY_MEM_ALIGN` and the outcome of
`SnowboyMemalign(alignment, size)`, which is either no block (`NULL`) or a block whose words
hold arbitrary values. -/
structure Heap where
  SNOWBOY_MEM_ALIGN : Nat
  SnowboyMemalign : Nat → Nat → Option (Nat → Nat)

/-! ## bit-matrix.h, bit-vector.h: the data -/

/-- The class `BitMatrix`. The buffer `data_` is `none` for `NULL`, otherwise the word stored
at each offset from the start of the buffer. -/
structure BitMatrix where
  num_rows_ : Nat
  num_cols_ : Nat
  stride_ : Nat
  data_ : Option (Nat → Nat)
  scale_ : ℚ
  quant_bits_ : Int
  align_bits_ : Int

/-- The class `BitVector`: a view of one row. `data_` is the pointer to the first word of the
row; `scale_` is declared `int32` in the source. -/
structure BitVector where
  dim_ : Nat
  data_ : Option (Nat → Nat)
  quant_bits_ : Int
  align_bits_ : Int
  scale_ : Int

/-- Reading the word at an offset from a pointer. -/
def readWord (data : Option (Nat → Nat)) (off : Nat) : Except Failure Nat :=
  match data with
  | some f => Except.ok (f off)
  | none => Except.error Failure.undefined

/-- Storing a word at an offset from a pointer. -/
def writeWord (data : Option (Nat → Nat)) (off : Nat) (w : Nat) :
    Except Failure (Option (Nat → Nat)) :=
  match data with
  | some f => Except.ok (some (fun k => if k = off then w else f k))
  | none => Except.error Failure.undefined

namespace BitVector

/-- The accessor `Dim()`. -/
def Dim (v : BitVector) : Nat := v.dim_

/-- The accessor `QuantBits()`. -/
def QuantBits (v : BitVector) : Int := v.quant_bits_

/-- The accessor `AlignBits()`. -/
def AlignBits (v : BitVector) : Int := v.align_bits_

/-- The accessor `Scale()`: the `int32` field converted back to `float`. -/
def Scale (v : BitVector) : ℚ := (v.scale_ : ℚ)

/-- Element access `v(index)`, with its range assertion. -/
def get (v : BitVector) (index : Int) : Except Failure Nat := do
  SNOWBOY_ASSERT (index < v.dim_ ∧ index ≥ 0)
  readWord v.data_ index.toNat

end BitVector

namespace BitMatrix

/-- The accessor `NumRows()`. -/
def NumRows (m : BitMatrix) : Nat := m.num_rows_

/-- The accessor `NumCols()`. -/
def NumCols (m : BitMatrix) : Nat := m.num_cols_

/-- The accessor `Stride()`. -/
def Stride (m : BitMatrix) : Nat := m.stride_

/-- The accessor `QuantBits()`. -/
def QuantBits (m : BitMatrix) : Int := m.quant_bits_

/-- The accessor `AlignBits()`. -/
def AlignBits (m : BitMatrix) : Int := m.align_bits_

/-- The accessor `Scale()`. -/
def Scale (m : BitMatrix) : ℚ := m.scale_

/-- The default constructor `BitMatrix()`. -/
def BitMatrix_default : BitMatrix :=
  { num_rows_ := 0, num_cols_ := 0, stride_ := 0, data_ := none, scale_ := 0,
    quant_bits_ := 0, align_bits_ := 64 }

/-- Read access `m(row, col)`, with its range assertion. -/
def get (m : BitMatrix) (row col : Int) : Except Failure Nat := do
  SNOWBOY_ASSERT (row < m.num_rows_ ∧ col < m.num_cols_ ∧ row ≥ 0 ∧ col ≥ 0)
  readWord m.data_ (row.toNat * m.stride_ + col.toNat)

/-- Write access `m(row, col) = w`, with its range assertion. -/
def set (m : BitMatrix) (row col : Int) (w : Nat) : Except Failure BitMatrix := do
  SNOWBOY_ASSERT (row < m.num_rows_ ∧ col < m.num_cols_ ∧ row ≥ 0 ∧ col ≥ 0)
  let d ← writeWord m.data_ (row.toNat * m.stride_ + col.toNat) w
  pure { m with data_ := d }

/-- The pointer `RowData(row)`, with its range assertion. -/
def RowData (m : BitMatrix) (row : Int) : Except Failure (Option (Nat → Nat)) := do
  SNOWBOY_ASSERT (row < m.num_rows_ ∧ row ≥ 0)
  pure (m.data_.map (fun f k => f (row.toNat * m.stride_ + k)))

/-- The view `Row(row)`: the constructor `BitVector(mat, row)` behind the range assertion of
`Row`. -/
def Row (m : BitMatrix) (row : Int) : Except Failure BitVector := do
  SNOWBOY_ASSERT (row < m.num_rows_ ∧ row ≥ 0)
  let d ← m.RowData row
  pure { dim_ := m.NumCols, data_ := d, quant_bits_ := m.QuantBits,
         align_bits_ := m.AlignBits, scale_ := truncToInt32 m.Scale }

/-- The function `ReleaseBitMatrixMemory`. -/
def ReleaseBitMatrixMemory (m : BitMatrix) : BitMatrix :=
  { m with num_rows_ := 0, num_cols_ := 0, stride_ := 0, data_ := none }

/-- The function `AllocateBitMatrixMemory(rows, cols)`. -/
def AllocateBitMatrixMemory (h : Heap) (m : BitMatrix) (rows cols : Int) :
    Except Failure BitMatrix := do
  SNOWBOY_ASSERT (rows ≥ 0 ∧ cols ≥ 0)
  if rows = 0 ∨ cols = 0 then
    pure { m with num_rows_ := 0, num_cols_ := 0, stride_ := 0, data_ := none }
  else do
    SNOWBOY_ASSERT (h.SNOWBOY_MEM_ALIGN % 4 = 0)
    let num_per_align := h.SNOWBOY_MEM_ALIGN / 8
    if num_per_align = 0 then Except.error Failure.undefined
    else
      let pad := (num_per_align - cols.toNat % num_per_align) % num_per_align
      let size := 8 * rows.toNat * (cols.toNat + pad)
      match h.SnowboyMemalign h.SNOWBOY_MEM_ALIGN size with
      | some data =>
        pure { m with data_ := some data, num_rows_ := rows.toNat, num_cols_ := cols.toNat,
                      stride_ := cols.toNat + pad }
      | none => Except.error Failure.bad_alloc

/-- The function `Set(value)`. -/
def Set (m : BitMatrix) (value : Nat) : Except Failure BitMatrix :=
  forRange m.num_rows_ (fun r m1 =>
    forRange m.num_cols_ (fun c m2 => m2.set r c value) m1) m

/-- The function `Resize(rows, cols)`. -/
def Resize (h : Heap) (m : BitMatrix) (rows cols : Int) : Except Failure BitMatrix :=
  if (m.num_rows_ : Int) = rows ∧ (m.num_cols_ : Int) = cols then m.Set 0
  else
    let m1 := if m.data_.isSome then m.ReleaseBitMatrixMemory else m
    m1.AllocateBitMatrixMemory h rows cols

/-- The private function `quantize(x)`: `roundf(x * (pow(2, quant_bits_) - 1))` returned as
`int32`. The power, the difference and the product are values of type `double`; the product
is narrowed to `float` where it is passed to `roundf`. -/
def quantize (fu : FloatUnit) (m : BitMatrix) (x : ℚ) : Int :=
  toInt32 (roundf (fu.toFloat (fu.toDouble (x * fu.toDouble ((2 : ℚ) ^ m.quant_bits_ - 1)))))

/-- The quotient `8 * sizeof(uint64) / align_bits_`, computed in `size_t`; a zero divisor is
undefined. -/
def lanesPerWord (align_bits : Int) : Except Failure Nat :=
  if toUInt64 align_bits = 0 then Except.error Failure.undefined
  else Except.ok (64 / toUInt64 align_bits)

/-- The quotient `in.NumCols() / (8 * sizeof(uint64) / align_bits_)`. -/
def wordsPerRow (align_bits : Int) (cols : Nat) : Except Failure Nat := do
  let l ← lanesPerWord align_bits
  if l = 0 then Except.error Failure.undefined else pure (cols / l)

/-- The word built for position `(r, c)` by the inner loop of `Quantize`. -/
def quantizeWord (fu : FloatUnit) (m : BitMatrix) (inp : MatrixBase) (contain_nums : Nat)
    (r c : Nat) :
    Except Failure Nat := do
  let x0 ← inp.get r (c * contain_nums)
  forRange (contain_nums - 1) (fun k tmp => do
    let x ← inp.get r (c * contain_nums + (k + 1))
    pure ((shl64 tmp m.align_bits_.toNat + toUInt64 (m.quantize fu x)) % 2 ^ 64))
    (toUInt64 (m.quantize fu x0))

/-- The function `Quantize(in)`. The source matrix is never the bit matrix itself, so the
early return on aliasing is not taken. -/
def Quantize (fu : FloatUnit) (h : Heap) (m : BitMatrix) (inp : MatrixBase) :
    Except Failure BitMatrix := do
  SNOWBOY_ASSERT (m.align_bits_ > 0)
  let cols ← wordsPerRow m.align_bits_ inp.num_cols_
  let m1 ← (if m.num_rows_ ≠ inp.num_rows_ ∨ m.num_cols_ ≠ cols then
      m.Resize h inp.num_rows_ cols else pure m)
  SNOWBOY_ASSERT (m1.num_rows_ = inp.num_rows_ ∧ m1.num_cols_ = cols)
  SNOWBOY_ASSERT (m1.align_bits_ ≥ m1.quant_bits_)
  let contain_nums ← lanesPerWord m1.align_bits_
  forRange m1.num_rows_ (fun r m2 =>
    forRange m2.num_cols_ (fun c m3 => do
      let tmp ← m3.quantizeWord fu inp contain_nums r c
      let d ← writeWord m3.data_ (r * m3.stride_ + c) tmp
      pure { m3 with data_ := d }) m2) m1

/-- The members as the quantizing constructors set them before their call of `Resize`:
the empty state, the given bit widths and `scale_ = 1 / (pow(2, quant_bits_) - 1)`. -/
def ctorState (quant_bits align_bits : Int) : BitMatrix :=
  { num_rows_ := 0, num_cols_ := 0, stride_ := 0, data_ := none,
    quant_bits_ := quant_bits, scale_ := 1 / ((2 : ℚ) ^ quant_bits - 1),
    align_bits_ := align_bits }

/-- The constructor `BitMatrix(in, quant_bits, align_bits)`. -/
def BitMatrix_quant_align (fu : FloatUnit) (h : Heap) (inp : MatrixBase)
    (quant_bits align_bits : Int) : Except Failure BitMatrix := do
  let cols ← wordsPerRow align_bits inp.num_cols_
  let m1 ← (ctorState quant_bits align_bits).Resize h inp.num_rows_ cols
  m1.Quantize fu h inp

/-- The constructor `BitMatrix(in, in_bits)`. -/
def BitMatrix_in_bits (fu : FloatUnit) (h : Heap) (inp : MatrixBase) (in_bits : Int) :
    Except Failure BitMatrix := do
  let cols ← wordsPerRow in_bits inp.num_cols_
  let m1 ← (ctorState in_bits in_bits).Resize h inp.num_rows_ cols
  m1.Quantize fu h inp

/-- The function `ToMatrix(out)`. -/
def ToMatrix (m : BitMatrix) (out : MatrixBase) : Except Failure MatrixBase :=
  if m.quant_bits_ = 1 then
    forRange m.num_rows_ (fun r o1 =>
      forRange m.num_cols_ (fun c o2 => do
        let w ← readWord m.data_ (r * m.stride_ + c)
        o2.set r c (if w = 1 then m.scale_ else -m.scale_)) o1) out
  else
    forRange m.num_rows_ (fun r o1 =>
      forRange m.num_cols_ (fun c o2 => do
        let w ← readWord m.data_ (r * m.stride_ + c)
        o2.set r c (m.scale_ * (w : ℚ))) o1) out

end BitMatrix

/-! ## bit-vector.cc, bit-matrix.cc: products -/

/-- The function `VecVec(x, y)`. -/
def VecVec (x y : BitVector) : Except Failure Int := do
  SNOWBOY_ASSERT (x.Dim = y.Dim)
  if y.QuantBits = 1 then
    forRange x.Dim (fun k result => do
      let xk ← x.get k
      let yk ← y.get k
      pure (toInt32 (result + bit_kernel_for_uint64_8_1 xk yk))) 0
  else pure 0

/-- The function `BitMatBitMat(x, y, out)`. -/
def BitMatBitMat (x y : BitMatrix) (out : MatrixBase) : Except Failure MatrixBase := do
  SNOWBOY_ASSERT (x.NumCols = y.NumCols ∧ x.NumRows = out.num_rows_ ∧
    y.NumRows = out.num_cols_)
  let scale := x.Scale * y.Scale
  forRange out.num_rows_ (fun r o1 =>
    forRange out.num_cols_ (fun c o2 => do
      let xr ← x.Row r
      let yc ← y.Row c
      let v ← VecVec xr yc
      o2.set r c (scale * (v : ℚ))) o1) out

/-! ## Specification vocabulary -/

/-- Lanes packed into a word with lane `i` at bits `8 i .. 8 i + 7`: the sum of
`u i * 256 ^ i` over the first `n` lanes. -/
def packN (u : Nat → Nat) (n : Nat) : Nat := ∑ i in Finset.range n, u i * 256 ^ i

/-- The lane of a sign flag: 1 for a set flag, 0 otherwise. -/
def signLane (sg : Nat → Bool) (i : Nat) : Nat := if sg i then 1 else 0

/-- The positive count minus the negative count of bit plane `b` in the kernel. -/
def planeDiff (x y : Nat) (b : Nat) : Int :=
  (popcountll (x &&& shl64 y b) : Int) - (popcountll (x &&& shl64 (not64 y &&& mask_8_1) b) : Int)

/-- Eight lanes packed into one word, lane `i` at bits `8 i .. 8 i + 7`. -/
def packLanes (x : Fin 8 → Nat) : Nat := ∑ i : Fin 8, x i * 256 ^ (i : Nat)

/-- The sign word of eight signs: lane `i` holds 1 for the sign `+1` and 0 for the sign `-1`. -/
def packSigns (s : Fin 8 → Int) : Nat := packLanes (fun i => if s i = 1 then 1 else 0)

/-- Lanes indexed by `Fin 8` as a function on all naturals (zero from lane 8 on). -/
def laneFn (x : Fin 8 → Nat) (j : Nat) : Nat := if h : j < 8 then x ⟨j, h⟩ else 0

namespace BitMatrix

/-- The shape invariant of a bit matrix: either the empty state without a buffer, or a
buffer with positive dimensions and a stride of at least the column count. -/
def Valid (m : BitMatrix) : Prop :=
  (m.data_.isSome = false ∧ m.num_rows_ = 0 ∧ m.num_cols_ = 0 ∧ m.stride_ = 0) ∨
  (m.data_.isSome = true ∧ 0 < m.num_rows_ ∧ 0 < m.num_cols_ ∧ m.num_cols_ ≤ m.stride_)

instance (m : BitMatrix) : Decidable m.Valid := by
  unfold Valid
  infer_instance

/-- The word an in-range `m(r, c)` reads: the buffer at offset `r * stride_ + c`. -/
def word (m : BitMatrix) (r c : Nat) : Nat :=
  match m.data_ with
  | some f => f (r * m.stride_ + c)
  | none => 0

end BitMatrix

/-- The view that `Row(r)` yields for a matrix whose buffer is `f`. -/
def BitMatrix.rowView (m : BitMatrix) (f : Nat → Nat) (r : Nat) : BitVector :=
  { dim_ := m.num_cols_, data_ := some (fun k => f (r * m.stride_ + k)),
    quant_bits_ := m.quant_bits_, align_bits_ := m.align_bits_,
    scale_ := truncToInt32 m.scale_ }

/-- The shape invariant of a dense matrix, as kept by its allocator: no rows exactly when
no columns. -/
def MatrixBase.Valid (m : MatrixBase) : Prop := m.num_rows_ = 0 ↔ m.num_cols_ = 0

/-- The exact sum of the kernel over the first `n` word pairs of row `r` of `x` and row `c`
of `y`. -/
def kernelSum (x y : BitMatrix) (r c n : Nat) : Int :=
  ∑ k in Finset.range n, bit_kernel_for_uint64_8_1 (x.word r k) (y.word c k)

/-- A one-row magnitude matrix of 1052689 words, every lane holding 255 (8-bit quantization
of a row of 8421512 ones). -/
def bigMagnitudes : BitMatrix :=
  { num_rows_ := 1, num_cols_ := 1052689, stride_ := 1052690,
    data_ := some (fun _ => 18446744073709551615), scale_ := 1 / 255, quant_bits_ := 8,
    align_bits_ := 8 }

/-- A one-row sign matrix of 1052689 words, every lane holding the flag 1. -/
def bigSigns : BitMatrix :=
  { num_rows_ := 1, num_cols_ := 1052689, stride_ := 1052690,
    data_ := some (fun _ => mask_8_1), scale_ := 1, quant_bits_ := 1, align_bits_ := 8 }

/-- A dense matrix with one cell. -/
def oneCell : MatrixBase := { num_rows_ := 1, num_cols_ := 1, elem := fun _ _ => 0 }

/-- The magnitude word of lanes 3, 0, 255, 1, 0, 0, 0, 0 as a one-word matrix. -/
def smallMagnitudes : BitMatrix :=
  { num_rows_ := 1, num_cols_ := 1, stride_ := 2, data_ := some (fun _ => 33488899),
    scale_ := 1 / 255, quant_bits_ := 8, align_bits_ := 8 }

/-- The sign word of signs +, -, +, -, +, +, +, + as a one-word matrix. -/
def smallSigns : BitMatrix :=
  { num_rows_ := 1, num_cols_ := 1, stride_ := 2, data_ := some (fun _ => 72340172821299201),
    scale_ := 1, quant_bits_ := 1, align_bits_ := 8 }

/-- The packed value of `L` lanes of width `a`, first lane most significant: the sum of
`q i * 2 ^ (a * (L - 1 - i))`. -/
def laneSum (a : Nat) (q : Nat → Int) (L : Nat) : Int :=
  ∑ i in Finset.range L, q i * 2 ^ (a * (L - 1 - i))

/-- The number of lanes per word for a lane width: `64 / align_bits`. -/
def lanes (align_bits : Int) : Nat := 64 / align_bits.toNat

/-- A memory environment in which allocation works: the alignment constant is a multiple of
`sizeof(float)` and at least `sizeof(uint64)`, and `SnowboyMemalign` returns a block. -/
def Heap.Ok (h : Heap) : Prop :=
  h.SNOWBOY_MEM_ALIGN % 4 = 0 ∧ 8 ≤ h.SNOWBOY_MEM_ALIGN ∧
    ∀ a s, (h.SnowboyMemalign a s).isSome = true

/-- The word `Quantize` stores at `(r, c)`: the packed value of the quantized group of source
elements `c * L .. c * L + L - 1` of row `r`, reduced modulo `2 ^ 64`. -/
def quantWord (fu : FloatUnit) (m : BitMatrix) (inp : MatrixBase) (r c : Nat) : Nat :=
  toUInt64 (laneSum m.align_bits_.toNat
    (fun i => m.quantize fu (inp.elem r (c * lanes m.align_bits_ + i))) (lanes m.align_bits_))

/-- Two matrix states with the same shape, stride and metadata, and a buffer in both or in
neither. -/
def SameFrame (m1 m2 : BitMatrix) : Prop :=
  m2.num_rows_ = m1.num_rows_ ∧ m2.num_cols_ = m1.num_cols_ ∧ m2.stride_ = m1.stride_ ∧
  m2.scale_ = m1.scale_ ∧ m2.quant_bits_ = m1.quant_bits_ ∧ m2.align_bits_ = m1.align_bits_ ∧
  m2.data_.isSome = m1.data_.isSome

/-- The value the quantizer rounds to, before the conversion of the result to `int32`:
`roundf` of the product `x * (2 ^ quant_bits - 1)` as the floating-point unit delivers it.
With `FloatUnit.exact` it is the `Q(x) = round(x * (2 ^ quant_bits - 1))` of the
specification. -/
def quantValue (fu : FloatUnit) (quant_bits : Int) (x : ℚ) : Int :=
  roundf (fu.toFloat (fu.toDouble (x * fu.toDouble ((2 : ℚ) ^ quant_bits - 1))))

/-- The word the packing rule prescribes at `(r, c)` for the unclamped and unreduced values
`Q = quantValue fu quant_bits`: the sum over the `L = 64 / align_bits` lanes of
`Q(in(r, c * L + i)) * 2 ^ (align_bits * (L - 1 - i))`, modulo `2 ^ 64`. -/
def packedWord (fu : FloatUnit) (quant_bits align_bits : Int) (inp : MatrixBase)
    (r c : Nat) : Nat :=
  toUInt64 (laneSum align_bits.toNat
    (fun i => quantValue fu quant_bits (inp.elem r (c * lanes align_bits + i)))
    (lanes align_bits))

/-- A memory environment with 16-byte alignment whose blocks are zero-filled. -/
def heap16 : Heap := { SNOWBOY_MEM_ALIGN := 16, SnowboyMemalign := fun _ _ => some (fun _ => 0) }

/-- A 1 x 1 source matrix holding `2 ^ 31`. -/
def sourceTwoPow31 : MatrixBase :=
  { num_rows_ := 1, num_cols_ := 1, elem := fun _ _ => 2147483648 }

/-- A 1 x 1 source matrix holding the `float` value `0x1.020202p-1`, that is
`8454401 / 2 ^ 24`: its product with 255 lies just below 128.5. -/
def sourceTie : MatrixBase :=
  { num_rows_ := 1, num_cols_ := 1, elem := fun _ _ => 8454401 / 16777216 }

/-- A 1 x 8 source matrix holding 0/255, 1/255, ..., 7/255. -/
def sourceRamp : MatrixBase :=
  { num_rows_ := 1, num_cols_ := 8, elem := fun _ c => (c : ℚ) / 255 }

/-- The packed value of `L` natural lanes of width `a`, first lane most significant. -/
def natLaneSum (a : Nat) (d : Nat → Nat) (L : Nat) : Nat :=
  ∑ i in Finset.range L, d i * 2 ^ (a * (L - 1 - i))

/-- Lane `i`, counted from the most significant lane, of a word of `L` lanes of width `a`. -/
def laneOf (a L w i : Nat) : Nat := w / 2 ^ (a * (L - 1 - i)) % 2 ^ a

/-- The ramp word `0x0001020304050607` as a one-word matrix of 8-bit lanes. -/
def rampBits : BitMatrix :=
  { num_rows_ := 1, num_cols_ := 1, stride_ := 2, data_ := some (fun _ => 283686952306183),
    scale_ := 1 / 255, quant_bits_ := 8, align_bits_ := 8 }

/-- A dense 1 x 8 matrix of zeros. -/
def rowOfEight : MatrixBase := { num_rows_ := 1, num_cols_ := 8, elem := fun _ _ => 0 }

/-- The dense matrix of the given shape with every element 1 (`Set(1)`). -/
def allOnes (rows cols : Nat) : MatrixBase :=
  { num_rows_ := rows, num_cols_ := cols, elem := fun _ _ => 1 }

/-- The dense matrix of the given shape with every element 0. -/
def allZeros (rows cols : Nat) : MatrixBase :=
  { num_rows_ := rows, num_cols_ := cols, elem := fun _ _ => 0 }

/-- One element of a stream. Characters written or read directly are `chr`; what the helpers
`WriteToken` and `WriteBasicType` write is kept as one element each; `word` is the eight raw
bytes of one `uint64` written by `os->write`. -/
inductive Item where
  | chr (c : Char)
  | token (s : String)
  | int32 (v : Int)
  | float (v : ℚ)
  | word (w : Nat)

/-- Modelled from the spec: `WriteToken` of `utils/snowboy-io.h`, which is not among the
sources; it appends the token as one stream element (a literal token, as in the layouts of the
specification). -/
def WriteToken (token : String) (os : List Item) : List Item := os ++ [Item.token token]

/-- Modelled from the spec: `WriteBasicType` of `utils/snowboy-io.h` for `int32`; it appends
the value as one stream element. -/
def WriteBasicType_int32 (v : Int) (os : List Item) : List Item := os ++ [Item.int32 v]

/-- Modelled from the spec: `WriteBasicType` of `utils/snowboy-io.h` for `float`; it appends
the value as one stream element. -/
def WriteBasicType_float (v : ℚ) (os : List Item) : List Item := os ++ [Item.float v]

/-- The characters of a string literal written with `<<`. -/
def chars (s : String) : List Item := s.data.map Item.chr

/-- The function `std::isspace` in the default locale. -/
def isspace (c : Char) : Bool :=
  c = ' ' || c = '\t' || c = '\n' || c = Char.ofNat 11 || c = Char.ofNat 12 || c = '\r'

/-- Dropping leading whitespace characters (`is >> std::ws`). -/
def skipWs : List Item → List Item
  | Item.chr c :: rest => if isspace c then skipWs rest else Item.chr c :: rest
  | is => is

/-- Reading a run of non-whitespace characters (`is >> str`): the characters and the rest. -/
def readStr : List Item → List Char × List Item
  | Item.chr c :: rest =>
    if isspace c then ([], Item.chr c :: rest)
    else ((c :: (readStr rest).1), (readStr rest).2)
  | is => ([], is)

/-- Modelled from the spec: `ExpectToken` of `utils/snowboy-io.h`, which is not among the
sources. A token element must be the expected token. A token given as characters (the
bracket `[`, which `Write` emits with `<<`) is read after skipping whitespace, up to the next
whitespace, and the character after it is consumed. Anything else is an error. -/
def ExpectToken (token : String) (is : List Item) : Except Failure (List Item) :=
  match is with
  | Item.token s :: rest => if s = token then Except.ok rest else Except.error Failure.error
  | _ =>
    match readStr (skipWs is) with
    | (str, Item.chr _ :: rest) =>
      if str = token.data then Except.ok rest else Except.error Failure.error
    | _ => Except.error Failure.error

/-- Modelled from the spec: `ReadBasicType` of `utils/snowboy-io.h` for `int32`; it reads one
`int32` element and fails on anything else. -/
def ReadBasicType_int32 (is : List Item) : Except Failure (Int × List Item) :=
  match is with
  | Item.int32 v :: rest => Except.ok (v, rest)
  | _ => Except.error Failure.error

/-- Modelled from the spec: `ReadBasicType` of `utils/snowboy-io.h` for `float`; it reads one
`float` element and fails on anything else. -/
def ReadBasicType_float (is : List Item) : Except Failure (ℚ × List Item) :=
  match is with
  | Item.float v :: rest => Except.ok (v, rest)
  | _ => Except.error Failure.error

/-- The words `os->write` emits for `n` words starting at an offset of a pointer; writing
nothing needs no buffer. -/
def writeWords (data : Option (Nat → Nat)) (off n : Nat) : Except Failure (List Item) :=
  if n = 0 then Except.ok []
  else match data with
    | some f => Except.ok ((List.range n).map (fun k => Item.word (f (off + k))))
    | none => Except.error Failure.undefined

/-- The decimal digits `os << w` prints for a `uint64`. -/
def printUInt64 (w : Nat) : List Item := (Nat.toDigits 10 w).map Item.chr

/-- The metadata fields, written the same way in both modes. -/
def writeHeader (m : BitMatrix) (os : List Item) : List Item :=
  WriteBasicType_float m.scale_ (WriteToken "<Scale>"
    (WriteBasicType_int32 m.align_bits_ (WriteToken "<AlignBits>"
      (WriteBasicType_int32 m.quant_bits_ (WriteToken "<QuantBits>" os)))))

/-- The function `BitMatrix::Write(binary, os)`, on a stream that is good. -/
def BitMatrix.Write (binary : Bool) (m : BitMatrix) (os : List Item) :
    Except Failure (List Item) :=
  if binary then
    let os1 := writeHeader m (WriteBasicType_int32 m.num_cols_
      (WriteBasicType_int32 m.num_rows_ (WriteToken "BM" os)))
    if m.Stride = m.NumCols then do
      let ws ← writeWords m.data_ 0 (m.num_rows_ * m.num_cols_)
      pure (os1 ++ ws)
    else
      forRange m.num_rows_ (fun i os2 => do
        let d ← m.RowData i
        let ws ← writeWords d 0 m.num_cols_
        pure (os2 ++ ws)) os1
  else
    let os1 := writeHeader m os
    if m.num_cols_ = 0 then pure (os1 ++ chars " [ ]\n")
    else do
      let os3 ← forRange m.num_rows_ (fun i os2 =>
        forRange m.num_cols_ (fun j os4 => do
          let w ← m.get i j
          pure (os4 ++ printUInt64 w ++ chars " ")) (os2 ++ chars "\n  ")) (os1 ++ chars " [")
      pure (os3 ++ chars "]\n")

/-- The outcome of `Read`: the matrix and the rest of the stream, or a failure together with
the state the matrix was left in. -/
abbrev ReadResult : Type := Except (Failure × BitMatrix) (BitMatrix × List Item)

/-- A step that fails while the matrix is in state `m`. -/
def failAt {α : Type} (m : BitMatrix) (x : Except Failure α) : Except (Failure × BitMatrix) α :=
  match x with
  | Except.ok a => Except.ok a
  | Except.error e => Except.error (e, m)

/-- `Resize` inside `Read`: when it fails, the buffer has already been released. -/
def resizeAt (h : Heap) (m : BitMatrix) (rows cols : Int) :
    Except (Failure × BitMatrix) BitMatrix :=
  match m.Resize h rows cols with
  | Except.ok m1 => Except.ok m1
  | Except.error e =>
    Except.error (e, if (m.num_rows_ : Int) = rows ∧ (m.num_cols_ : Int) = cols then m
      else if m.data_.isSome then m.ReleaseBitMatrixMemory else m)

/-- The metadata fields read into the members, then the assertion
`align_bits_ >= quant_bits_`. -/
def readHeader (m : BitMatrix) (is : List Item) : ReadResult := do
  let is1 ← failAt m (ExpectToken "<QuantBits>" is)
  let q ← failAt m (ReadBasicType_int32 is1)
  let m1 : BitMatrix := { m with quant_bits_ := q.1 }
  let is2 ← failAt m1 (ExpectToken "<AlignBits>" q.2)
  let a ← failAt m1 (ReadBasicType_int32 is2)
  let m2 : BitMatrix := { m1 with align_bits_ := a.1 }
  let is3 ← failAt m2 (ExpectToken "<Scale>" a.2)
  let s ← failAt m2 (ReadBasicType_float is3)
  let m3 : BitMatrix := { m2 with scale_ := s.1 }
  failAt m3 (SNOWBOY_ASSERT (m3.align_bits_ ≥ m3.quant_bits_))
  pure (m3, s.2)

/-- The leading `word` elements of a stream, at most `n` of them, and the rest. -/
def takeWords : Nat → List Item → List Nat × List Item
  | n + 1, Item.word w :: rest => (w :: (takeWords n rest).1, (takeWords n rest).2)
  | _, is => ([], is)

/-- Storing words at consecutive offsets from a pointer (`is->read` into a buffer). -/
def storeWords (data : Option (Nat → Nat)) (off : Nat) (ws : List Nat) :
    Except Failure (Option (Nat → Nat)) :=
  match data with
  | some f => Except.ok (some (fun k => if off ≤ k ∧ k < off + ws.length then
      ws.getD (k - off) 0 else f k))
  | none => if ws = [] then Except.ok none else Except.error Failure.undefined

/-- One `is->read` of `n` words to an offset of the buffer of `m`: the words that are there
are stored; fewer than `n` sets the fail bit, which ends `Read` with `SNOWBOY_ERROR`. -/
def readBlock (m : BitMatrix) (off n : Nat) (is : List Item) : ReadResult :=
  match storeWords m.data_ off (takeWords n is).1 with
  | Except.ok d =>
    if (takeWords n is).1.length = n then
      Except.ok ({ m with data_ := d }, (takeWords n is).2)
    else Except.error (Failure.error, { m with data_ := d })
  | Except.error e => Except.error (e, m)

/-- The binary branch of `Read` after the header. -/
def readBinaryBody (h : Heap) (m : BitMatrix) (num_rows num_cols : Int) (is : List Item) :
    ReadResult := do
  let m1 ← (if num_rows ≠ (m.num_rows_ : Int) ∨ num_cols ≠ (m.num_cols_ : Int) then
    resizeAt h m num_rows num_cols else pure m)
  if toInt32 (num_rows * num_cols) ≠ 0 then
    if m1.stride_ = m1.num_cols_ then
      readBlock m1 0 (num_rows * num_cols).toNat is
    else
      forRange num_rows.toNat (fun i (st : BitMatrix × List Item) => do
        failAt st.1 (SNOWBOY_ASSERT ((i : Int) < st.1.num_rows_ ∧ (i : Int) ≥ 0))
        readBlock st.1 (i * st.1.stride_) num_cols.toNat st.2) (m1, is)
  else pure (m1, is)

/-- The local variables of the text branch of `Read`. -/
structure TextState where
  data : List Nat
  num_rows : Nat
  num_cols : Nat
  this_num_cols : Nat
  m : Nat
  is_end : Bool

/-- The digits at the head of a stream and the rest. -/
def readDigits : List Item → List Nat × List Item
  | Item.chr c :: rest =>
    if c.isDigit then ((c.toNat - 48) :: (readDigits rest).1, (readDigits rest).2)
    else ([], Item.chr c :: rest)
  | is => ([], is)

/-- The extraction `*is >> f` of a `uint64` at a digit or a minus sign: the value and the
rest, or nothing when the extraction sets the fail bit (no digit, or a magnitude that does
not fit). A minus sign negates modulo `2 ^ 64`. -/
def readUInt64 (is : List Item) : Option (Nat × List Item) :=
  match is with
  | Item.chr c :: rest =>
    let neg := decide (c = '-')
    let r := readDigits (if neg then rest else is)
    let v : Nat := r.1.foldl (fun n d => 10 * n + d) 0
    if r.1 = [] ∨ v ≥ 2 ^ 64 then none
    else some (if neg then toUInt64 (-(v : Int)) else v, r.2)
  | _ => none

/-- The partial group at the end of a row: `m << align_bits_ * (contain_nums - this_num_cols
% contain_nums)` appended to `data`. -/
def flushRow (align_bits : Int) (contain_nums : Nat) (st : TextState) : TextState :=
  if st.this_num_cols % contain_nums ≠ 0 then
    { st with
      data := st.data ++ [shl64 st.m (align_bits.toNat *
        (contain_nums - st.this_num_cols % contain_nums))],
      m := 0 }
  else st

/-- One iteration of the `while (!is_end)` loop of the text branch, up to and including the
check `is->fail()`. A remainder by `contain_nums = 0` is undefined. -/
def textStep (align_bits : Int) (contain_nums : Nat) (st : TextState) (is : List Item) :
    Except Failure (TextState × List Item) :=
  match is with
  | [] => Except.error Failure.error
  | Item.chr c :: rest =>
    if c = '-' ∨ c.isDigit then
      match readUInt64 is with
      | none => Except.error Failure.error
      | some (f, is1) =>
        match is1 with
        | Item.chr d :: _ =>
          if ¬ isspace d ∧ d ≠ ']' ∧ d ≠ ';' then Except.error Failure.error
          else if contain_nums = 0 then Except.error Failure.undefined
          else
            let m1 := (shl64 st.m align_bits.toNat + f) % 2 ^ 64
            if (st.this_num_cols + 1) % contain_nums = 0 then
              Except.ok ({ st with this_num_cols := st.this_num_cols + 1,
                                   data := st.data ++ [m1], m := 0 }, is1)
            else
              Except.ok ({ st with this_num_cols := st.this_num_cols + 1, m := m1 }, is1)
        | _ => Except.error Failure.error
    else if c = ' ' ∨ c = '\t' then Except.ok (st, rest)
    else if c = ']' then
      if contain_nums = 0 then Except.error Failure.undefined
      else
        let st1 := flushRow align_bits contain_nums st
        let st2 := { st1 with is_end := true, num_rows := st1.num_rows + 1 }
        match rest with
        | Item.chr '\r' :: rest1 =>
          match rest1 with
          | _ :: rest2 => Except.ok (st2, rest2)
          | [] => Except.error Failure.error
        | Item.chr '\n' :: rest1 => Except.ok (st2, rest1)
        | _ => Except.ok (st2, rest)
    else if c = '\n' ∨ c = ';' then
      let num_cols := if st.num_cols = 0 ∧ st.num_cols ≠ st.this_num_cols then
        st.this_num_cols else st.num_cols
      if num_cols ≠ st.this_num_cols then Except.error Failure.error
      else if contain_nums = 0 then Except.error Failure.undefined
      else
        let st1 := flushRow align_bits contain_nums { st with num_cols := num_cols }
        Except.ok ({ st1 with num_rows := st1.num_rows + 1, this_num_cols := 0 }, rest)
    else Except.error Failure.error
  | _ :: _ => Except.error Failure.error

/-- The `while (!is_end)` loop, run for at most `fuel` iterations. -/
def textLoop (align_bits : Int) (contain_nums : Nat) :
    Nat → TextState → List Item → Except Failure (TextState × List Item)
  | 0, _, _ => Except.error Failure.undefined
  | fuel + 1, st, is =>
    match textStep align_bits contain_nums st is with
    | Except.ok (st1, is1) =>
      if st1.is_end then Except.ok (st1, is1) else textLoop align_bits contain_nums fuel st1 is1
    | Except.error e => Except.error e

/-- The text branch of `Read` after the header. Every iteration of the loop consumes a
character, so the length of the stream plus one bounds the iterations. -/
def readTextBody (h : Heap) (m : BitMatrix) (is : List Item) : ReadResult := do
  let is1 ← failAt m (ExpectToken "[" is)
  let contain_nums ← failAt m (BitMatrix.lanesPerWord m.align_bits_)
  let r ← failAt m (textLoop m.align_bits_ contain_nums (is1.length + 1)
    { data := [], num_rows := 0, num_cols := 0, this_num_cols := 0, m := 0, is_end := false }
    is1)
  let num_cols := r.1.num_cols / contain_nums
  failAt m (SNOWBOY_ASSERT (r.1.data.length = r.1.num_rows * num_cols))
  let m1 ← resizeAt h m r.1.num_rows num_cols
  let m2 ← forRange r.1.num_rows (fun i m3 =>
    forRange num_cols (fun j (m4 : BitMatrix) =>
      match m4.set i j (r.1.data.getD (i * num_cols + j) 0) with
      | Except.ok m5 => Except.ok m5
      | Except.error e => Except.error (e, m4)) m3) m1
  pure (m2, r.2)

/-- The function `BitMatrix::Read(binary, is)`. -/
def BitMatrix.Read (h : Heap) (binary : Bool) (m : BitMatrix) (is : List Item) : ReadResult := do
  failAt m (SNOWBOY_ASSERT (m.align_bits_ > 0 ∧ (64 : Int) % m.align_bits_ = 0))
  if binary then do
    let is1 ← failAt m (ExpectToken "BM" is)
    let r ← failAt m (ReadBasicType_int32 is1)
    let c ← failAt m (ReadBasicType_int32 r.2)
    let hd ← readHeader m c.2
    readBinaryBody h hd.1 r.1 c.1 hd.2
  else do
    let hd ← readHeader m is
    readTextBody h hd.1 hd.2

/-- The metadata fields of a serialized matrix, as `Write` emits them. -/
def headerItems (q a : Int) (s : ℚ) : List Item :=
  [Item.token "<QuantBits>", Item.int32 q, Item.token "<AlignBits>", Item.int32 a,
   Item.token "<Scale>", Item.float s]

/-- A text input with 8-bit lanes whose first row has eight literals and whose last row, the
one closed by the bracket, has three. -/
def raggedText : List Item := headerItems 8 8 1 ++ chars " [\n 1 2 3 4 5 6 7 8\n 1 2 3 ]\n"

/-- A text input with 8-bit lanes and two rows of three literals each. -/
def shortRowsText : List Item := headerItems 8 8 1 ++ chars " [\n 1 2 3\n 4 5 6 ]\n"

/-- The local variables of the text branch of `Read` before the first iteration. -/
def textStart : TextState :=
  { data := [], num_rows := 0, num_cols := 0, this_num_cols := 0, m := 0, is_end := false }

/-- The exact sum of the kernel over the first `n` word pairs of two buffers. -/
def vecSum (f g : Nat → Nat) (n : Nat) : Int :=
  ∑ k in Finset.range n, bit_kernel_for_uint64_8_1 (f k) (g k)

/-- A view of `dim` words, every word `w`, with the given quantization width. -/
def constView (dim w : Nat) (quant_bits : Int) : BitVector :=
  { dim_ := dim, data_ := some (fun _ => w), quant_bits_ := quant_bits, align_bits_ := 8,
    scale_ := 0 }

/-- A dense 1 x 9 matrix of zeros except for a one in its last column. -/
def rowOfNine : MatrixBase :=
  { num_rows_ := 1, num_cols_ := 9, elem := fun _ c => if c = 8 then 1 else 0 }

/-- A text input whose header has `align_bits = 24`, with two rows of two literals. -/
def align24Text : List Item := headerItems 8 24 1 ++ chars " [\n 1 2\n 3 4 ]\n"

/-- The shape, the stride and the buffer of `st` are those of `m`. -/
def SameBuffer (m st : BitMatrix) : Prop :=
  st.num_rows_ = m.num_rows_ ∧ st.num_cols_ = m.num_cols_ ∧ st.stride_ = m.stride_ ∧
    st.data_ = m.data_

/-- A text input whose header has `align_bits = 4` below `quant_bits = 8`. -/
def narrowHeaderText : List Item := headerItems 8 4 1 ++ chars " [ ]\n"

/-- A binary input announcing a 1 x 1 matrix whose word is missing. -/
def truncatedBinary : List Item :=
  [Item.token "BM", Item.int32 1, Item.int32 1] ++ headerItems 8 8 1

/-- The stream of the raw words `wl a`, `wl (a + 1)`, .., `wl (a + n - 1)`. -/
def wordsFrom (wl : Nat → Nat) (a n : Nat) : List Item :=
  (List.range' a n).map (fun k => Item.word (wl k))

/-- The words of a matrix in row-major order, without the padding of the stride. -/
def rowMajor (m : BitMatrix) (k : Nat) : Nat := m.word (k / m.num_cols_) (k % m.num_cols_)

/-- The stream elements before the words in the binary layout. -/
def binaryHeader (rows cols : Nat) (q a : Int) (s : ℚ) : List Item :=
  [Item.token "BM", Item.int32 rows, Item.int32 cols] ++ headerItems q a s

/-- The target of a `Read` after its header has been read. -/
def withHeader (m : BitMatrix) (q a : Int) (s : ℚ) : BitMatrix :=
  { m with quant_bits_ := q, align_bits_ := a, scale_ := s }

/-- The padding of a row of `cols` words to a multiple of `n` words:
`(n - cols % n) % n`. -/
def padOf (n cols : Nat) : Nat := (n - cols % n) % n

/-- The size convention for a matrix `m` that is written and read back in the memory
environment `h`: the offsets into the buffer of `m`, and those into the buffer that is
allocated in `h` for a matrix of the shape of `m`, are representable in the index type
`MatrixIndexT` (`int32`). -/
def BitMatrix.Addressable (h : Heap) (m : BitMatrix) : Prop :=
  m.num_rows_ * m.stride_ < 2147483648 ∧
  m.num_rows_ * (m.num_cols_ + padOf (h.SNOWBOY_MEM_ALIGN / 8) m.num_cols_) < 2147483648

/-- A memory environment with 16-byte alignment in which no block is available. -/
def heapFull : Heap := { SNOWBOY_MEM_ALIGN := 16, SnowboyMemalign := fun _ _ => none }

/-- The state a successful allocation leaves: the block, the shape and the stride replaced,
the metadata kept. -/
def BitMatrix.allocated (m : BitMatrix) (data : Nat → Nat) (rows cols stride : Nat) :
    BitMatrix :=
  { m with data_ := some data, num_rows_ := rows, num_cols_ := cols, stride_ := stride }

/-- The empty dense matrix. -/
def emptyDense : MatrixBase := { num_rows_ := 0, num_cols_ := 0, elem := fun _ _ => 0 }

/-- The metadata of `st` is that of `m`. -/
def SameMeta (m st : BitMatrix) : Prop :=
  st.quant_bits_ = m.quant_bits_ ∧ st.align_bits_ = m.align_bits_ ∧ st.scale_ = m.scale_

/-- The one-word matrix `rampBits` stored without padding (stride 1). -/
def rampPacked : BitMatrix :=
  { num_rows_ := 1, num_cols_ := 1, stride_ := 1, data_ := some (fun _ => 283686952306183),
    scale_ := 1 / 255, quant_bits_ := 8, align_bits_ := 8 }

/-- Byte lane `i` of a word: bits `8 i .. 8 i + 7`. -/
def byteLane (x i : Nat) : Nat := x / 256 ^ i % 256

/-- The sum of the eight byte lanes of a word. -/
def byteSum (x : Nat) : Nat := ∑ i in Finset.range 8, byteLane x i

/-- The sign flag of lane `i` of a sign word: its bit `8 i`. -/
def signFlag (y i : Nat) : Bool := y.testBit (8 * i)

/-- A `uint64` word read as a two's complement signed 64-bit integer. -/
def toInt64 (w : Nat) : Int :=
  if w % 2 ^ 64 < 2 ^ 63 then ((w % 2 ^ 64 : Nat) : Int) else ((w % 2 ^ 64 : Nat) : Int) - 2 ^ 64

/-- The function `BitVector::CopyFromBitVec(vec)`: after the assertion on the dimensions,
`memcpy` makes the first `dim_` words at the destination pointer those at the source pointer.
The result is the memory at the destination pointer. Copying no word needs no buffer; when
the two pointers are equal the words are equal already. -/
def BitVector.CopyFromBitVec (v vec : BitVector) : Except Failure (Option (Nat → Nat)) := do
  SNOWBOY_ASSERT (v.Dim = vec.Dim)
  if v.dim_ = 0 then pure v.data_
  else
    match v.data_, vec.data_ with
    | some f, some g => pure (some (fun k => if k < v.dim_ then g k else f k))
    | _, _ => Except.error Failure.undefined

/-- The buffer of a matrix after the memory at the pointer `data_ + off` has been changed
through a view. -/
def writeBack (data : Option (Nat → Nat)) (off : Nat) (row : Option (Nat → Nat)) :
    Option (Nat → Nat) :=
  match data, row with
  | some f, some g => some (fun k => if off ≤ k then g (k - off) else f k)
  | d, _ => d

/-- The function `BitMatrix::CopyFromBitMat(mat)`; `same` tells whether `mat` is the matrix
itself (`&mat == this`). -/
def BitMatrix.CopyFromBitMat (m mat : BitMatrix) (same : Bool) : Except Failure BitMatrix :=
  if same then pure m
  else do
    SNOWBOY_ASSERT (m.num_rows_ = mat.NumRows ∧ m.num_cols_ = mat.NumCols)
    forRange m.num_rows_ (fun r m1 => do
      let dst ← m1.Row r
      let src ← mat.Row r
      let row ← dst.CopyFromBitVec src
      pure { m1 with data_ := writeBack m1.data_ (r * m1.stride_) row }) m

/-- The members after the three assignments of `operator=`. -/
def BitMatrix.withMeta (m other : BitMatrix) : BitMatrix :=
  { m with scale_ := other.Scale, quant_bits_ := other.QuantBits,
           align_bits_ := other.AlignBits }

/-- The operator `BitMatrix::operator=(other)`; `same` tells whether `other` is the matrix
itself. -/
def BitMatrix.assign (h : Heap) (m other : BitMatrix) (same : Bool) :
    Except Failure BitMatrix := do
  let m1 ← (if m.num_rows_ ≠ other.NumRows ∨ m.num_cols_ ≠ other.NumCols then
    m.Resize h other.NumRows other.NumCols else pure m)
  (m1.withMeta other).CopyFromBitMat other same

/-- The members after the assignment `scale_ = mat1.scale_ * mat2.scale_`. -/
def BitMatrix.withScale (m : BitMatrix) (s : ℚ) : BitMatrix := { m with scale_ := s }

/-- The function `BitMatrix::AddBitMatBitMat(mat1, mat2)`. The operands are other objects
than the matrix, so the assertion `&mat1 != this && &mat2 != this` holds. The `int32` result
of `VecVec` is converted to `uint64` when it is stored. -/
def BitMatrix.AddBitMatBitMat (m mat1 mat2 : BitMatrix) : Except Failure BitMatrix := do
  SNOWBOY_ASSERT (mat1.NumCols = mat2.NumCols ∧ mat1.NumRows = m.num_rows_ ∧
    mat2.NumRows = m.num_cols_)
  let m1 ← forRange m.num_rows_ (fun r ma =>
    forRange ma.num_cols_ (fun c mb => do
      let xr ← mat1.Row r
      let yc ← mat2.Row c
      let v ← VecVec xr yc
      let d ← writeWord mb.data_ (r * mb.stride_ + c) (toUInt64 v)
      pure { mb with data_ := d }) ma) m
  pure (m1.withScale (mat1.scale_ * mat2.scale_))

/-- A dense 2 x 3 matrix of zeros. -/
def narrowSource : MatrixBase := { num_rows_ := 2, num_cols_ := 3, elem := fun _ _ => 0 }

/-- A view of `dim` words, every word `w`, with the given bit widths and scale field. -/
def plainView (dim w : Nat) (quant_bits align_bits scale : Int) : BitVector :=
  { dim_ := dim, data_ := some (fun _ => w), quant_bits_ := quant_bits,
    align_bits_ := align_bits, scale_ := scale }

/-- A 1 x 2 source matrix holding 0 and 1. -/
def sourceEnds : MatrixBase :=
  { num_rows_ := 1, num_cols_ := 2, elem := fun _ c => if c = 0 then 0 else 1 }

/-- A dense 1 x 2 matrix of zeros. -/
def rowOfTwo : MatrixBase := { num_rows_ := 1, num_cols_ := 2, elem := fun _ _ => 0 }

/-- The value `VecVec` returns for row `r` of `x` and row `c` of `y`: the kernel sum reduced
to `int32` when `y` has `quant_bits_ = 1`, and 0 otherwise. -/
def cellValue (x y : BitMatrix) (r c : Nat) : Int :=
  if y.quant_bits_ = 1 then toInt32 (kernelSum x y r c x.num_cols_) else 0

/-- A 1 x 1 target with 64-bit lanes holding the word 99. -/
def productTarget : BitMatrix :=
  { num_rows_ := 1, num_cols_ := 1, stride_ := 2, data_ := some (fun _ => 99), scale_ := 1,
    quant_bits_ := 0, align_bits_ := 64 }

/-- The shape, the stride and the presence of a buffer of `m1` are those of `m`. -/
def SameShape (m m1 : BitMatrix) : Prop :=
  m1.num_rows_ = m.num_rows_ ∧ m1.num_cols_ = m.num_cols_ ∧ m1.stride_ = m.stride_ ∧
    m1.data_.isSome = m.data_.isSome

/-- The states of a `BitMatrix` object that can be reached from the default constructor or a
quantizing constructor by successful calls of `Resize`, `Quantize`, `Set`, `operator=`,
`AddBitMatBitMat` and `Read`, with any arguments and in any memory environment. -/
inductive Reachable : BitMatrix → Prop where
  | default : Reachable BitMatrix.BitMatrix_default
  | quant_align (fu : FloatUnit) (h : Heap) (inp : MatrixBase) (qb ab : Int) (m : BitMatrix) :
      BitMatrix.BitMatrix_quant_align fu h inp qb ab = Except.ok m → Reachable m
  | in_bits (fu : FloatUnit) (h : Heap) (inp : MatrixBase) (b : Int) (m : BitMatrix) :
      BitMatrix.BitMatrix_in_bits fu h inp b = Except.ok m → Reachable m
  | resize (h : Heap) (m m1 : BitMatrix) (rows cols : Int) :
      Reachable m → m.Resize h rows cols = Except.ok m1 → Reachable m1
  | quantize (fu : FloatUnit) (h : Heap) (m m1 : BitMatrix) (inp : MatrixBase) :
      Reachable m → m.Quantize fu h inp = Except.ok m1 → Reachable m1
  | set (m m1 : BitMatrix) (v : Nat) :
      Reachable m → m.Set v = Except.ok m1 → Reachable m1
  | assign (h : Heap) (m other m1 : BitMatrix) (same : Bool) :
      Reachable m → m.assign h other same = Except.ok m1 → Reachable m1
  | addBitMatBitMat (m mat1 mat2 m1 : BitMatrix) :
      Reachable m → m.AddBitMatBitMat mat1 mat2 = Except.ok m1 → Reachable m1
  | read (h : Heap) (binary : Bool) (m m1 : BitMatrix) (is rest : List Item) :
      Reachable m → BitMatrix.Read h binary m is = Except.ok (m1, rest) → Reachable m1

/-! # Theorems -/

/-! ## The kernel -/

theorem countP_range_eq_sum (p : Nat → Bool) (n : Nat) :
    (List.range n).countP p = ∑ j in Finset.range n, if p j then 1 else 0 := by
  induction n with
  | zero => simp
  | succ n ih =>
    rw [List.range_succ, List.countP_append, ih, Finset.sum_range_succ]
    simp [List.countP_cons]

theorem popcountll_eq_sum (z : Nat) :
    popcountll z = ∑ j in Finset.range 64, if z.testBit j then 1 else 0 := by
  unfold popcountll
  rw [countP_range_eq_sum]

theorem packN_lt (u : Nat → Nat) (hu : ∀ i, u i < 256) (n : Nat) : packN u n < 256 ^ n := by
  induction n with
  | zero => simp [packN]
  | succ n ih =>
    unfold packN at *
    rw [Finset.sum_range_succ, pow_succ]
    have := hu n
    have hp : 0 < 256 ^ n := Nat.pow_pos (by norm_num)
    nlinarith

theorem testBit_packN (u : Nat → Nat) (hu : ∀ i, u i < 256) (n j : Nat) :
    (packN u n).testBit j = (decide (j < 8 * n) && (u (j / 8)).testBit (j % 8)) := by
  induction n with
  | zero => simp [packN]
  | succ n ih =>
    have hlt := packN_lt u hu n
    have h256 : (256 : Nat) ^ n = 2 ^ (8 * n) := by
      rw [pow_mul]; norm_num
    have hstep : packN u (n + 1) = 2 ^ (8 * n) * u n + packN u n := by
      unfold packN
      rw [Finset.sum_range_succ, h256]; ring
    rw [hstep, Nat.testBit_mul_pow_two_add _ (by rw [← h256]; exact hlt), ih]
    by_cases h1 : j < 8 * n
    · have : j < 8 * (n + 1) := by omega
      simp [h1, this]
    · simp only [h1, if_false]
      by_cases h2 : j < 8 * (n + 1)
      · have e1 : j / 8 = n := by omega
        have e2 : j - 8 * n = j % 8 := by omega
        simp [h2, e1, e2]
      · have hb : u n < 2 ^ (j - 8 * n) := by
          calc u n < 256 := hu n
            _ = 2 ^ 8 := by norm_num
            _ ≤ 2 ^ (j - 8 * n) := Nat.pow_le_pow_right (by norm_num) (by omega)
        simp [h2, Nat.testBit_lt_two_pow hb]

theorem sum_range_64 {M : Type} [AddCommMonoid M] (f : Nat → M) :
    ∑ j in Finset.range 64, f j = ∑ i in Finset.range 8, ∑ c in Finset.range 8, f (8 * i + c) := by
  simp only [Finset.sum_range_succ, Finset.sum_range_zero]
  simp only [zero_add, mul_zero, add_zero, mul_one, Nat.reduceMul, Nat.reduceAdd]
  abel

theorem popcountll_le (z : Nat) : popcountll z ≤ 64 := by
  unfold popcountll
  exact (List.countP_le_length _).trans (by simp)

theorem kernel_eq_raw (x y : Nat) :
    bit_kernel_for_uint64_8_1 x y = ∑ b in Finset.range 8, planeDiff x y b * 2 ^ b := by
  have hb : ∀ b, -64 ≤ planeDiff x y b ∧ planeDiff x y b ≤ 64 := by
    intro b
    have h1 := popcountll_le (x &&& shl64 y b)
    have h2 := popcountll_le (x &&& shl64 (not64 y &&& mask_8_1) b)
    unfold planeDiff
    omega
  have e : bit_kernel_for_uint64_8_1 x y =
      toInt32 (toInt32 (toInt32 (toInt32 (toInt32 (toInt32 (toInt32 (toInt32 (0 + planeDiff x y 0 * 2 ^ 0)
        + planeDiff x y 1 * 2 ^ 1) + planeDiff x y 2 * 2 ^ 2) + planeDiff x y 3 * 2 ^ 3)
        + planeDiff x y 4 * 2 ^ 4) + planeDiff x y 5 * 2 ^ 5) + planeDiff x y 6 * 2 ^ 6)
        + planeDiff x y 7 * 2 ^ 7) := rfl
  rw [e]
  simp only [Finset.sum_range_succ, Finset.sum_range_zero]
  have h0 := hb 0; have h1 := hb 1; have h2 := hb 2; have h3 := hb 3
  have h4 := hb 4; have h5 := hb 5; have h6 := hb 6; have h7 := hb 7
  generalize planeDiff x y 0 = d0 at *
  generalize planeDiff x y 1 = d1 at *
  generalize planeDiff x y 2 = d2 at *
  generalize planeDiff x y 3 = d3 at *
  generalize planeDiff x y 4 = d4 at *
  generalize planeDiff x y 5 = d5 at *
  generalize planeDiff x y 6 = d6 at *
  generalize planeDiff x y 7 = d7 at *
  have t : ∀ v : Int, -2147483648 ≤ v → v < 2147483648 → toInt32 v = v := by
    intro v h1 h2; unfold toInt32; omega
  rw [t (0 + d0 * 2 ^ 0) (by omega) (by omega)]
  rw [t (0 + d0 * 2 ^ 0 + d1 * 2 ^ 1) (by omega) (by omega)]
  rw [t (0 + d0 * 2 ^ 0 + d1 * 2 ^ 1 + d2 * 2 ^ 2) (by omega) (by omega)]
  rw [t (0 + d0 * 2 ^ 0 + d1 * 2 ^ 1 + d2 * 2 ^ 2 + d3 * 2 ^ 3) (by omega) (by omega)]
  rw [t (0 + d0 * 2 ^ 0 + d1 * 2 ^ 1 + d2 * 2 ^ 2 + d3 * 2 ^ 3 + d4 * 2 ^ 4) (by omega) (by omega)]
  rw [t (0 + d0 * 2 ^ 0 + d1 * 2 ^ 1 + d2 * 2 ^ 2 + d3 * 2 ^ 3 + d4 * 2 ^ 4 + d5 * 2 ^ 5)
    (by omega) (by omega)]
  rw [t (0 + d0 * 2 ^ 0 + d1 * 2 ^ 1 + d2 * 2 ^ 2 + d3 * 2 ^ 3 + d4 * 2 ^ 4 + d5 * 2 ^ 5
    + d6 * 2 ^ 6) (by omega) (by omega)]
  rw [t (0 + d0 * 2 ^ 0 + d1 * 2 ^ 1 + d2 * 2 ^ 2 + d3 * 2 ^ 3 + d4 * 2 ^ 4 + d5 * 2 ^ 5
    + d6 * 2 ^ 6 + d7 * 2 ^ 7) (by omega) (by omega)]

theorem signLane_lt (sg : Nat → Bool) (i : Nat) : signLane sg i < 256 := by
  unfold signLane; split <;> norm_num

theorem popcountll_land_packN (u v : Nat → Nat) (hu : ∀ i, u i < 256) (hv : ∀ i, v i < 256) :
    popcountll (packN u 8 &&& packN v 8) =
      ∑ i in Finset.range 8, ∑ c in Finset.range 8,
        if ((u i).testBit c && (v i).testBit c) then 1 else 0 := by
  rw [popcountll_eq_sum, sum_range_64]
  refine Finset.sum_congr rfl (fun i hi => Finset.sum_congr rfl (fun c hc => ?_))
  rw [Finset.mem_range] at hi hc
  have e1 : (8 * i + c) / 8 = i := by omega
  have e2 : (8 * i + c) % 8 = c := by omega
  have e3 : 8 * i + c < 8 * 8 := by omega
  rw [Nat.testBit_land, testBit_packN u hu, testBit_packN v hv, e1, e2]
  simp [e3]

theorem testBit_flag_mul (t : Bool) (b c : Nat) :
    ((if t then 1 else 0) * 2 ^ b).testBit c = (t && decide (b = c)) := by
  cases t
  · simp
  · simp [Nat.testBit_two_pow]

theorem shl64_sign (sg : Nat → Bool) (b : Nat) (hb : b < 8) :
    shl64 (packN (signLane sg) 8) b = packN (fun i => signLane sg i * 2 ^ b) 8 := by
  have hlane : ∀ i, signLane sg i * 2 ^ b < 256 := by
    intro i
    have h2 : 2 ^ b ≤ 2 ^ 7 := Nat.pow_le_pow_right (by norm_num) (by omega)
    unfold signLane; split <;> omega
  have e : packN (signLane sg) 8 <<< b = packN (fun i => signLane sg i * 2 ^ b) 8 := by
    rw [Nat.shiftLeft_eq]
    unfold packN
    rw [Finset.sum_mul]
    exact Finset.sum_congr rfl (fun i _ => by ring)
  unfold shl64
  rw [e]
  exact Nat.mod_eq_of_lt (by have := packN_lt _ hlane 8; norm_num at this ⊢; exact this)

theorem mask_8_1_eq : mask_8_1 = packN (fun _ => 1) 8 := by
  simp [packN, mask_8_1, Finset.sum_range_succ]

theorem not64_sign (sg : Nat → Bool) :
    not64 (packN (signLane sg) 8) &&& mask_8_1 = packN (signLane (fun i => !sg i)) 8 := by
  have hlt : packN (signLane sg) 8 < 2 ^ 64 := by
    have := packN_lt _ (signLane_lt sg) 8; norm_num at this ⊢; exact this
  have e : not64 (packN (signLane sg) 8) = 2 ^ 64 - (packN (signLane sg) 8 + 1) := by
    unfold not64; rw [Nat.mod_eq_of_lt hlt]; omega
  apply Nat.eq_of_testBit_eq
  intro j
  rw [Nat.testBit_land, e, Nat.testBit_two_pow_sub_succ hlt, mask_8_1_eq,
    testBit_packN _ (signLane_lt sg), testBit_packN _ (fun _ => by norm_num),
    testBit_packN _ (signLane_lt _)]
  unfold signLane
  by_cases hj : j < 64
  · cases h : sg (j / 8) <;> simp [hj, h]
  · simp [hj]

theorem popcountll_plane (u : Nat → Nat) (hu : ∀ i, u i < 256) (sg : Nat → Bool) (b : Nat)
    (hb : b < 8) :
    popcountll (packN u 8 &&& shl64 (packN (signLane sg) 8) b) =
      ∑ i in Finset.range 8, if (sg i && (u i).testBit b) then 1 else 0 := by
  have hlane : ∀ i, signLane sg i * 2 ^ b < 256 := by
    intro i
    have h2 : 2 ^ b ≤ 2 ^ 7 := Nat.pow_le_pow_right (by norm_num) (by omega)
    unfold signLane; split <;> omega
  rw [shl64_sign sg b hb, popcountll_land_packN u _ hu hlane]
  refine Finset.sum_congr rfl (fun i _ => ?_)
  rw [Finset.sum_eq_single b]
  · unfold signLane
    rw [testBit_flag_mul]
    cases sg i <;> simp
  · intro c _ hc
    unfold signLane
    rw [testBit_flag_mul]
    have : ¬ b = c := fun h => hc h.symm
    simp [this]
  · intro h
    exact absurd (Finset.mem_range.mpr hb) h

set_option maxRecDepth 100000 in
theorem byte_bits : ∀ v < 256,
    (∑ b in Finset.range 8, if v.testBit b then 2 ^ b else 0) = v := by
  decide

theorem kernel_packN (u : Nat → Nat) (hu : ∀ i, u i < 256) (sg : Nat → Bool) :
    bit_kernel_for_uint64_8_1 (packN u 8) (packN (signLane sg) 8) =
      ∑ i in Finset.range 8, (u i : Int) * (if sg i then 1 else -1) := by
  rw [kernel_eq_raw]
  have hplane : ∀ b ∈ Finset.range 8, planeDiff (packN u 8) (packN (signLane sg) 8) b * 2 ^ b =
      ∑ i in Finset.range 8,
        (if sg i then (1 : Int) else -1) * (((if (u i).testBit b then 2 ^ b else 0 : Nat)) : Int) := by
    intro b hb
    rw [Finset.mem_range] at hb
    unfold planeDiff
    rw [not64_sign, popcountll_plane u hu sg b hb, popcountll_plane u hu _ b hb]
    push_cast
    rw [← Finset.sum_sub_distrib, Finset.sum_mul]
    refine Finset.sum_congr rfl (fun i _ => ?_)
    cases sg i <;> cases (u i).testBit b <;> simp
  rw [Finset.sum_congr rfl hplane, Finset.sum_comm]
  refine Finset.sum_congr rfl (fun i _ => ?_)
  rw [← Finset.mul_sum, ← Nat.cast_sum, byte_bits (u i) (hu i), mul_comm]

theorem packLanes_eq_packN (x : Fin 8 → Nat) : packLanes x = packN (laneFn x) 8 := by
  unfold packLanes packN
  rw [← Fin.sum_univ_eq_sum_range (fun j => laneFn x j * 256 ^ j) 8]
  refine Finset.sum_congr rfl (fun i _ => ?_)
  simp [laneFn]

/-- C1. Kernel correctness: for eight magnitudes in [0,255] and eight signs in {-1,+1}, packed
lane by lane into a magnitude word and a sign word (lane holding 1 for +1 and 0 for -1), the
kernel returns the sum of magnitude times sign. -/
theorem kernel_correct (x : Fin 8 → Nat) (s : Fin 8 → Int) (hx : ∀ i, x i ≤ 255)
    (hs : ∀ i, s i = 1 ∨ s i = -1) :
    bit_kernel_for_uint64_8_1 (packLanes x) (packSigns s) = ∑ i : Fin 8, (x i : Int) * s i := by
  have hu : ∀ j, laneFn x j < 256 := by
    intro j
    unfold laneFn
    split
    · exact Nat.lt_succ_of_le (hx _)
    · norm_num
  have hy : packSigns s = packN (signLane (fun j => decide (laneFn (fun i => if s i = 1 then 1 else 0) j = 1))) 8 := by
    unfold packSigns
    rw [packLanes_eq_packN]
    unfold packN
    refine Finset.sum_congr rfl (fun j _ => ?_)
    congr 1
    unfold signLane laneFn
    by_cases hj : j < 8
    · by_cases h1 : s ⟨j, hj⟩ = 1 <;> simp [hj, h1]
    · simp [hj]
  rw [packLanes_eq_packN x, hy, kernel_packN _ hu,
    ← Fin.sum_univ_eq_sum_range (fun j => (laneFn x j : Int) *
      (if decide (laneFn (fun i => if s i = 1 then 1 else 0) j = 1) then 1 else -1)) 8]
  refine Finset.sum_congr rfl (fun i _ => ?_)
  rcases hs i with h | h <;> simp [laneFn, h]

/-- Witness of C1: magnitudes [3,0,255,1,0,0,0,0] with signs [+1,-1,+1,-1,+1,+1,+1,+1]
give 257. -/
theorem kernel_correct_witness :
    bit_kernel_for_uint64_8_1 (packLanes ![3, 0, 255, 1, 0, 0, 0, 0])
      (packSigns ![1, -1, 1, -1, 1, 1, 1, 1]) = 257 := by
  have h := kernel_correct ![3, 0, 255, 1, 0, 0, 0, 0] ![1, -1, 1, -1, 1, 1, 1, 1]
    (by decide) (by decide)
  rw [h]
  decide

/-! ## Loops and results -/

@[simp] theorem bind_ok {ε α β : Type} (a : α) (f : α → Except ε β) :
    (Except.ok a >>= f) = f a := rfl

@[simp] theorem bind_error {ε α β : Type} (e : ε) (f : α → Except ε β) :
    ((Except.error e : Except ε α) >>= f) = Except.error e := rfl

@[simp] theorem pure_eq_ok {ε α : Type} (a : α) : (pure a : Except ε α) = Except.ok a := rfl

theorem assert_ok (c : Prop) [Decidable c] (h : c) : SNOWBOY_ASSERT c = Except.ok () := by
  simp [SNOWBOY_ASSERT, h]

theorem assert_fail (c : Prop) [Decidable c] (h : ¬ c) :
    SNOWBOY_ASSERT c = Except.error Failure.assertion := by
  simp [SNOWBOY_ASSERT, h]

/-- Invariant rule for counted loops: an invariant that holds at the start and is carried by
every iteration (which then succeeds) holds at the end, and the loop succeeds. -/
theorem forRange_inv {ε σ : Type} (Inv : Nat → σ → Prop) (n : Nat)
    (body : Nat → σ → Except ε σ) (s : σ) (h0 : Inv 0 s)
    (hstep : ∀ i t, i < n → Inv i t → ∃ t1, body i t = Except.ok t1 ∧ Inv (i + 1) t1) :
    ∃ t, forRange n body s = Except.ok t ∧ Inv n t := by
  induction n with
  | zero => exact ⟨s, rfl, h0⟩
  | succ k ih =>
    obtain ⟨t, ht, hinv⟩ := ih (fun i t hi => hstep i t (Nat.lt_succ_of_lt hi))
    obtain ⟨t1, ht1, hinv1⟩ := hstep k t (Nat.lt_succ_self k) hinv
    refine ⟨t1, ?_, hinv1⟩
    simp only [forRange, ht]
    exact ht1

/-- Invariant rule for counted loops, in the form that computes the result. -/
theorem forRange_eq_of_inv {ε σ : Type} {n : Nat} {body : Nat → σ → Except ε σ} {s : σ}
    (Inv : Nat → σ → Prop) (v : σ) (h0 : Inv 0 s)
    (hstep : ∀ i t, i < n → Inv i t → ∃ t1, body i t = Except.ok t1 ∧ Inv (i + 1) t1)
    (hfin : ∀ t, Inv n t → t = v) :
    forRange n body s = Except.ok v := by
  obtain ⟨t, ht, hinv⟩ := forRange_inv Inv n body s h0 hstep
  rw [ht, hfin t hinv]

/-- Invariant rule for counted loops, in the form that establishes a postcondition. -/
theorem forRange_post {ε σ : Type} {n : Nat} {body : Nat → σ → Except ε σ} {s : σ}
    {P : σ → Prop} (Inv : Nat → σ → Prop) (h0 : Inv 0 s)
    (hstep : ∀ i t, i < n → Inv i t → ∃ t1, body i t = Except.ok t1 ∧ Inv (i + 1) t1)
    (hfin : ∀ t, Inv n t → P t) :
    ∃ t, forRange n body s = Except.ok t ∧ P t := by
  obtain ⟨t, ht, hinv⟩ := forRange_inv Inv n body s h0 hstep
  exact ⟨t, ht, hfin t hinv⟩

theorem forRange_zero {ε σ : Type} (body : Nat → σ → Except ε σ) (s : σ) :
    forRange 0 body s = Except.ok s := rfl

/-! ## Machine arithmetic -/

theorem toInt32_of_range (v : Int) (h1 : -2147483648 ≤ v) (h2 : v < 2147483648) :
    toInt32 v = v := by
  unfold toInt32; omega

theorem toInt32_add_toInt32 (a b : Int) : toInt32 (toInt32 a + b) = toInt32 (a + b) := by
  unfold toInt32; omega

/-! ## Rounding of the floating-point unit -/

theorem roundEven_intCast (z : Int) : roundEven (z : ℚ) = z := by
  unfold roundEven
  rw [Int.floor_intCast]
  simp

theorem roundEven_error (t : ℚ) : |(roundEven t : ℚ) - t| ≤ 1 / 2 := by
  have h1 : (⌊t⌋ : ℚ) ≤ t := Int.floor_le t
  have h2 : t < (⌊t⌋ : ℚ) + 1 := Int.lt_floor_add_one t
  unfold roundEven
  rw [abs_le]
  split
  · constructor <;> linarith
  · split
    · push_cast; constructor <;> linarith
    · split
      · constructor <;> linarith
      · push_cast; constructor <;> linarith

theorem roundEven_le (t : ℚ) (M : Int) (h : t ≤ (M : ℚ)) : roundEven t ≤ M := by
  have h1 : (⌊t⌋ : ℚ) ≤ t := Int.floor_le t
  have hfl : ⌊t⌋ ≤ M := by
    have : (⌊t⌋ : ℚ) ≤ (M : ℚ) := le_trans h1 h
    exact_mod_cast this
  rcases lt_or_eq_of_le hfl with hlt | heq
  · unfold roundEven
    split
    · exact hfl
    · split
      · omega
      · split <;> omega
  · have ht : t = (M : ℚ) := le_antisymm h (by rw [← heq]; exact h1)
    rw [ht, roundEven_intCast]

theorem roundEven_ge (t : ℚ) (M : Int) (h : (M : ℚ) ≤ t) : M ≤ roundEven t := by
  have hfl : M ≤ ⌊t⌋ := Int.le_floor.mpr h
  unfold roundEven
  split
  · exact hfl
  · split
    · omega
    · split <;> omega

/-- Above the midpoint of two consecutive integers the rounding is the upper one. -/
theorem roundEven_up (t : ℚ) (f : Int) (h1 : (f : ℚ) + 1 / 2 < t) (h2 : t < (f : ℚ) + 1) :
    roundEven t = f + 1 := by
  have hf : ⌊t⌋ = f := by
    rw [Int.floor_eq_iff]
    constructor <;> linarith
  unfold roundEven
  rw [hf, if_neg (by linarith), if_pos (by linarith)]

/-- At the midpoint above an odd integer the rounding is the even integer above. -/
theorem roundEven_tie_odd (f : Int) (hodd : f % 2 = 1) : roundEven ((f : ℚ) + 1 / 2) = f + 1 := by
  have hf : ⌊(f : ℚ) + 1 / 2⌋ = f := by
    rw [Int.floor_eq_iff]
    constructor <;> linarith
  unfold roundEven
  rw [hf, if_neg (by linarith), if_neg (by linarith), if_neg (by omega)]

theorem ulp_pos (p : Nat) (x : ℚ) : 0 < ulp p x := by
  unfold ulp
  positivity

theorem log_eq_of_binade (x : ℚ) (e : Int) (h1 : (2 : ℚ) ^ e ≤ |x|)
    (h2 : |x| < (2 : ℚ) ^ (e + 1)) : Int.log 2 |x| = e := by
  have hpos : 0 < |x| := lt_of_lt_of_le (by positivity) h1
  have a : e ≤ Int.log 2 |x| := by
    rw [← Int.zpow_le_iff_le_log (by norm_num) hpos]
    exact_mod_cast h1
  have b : Int.log 2 |x| < e + 1 := by
    rw [← Int.lt_zpow_iff_log_lt (by norm_num) hpos]
    exact_mod_cast h2
  omega

theorem ulp_of_binade (p : Nat) (x : ℚ) (e : Int) (h1 : (2 : ℚ) ^ e ≤ |x|)
    (h2 : |x| < (2 : ℚ) ^ (e + 1)) : ulp p x = (2 : ℚ) ^ (e - (p : Int) + 1) := by
  unfold ulp
  rw [log_eq_of_binade x e h1 h2]

theorem two_pow_log_le (x : ℚ) (hx : x ≠ 0) : (2 : ℚ) ^ Int.log 2 |x| ≤ |x| := by
  have := Int.zpow_log_le_self (b := 2) (r := |x|) (by norm_num) (abs_pos.mpr hx)
  exact_mod_cast this

/-- The rounding error is at most half a unit in the last place, which is at most
`|x| / 2 ^ p`. -/
theorem roundToPrecision_error (p : Nat) (x : ℚ) :
    |roundToPrecision p x - x| ≤ |x| / 2 ^ p := by
  unfold roundToPrecision
  split
  · rename_i h0
    rw [h0]; simp
  · rename_i hx
    have hu := ulp_pos p x
    have he := roundEven_error (x / ulp p x)
    have e1 : (roundEven (x / ulp p x) : ℚ) * ulp p x - x =
        ((roundEven (x / ulp p x) : ℚ) - x / ulp p x) * ulp p x := by
      field_simp
    rw [e1, abs_mul, abs_of_pos hu]
    have hul : ulp p x ≤ 2 * (|x| / 2 ^ p) := by
      have hl := two_pow_log_le x hx
      have e2 : ulp p x = (2 : ℚ) ^ Int.log 2 |x| * 2 / 2 ^ p := by
        unfold ulp
        rw [zpow_add₀ (by norm_num), zpow_sub₀ (by norm_num), zpow_natCast, zpow_one]
        ring
      rw [e2]
      have hp : (0 : ℚ) < 2 ^ p := by positivity
      rw [div_le_iff₀ hp]
      have : 2 * (|x| / 2 ^ p) * 2 ^ p = 2 * |x| := by field_simp
      rw [this]
      linarith
    calc |(roundEven (x / ulp p x) : ℚ) - x / ulp p x| * ulp p x
        ≤ 1 / 2 * ulp p x := mul_le_mul_of_nonneg_right he (le_of_lt hu)
      _ ≤ 1 / 2 * (2 * (|x| / 2 ^ p)) := by nlinarith
      _ = |x| / 2 ^ p := by ring

theorem roundToPrecision_nonneg (p : Nat) (x : ℚ) (h : 0 ≤ x) : 0 ≤ roundToPrecision p x := by
  unfold roundToPrecision
  split
  · exact le_refl _
  · have hu := ulp_pos p x
    have : (0 : Int) ≤ roundEven (x / ulp p x) :=
      roundEven_ge _ 0 (by push_cast; exact div_nonneg h (le_of_lt hu))
    have h2 : (0 : ℚ) ≤ (roundEven (x / ulp p x) : ℚ) := by exact_mod_cast this
    exact mul_nonneg h2 (le_of_lt hu)

/-- A bound that is a multiple of the unit in the last place at `x` is kept by the
rounding. -/
theorem roundToPrecision_le (p : Nat) (x M : ℚ) (k : Int) (hx : x ≠ 0)
    (hM : M = (k : ℚ) * ulp p x) (h : x ≤ M) : roundToPrecision p x ≤ M := by
  unfold roundToPrecision
  rw [if_neg hx]
  have hu := ulp_pos p x
  have h1 : x / ulp p x ≤ (k : ℚ) := by
    rw [div_le_iff₀ hu, ← hM]; exact h
  have h2 := roundEven_le _ k h1
  have h3 : (roundEven (x / ulp p x) : ℚ) ≤ (k : ℚ) := by exact_mod_cast h2
  rw [hM]
  exact mul_le_mul_of_nonneg_right h3 (le_of_lt hu)

/-- A value that is a multiple of its own unit in the last place is representable: the
rounding returns it. -/
theorem roundToPrecision_eq (p : Nat) (x : ℚ) (k : Int) (hk : x = (k : ℚ) * ulp p x) :
    roundToPrecision p x = x := by
  unfold roundToPrecision
  split
  · rename_i h0; rw [h0]
  · have hu := ulp_pos p x
    have e : x / ulp p x = (k : ℚ) := by
      rw [div_eq_iff (ne_of_gt hu)]; exact hk
    rw [e, roundEven_intCast, ← hk]

theorem two_zpow_eq_intCast (n : Int) (hn : 0 ≤ n) : ∃ k : Int, (2 : ℚ) ^ n = (k : ℚ) := by
  refine ⟨2 ^ n.toNat, ?_⟩
  have e : n = (n.toNat : Int) := (Int.toNat_of_nonneg hn).symm
  conv_lhs => rw [e]
  rw [zpow_natCast]
  push_cast
  rfl

/-- Below `2 ^ p` in absolute value the unit in the last place divides every integer. -/
theorem int_mul_ulp (p : Nat) (x : ℚ) (hx : x ≠ 0) (hlt : |x| < 2 ^ p) (n : Int) :
    ∃ k : Int, (n : ℚ) = (k : ℚ) * ulp p x := by
  have hl : Int.log 2 |x| < (p : Int) := by
    rw [← Int.lt_zpow_iff_log_lt (by norm_num) (abs_pos.mpr hx)]
    rw [zpow_natCast]
    exact_mod_cast hlt
  obtain ⟨k, hk⟩ := two_zpow_eq_intCast ((p : Int) - 1 - Int.log 2 |x|) (by omega)
  refine ⟨n * k, ?_⟩
  push_cast
  rw [← hk]
  unfold ulp
  rw [mul_assoc, ← zpow_add₀ (by norm_num)]
  have : (p : Int) - 1 - Int.log 2 |x| + (Int.log 2 |x| - (p : Int) + 1) = 0 := by ring
  rw [this, zpow_zero, mul_one]

/-- Integers below `2 ^ p` in absolute value are representable. -/
theorem roundToPrecision_intCast (p : Nat) (n : Int) (h : |(n : ℚ)| < 2 ^ p) :
    roundToPrecision p (n : ℚ) = (n : ℚ) := by
  by_cases hx : (n : ℚ) = 0
  · rw [hx]; unfold roundToPrecision; simp
  · obtain ⟨k, hk⟩ := int_mul_ulp p (n : ℚ) hx h n
    exact roundToPrecision_eq p _ k hk

/-- An integer bound below `2 ^ p` is kept by the rounding of a nonnegative value. -/
theorem roundToPrecision_le_int (p : Nat) (x : ℚ) (n : Int) (h0 : 0 ≤ x) (h : x ≤ (n : ℚ))
    (hn : (n : ℚ) < 2 ^ p) : roundToPrecision p x ≤ (n : ℚ) := by
  by_cases hx : x = 0
  · rw [hx] at h
    rw [hx]; unfold roundToPrecision; simp; exact_mod_cast h
  · have hlt : |x| < 2 ^ p := by rw [abs_of_nonneg h0]; linarith
    obtain ⟨k, hk⟩ := int_mul_ulp p x hx hlt n
    exact roundToPrecision_le p x _ k hx hk h

/-- A power of two as a bound is kept by the rounding of a nonnegative value. -/
theorem roundToPrecision_le_two_pow (p : Nat) (hp : 1 ≤ p) (x : ℚ) (q : Nat) (h0 : 0 ≤ x)
    (h : x ≤ 2 ^ q) : roundToPrecision p x ≤ 2 ^ q := by
  by_cases hx : x = 0
  · rw [hx]; unfold roundToPrecision; simp
  · have hl : Int.log 2 |x| ≤ (q : Int) := by
      have h1 := two_pow_log_le x hx
      have h2 : (2 : ℚ) ^ Int.log 2 |x| ≤ (2 : ℚ) ^ (q : Int) := by
        have e := abs_of_nonneg h0
        rw [zpow_natCast]
        linarith
      exact (zpow_le_zpow_iff_right₀ (by norm_num : (1 : ℚ) < 2)).mp h2
    obtain ⟨k, hk⟩ := two_zpow_eq_intCast ((q : Int) + (p : Int) - 1 - Int.log 2 |x|) (by omega)
    refine roundToPrecision_le p x _ k hx ?_ h
    rw [← hk]
    unfold ulp
    rw [← zpow_add₀ (by norm_num)]
    have : (q : Int) + (p : Int) - 1 - Int.log 2 |x| + (Int.log 2 |x| - (p : Int) + 1) = q := by
      ring
    rw [this, zpow_natCast]

/-- The rounding of a value whose binade is known. -/
theorem roundToPrecision_of_binade (p : Nat) (x : ℚ) (e : Int) (h1 : (2 : ℚ) ^ e ≤ |x|)
    (h2 : |x| < (2 : ℚ) ^ (e + 1)) :
    roundToPrecision p x =
      (roundEven (x / (2 : ℚ) ^ (e - (p : Int) + 1)) : ℚ) * (2 : ℚ) ^ (e - (p : Int) + 1) := by
  have hx : x ≠ 0 := by
    intro h0
    rw [h0, abs_zero] at h1
    have : (0 : ℚ) < (2 : ℚ) ^ e := by positivity
    linarith
  unfold roundToPrecision
  rw [if_neg hx, ulp_of_binade p x e h1 h2]

theorem FloatUnit.toDouble_intCast (fu : FloatUnit) (n : Int) (h : |(n : ℚ)| < 2 ^ 53) :
    fu.toDouble (n : ℚ) = (n : ℚ) := by
  cases fu
  · exact roundToPrecision_intCast 53 n h
  · rfl

theorem FloatUnit.toFloat_intCast (fu : FloatUnit) (n : Int) (h : |(n : ℚ)| < 2 ^ 24) :
    fu.toFloat (n : ℚ) = (n : ℚ) := by
  cases fu
  · exact roundToPrecision_intCast 24 n h
  · rfl

theorem FloatUnit.toDouble_nonneg (fu : FloatUnit) (x : ℚ) (h : 0 ≤ x) : 0 ≤ fu.toDouble x := by
  cases fu
  · exact roundToPrecision_nonneg 53 x h
  · exact h

theorem FloatUnit.toFloat_nonneg (fu : FloatUnit) (x : ℚ) (h : 0 ≤ x) : 0 ≤ fu.toFloat x := by
  cases fu
  · exact roundToPrecision_nonneg 24 x h
  · exact h

theorem FloatUnit.toDouble_error (fu : FloatUnit) (x : ℚ) :
    |fu.toDouble x - x| ≤ |x| / 2 ^ 53 := by
  cases fu
  · exact roundToPrecision_error 53 x
  · show |x - x| ≤ |x| / 2 ^ 53
    rw [sub_self, abs_zero]
    positivity

theorem FloatUnit.toFloat_error (fu : FloatUnit) (x : ℚ) :
    |fu.toFloat x - x| ≤ |x| / 2 ^ 24 := by
  cases fu
  · exact roundToPrecision_error 24 x
  · show |x - x| ≤ |x| / 2 ^ 24
    rw [sub_self, abs_zero]
    positivity

theorem FloatUnit.toDouble_le_int (fu : FloatUnit) (x : ℚ) (n : Int) (h0 : 0 ≤ x)
    (h : x ≤ (n : ℚ)) (hn : (n : ℚ) < 2 ^ 53) : fu.toDouble x ≤ (n : ℚ) := by
  cases fu
  · exact roundToPrecision_le_int 53 x n h0 h hn
  · exact h

theorem FloatUnit.toFloat_le_int (fu : FloatUnit) (x : ℚ) (n : Int) (h0 : 0 ≤ x)
    (h : x ≤ (n : ℚ)) (hn : (n : ℚ) < 2 ^ 24) : fu.toFloat x ≤ (n : ℚ) := by
  cases fu
  · exact roundToPrecision_le_int 24 x n h0 h hn
  · exact h

theorem FloatUnit.toFloat_le_two_pow (fu : FloatUnit) (x : ℚ) (q : Nat) (h0 : 0 ≤ x)
    (h : x ≤ 2 ^ q) : fu.toFloat x ≤ 2 ^ q := by
  cases fu
  · exact roundToPrecision_le_two_pow 24 (by norm_num) x q h0 h
  · exact h

/-! ## Element access -/

theorem MatrixBase.set_ok (o : MatrixBase) (r c : Nat) (v : ℚ) (hr : r < o.num_rows_)
    (hc : c < o.num_cols_) :
    o.set r c v = Except.ok
      { o with elem := fun r1 c1 => if r1 = r ∧ c1 = c then v else o.elem r1 c1 } := by
  simp [MatrixBase.set, hr, hc]

theorem BitMatrix.Valid.data_some {m : BitMatrix} (hv : m.Valid) (h : 0 < m.num_rows_) :
    ∃ f, m.data_ = some f := by
  rcases hv with ⟨_, h0, _, _⟩ | ⟨hs, _, _, _⟩
  · omega
  · exact Option.isSome_iff_exists.mp hs

theorem BitMatrix.Row_ok (m : BitMatrix) (f : Nat → Nat) (hf : m.data_ = some f) (r : Nat)
    (hr : r < m.num_rows_) :
    m.Row (r : Int) = Except.ok (m.rowView f r) := by
  simp [BitMatrix.Row, BitMatrix.RowData, SNOWBOY_ASSERT, hr, hf, BitMatrix.NumCols,
    BitMatrix.QuantBits, BitMatrix.AlignBits, BitMatrix.Scale, BitMatrix.rowView]

/-! ## VecVec and BitMatBitMat -/

/-- The dot product of two row views: the kernel sum reduced to `int32`. -/
theorem VecVec_rows (x y : BitMatrix) (f g : Nat → Nat) (hf : x.data_ = some f)
    (hg : y.data_ = some g) (r c : Nat)
    (hcols : x.num_cols_ = y.num_cols_) (hq : y.quant_bits_ = 1) :
    VecVec (x.rowView f r) (y.rowView g c) =
      Except.ok (toInt32 (kernelSum x y r c x.num_cols_)) := by
  simp only [bind_ok, VecVec, BitVector.Dim, BitVector.QuantBits, BitMatrix.rowView, hq, hcols,
    assert_ok (y.num_cols_ = y.num_cols_) rfl, if_true]
  refine forRange_eq_of_inv (fun k (res : Int) => res = toInt32 (kernelSum x y r c k)) _
    (by simp [kernelSum, toInt32]) ?_ (fun t ht => ht)
  intro k res hk hres
  have h1 : ((k : Int) < (y.num_cols_ : Int) ∧ (k : Int) ≥ 0) := by omega
  refine ⟨_, ?_, rfl⟩
  simp only [BitVector.get, assert_ok _ h1, bind_ok, readWord, Int.toNat_ofNat, pure_eq_ok,
    hres, kernelSum, Finset.sum_range_succ, BitMatrix.word, hf, hg, toInt32_add_toInt32]

/-- What `BitMatBitMat` computes: every cell of the output is the product of the two scales
and the kernel sum reduced to `int32`. -/
theorem BitMatBitMat_spec (x y : BitMatrix) (out : MatrixBase) (hx : x.Valid) (hy : y.Valid)
    (hcols : x.num_cols_ = y.num_cols_) (hrows : x.num_rows_ = out.num_rows_)
    (hoc : y.num_rows_ = out.num_cols_) (hq : y.quant_bits_ = 1) :
    ∃ o, BitMatBitMat x y out = Except.ok o ∧ o.num_rows_ = out.num_rows_ ∧
      o.num_cols_ = out.num_cols_ ∧
      ∀ r c, r < out.num_rows_ → c < out.num_cols_ →
        o.elem r c = x.scale_ * y.scale_ * (toInt32 (kernelSum x y r c x.num_cols_) : ℚ) := by
  unfold BitMatBitMat
  simp only [BitMatrix.NumCols, BitMatrix.NumRows, BitMatrix.Scale,
    assert_ok _ (And.intro hcols (And.intro hrows hoc)), bind_ok]
  refine forRange_post
    (fun i (o : MatrixBase) => o.num_rows_ = out.num_rows_ ∧ o.num_cols_ = out.num_cols_ ∧
      ∀ r c, r < i → c < out.num_cols_ →
        o.elem r c = x.scale_ * y.scale_ * (toInt32 (kernelSum x y r c x.num_cols_) : ℚ))
    ⟨rfl, rfl, fun r c hr => absurd hr (Nat.not_lt_zero r)⟩ ?_ (fun t ht => ht)
  intro i o1 hi hI
  obtain ⟨h1, h2, h3⟩ := hI
  obtain ⟨f, hf⟩ := hx.data_some (by omega)
  refine forRange_post
    (fun j (o : MatrixBase) => o.num_rows_ = out.num_rows_ ∧ o.num_cols_ = out.num_cols_ ∧
      (∀ r c, r < i → c < out.num_cols_ →
        o.elem r c = x.scale_ * y.scale_ * (toInt32 (kernelSum x y r c x.num_cols_) : ℚ)) ∧
      ∀ c, c < j →
        o.elem i c = x.scale_ * y.scale_ * (toInt32 (kernelSum x y i c x.num_cols_) : ℚ))
    ⟨h1, h2, h3, fun c hc => absurd hc (Nat.not_lt_zero c)⟩ ?_ ?_
  · intro j o3 hj hJ
    obtain ⟨k1, k2, k3, k4⟩ := hJ
    obtain ⟨g, hg⟩ := hy.data_some (by omega)
    rw [BitMatrix.Row_ok x f hf i (by omega), bind_ok, BitMatrix.Row_ok y g hg j (by omega),
      bind_ok, VecVec_rows x y f g hf hg i j hcols hq, bind_ok,
      MatrixBase.set_ok o3 i j _ (by omega) (by omega)]
    refine ⟨_, rfl, k1, k2, ?_, ?_⟩
    · intro r c hr hc
      have : ¬ (r = i ∧ c = j) := fun h => absurd h.1 (Nat.ne_of_lt hr)
      simp only [this, if_false]
      exact k3 r c hr hc
    · intro c hc
      by_cases hcj : c = j
      · simp [hcj]
      · have hlt : c < j := by omega
        simp only [hcj, and_false, if_false]
        exact k4 c hlt
  · intro o2 hinv2
    refine ⟨hinv2.1, hinv2.2.1, ?_⟩
    intro r c hr hc
    rcases Nat.lt_succ_iff_lt_or_eq.mp hr with hlt | heq
    · exact hinv2.2.2.1 r c hlt hc
    · rw [heq]; exact hinv2.2.2.2 c hc

/-! ## C2: the multiply formula -/

theorem kernel_bounds (x y : Nat) :
    -16320 ≤ bit_kernel_for_uint64_8_1 x y ∧ bit_kernel_for_uint64_8_1 x y ≤ 16320 := by
  have hb : ∀ b, -64 ≤ planeDiff x y b ∧ planeDiff x y b ≤ 64 := by
    intro b
    have h1 := popcountll_le (x &&& shl64 y b)
    have h2 := popcountll_le (x &&& shl64 (not64 y &&& mask_8_1) b)
    unfold planeDiff
    omega
  rw [kernel_eq_raw]
  simp only [Finset.sum_range_succ, Finset.sum_range_zero]
  have h0 := hb 0; have h1 := hb 1; have h2 := hb 2; have h3 := hb 3
  have h4 := hb 4; have h5 := hb 5; have h6 := hb 6; have h7 := hb 7
  omega

theorem kernelSum_bounds (x y : BitMatrix) (r c n : Nat) :
    -(16320 * (n : Int)) ≤ kernelSum x y r c n ∧ kernelSum x y r c n ≤ 16320 * (n : Int) := by
  induction n with
  | zero => simp [kernelSum]
  | succ n ih =>
    have h := kernel_bounds (x.word r n) (y.word c n)
    have e : kernelSum x y r c (n + 1) =
        kernelSum x y r c n + bit_kernel_for_uint64_8_1 (x.word r n) (y.word c n) := by
      simp [kernelSum, Finset.sum_range_succ]
    rw [e]
    push_cast
    omega

theorem BitMatrix.get_eq_word (m : BitMatrix) (hv : m.Valid) (r c : Nat) (hr : r < m.num_rows_)
    (hc : c < m.num_cols_) : m.get r c = Except.ok (m.word r c) := by
  obtain ⟨f, hf⟩ := hv.data_some (by omega)
  simp [BitMatrix.get, SNOWBOY_ASSERT, hr, hc, readWord, hf, BitMatrix.word]

/-- C2 (amended). For valid operands with equal column counts, a second operand with
`quant_bits = 1`, an output sized rows of the first by rows of the second, and every partial
kernel sum within the `int32` range, `BitMatBitMat` succeeds and sets every cell to the
product of the two scales and the exact kernel sum. -/
theorem BitMatBitMat_formula (x y : BitMatrix) (out : MatrixBase) (hx : x.Valid) (hy : y.Valid)
    (hcols : x.NumCols = y.NumCols) (hq : y.QuantBits = 1)
    (hrows : out.num_rows_ = x.NumRows) (hoc : out.num_cols_ = y.NumRows)
    (hfit : ∀ r c n, r < x.NumRows → c < y.NumRows → n ≤ x.NumCols →
      -2147483648 ≤ kernelSum x y r c n ∧ kernelSum x y r c n < 2147483648) :
    ∃ o, BitMatBitMat x y out = Except.ok o ∧ o.num_rows_ = x.NumRows ∧
      o.num_cols_ = y.NumRows ∧
      ∀ r c, r < x.NumRows → c < y.NumRows →
        o.elem r c = x.Scale * y.Scale * (kernelSum x y r c x.NumCols : ℚ) := by
  obtain ⟨o, ho, h1, h2, h3⟩ := BitMatBitMat_spec x y out hx hy hcols hrows.symm hoc.symm hq
  refine ⟨o, ho, h1.trans hrows, h2.trans hoc, ?_⟩
  intro r c hr hc
  have hb := hfit r c x.NumCols hr hc (Nat.le_refl _)
  rw [h3 r c (by rw [hrows]; exact hr) (by rw [hoc]; exact hc)]
  simp only [BitMatrix.Scale, BitMatrix.NumCols] at hb ⊢
  rw [toInt32_of_range _ hb.1 hb.2]

theorem kernelSum_const (x y : BitMatrix) (a b : Nat) (r c n : Nat)
    (hx : ∀ k, x.word r k = a) (hy : ∀ k, y.word c k = b) :
    kernelSum x y r c n = (n : Int) * bit_kernel_for_uint64_8_1 a b := by
  simp [kernelSum, hx, hy]

/-- C2 (counterexample). With 1052689 word pairs of kernel value 2040 the `int32` accumulator
of `VecVec` passes `2 ^ 31`, and the cell written is not the product of the scales and the
exact kernel sum. -/
theorem BitMatBitMat_formula_counterexample :
    bigMagnitudes.Valid ∧ bigSigns.Valid ∧
    bigMagnitudes.NumCols = bigSigns.NumCols ∧ bigSigns.QuantBits = 1 ∧
    oneCell.num_rows_ = bigMagnitudes.NumRows ∧ oneCell.num_cols_ = bigSigns.NumRows ∧
    ∃ o, BitMatBitMat bigMagnitudes bigSigns oneCell = Except.ok o ∧
      o.elem 0 0 ≠ bigMagnitudes.Scale * bigSigns.Scale *
        (kernelSum bigMagnitudes bigSigns 0 0 bigMagnitudes.NumCols : ℚ) := by
  have hv1 : bigMagnitudes.Valid := by decide
  have hv2 : bigSigns.Valid := by decide
  refine ⟨hv1, hv2, rfl, rfl, rfl, rfl, ?_⟩
  obtain ⟨o, ho, _, _, h3⟩ := BitMatBitMat_spec bigMagnitudes bigSigns oneCell hv1 hv2 rfl rfl rfl rfl
  refine ⟨o, ho, ?_⟩
  have hk : kernelSum bigMagnitudes bigSigns 0 0 1052689 = 2147485560 := by
    rw [kernelSum_const bigMagnitudes bigSigns 18446744073709551615 mask_8_1 0 0 1052689
      (fun k => rfl) (fun k => rfl)]
    have : bit_kernel_for_uint64_8_1 18446744073709551615 mask_8_1 = 2040 := by decide
    rw [this]; norm_num
  have h := h3 0 0 (by decide) (by decide)
  rw [h]
  show (1 / 255 : ℚ) * 1 * (toInt32 (kernelSum bigMagnitudes bigSigns 0 0 1052689) : ℚ) ≠
    (1 / 255 : ℚ) * 1 * (kernelSum bigMagnitudes bigSigns 0 0 1052689 : ℚ)
  rw [hk]
  have ht : toInt32 2147485560 = -2147481736 := by decide
  rw [ht]
  norm_num

/-- Witness of C2 (amended): one word pair with kernel value 257 gives the cell 257 / 255. -/
theorem BitMatBitMat_formula_witness :
    ∃ o, BitMatBitMat smallMagnitudes smallSigns oneCell = Except.ok o ∧
      o.elem 0 0 = 257 / 255 := by
  obtain ⟨o, ho, _, _, h⟩ := BitMatBitMat_formula smallMagnitudes smallSigns oneCell
    (by decide) (by decide) rfl rfl rfl rfl
    (fun r c n _ _ hn => by
      have hb := kernelSum_bounds smallMagnitudes smallSigns r c n
      have hn1 : (n : Int) ≤ 1 := by exact_mod_cast hn
      constructor <;> omega)
  refine ⟨o, ho, ?_⟩
  rw [h 0 0 (by decide) (by decide)]
  have hk : kernelSum smallMagnitudes smallSigns 0 0 1 = 257 := by
    rw [kernelSum_const smallMagnitudes smallSigns 33488899 72340172821299201 0 0 1
      (fun k => rfl) (fun k => rfl)]
    have : bit_kernel_for_uint64_8_1 33488899 72340172821299201 = 257 := by decide
    rw [this]; norm_num
  show (1 / 255 : ℚ) * 1 * (kernelSum smallMagnitudes smallSigns 0 0 1 : ℚ) = 257 / 255
  rw [hk]
  norm_num

/-! ## Quantize -/

theorem toUInt64_cast (v : Int) : ((toUInt64 v : Nat) : Int) = v % 18446744073709551616 := by
  unfold toUInt64
  exact Int.toNat_of_nonneg (Int.emod_nonneg _ (by norm_num))

theorem toUInt64_lt (v : Int) : toUInt64 v < 2 ^ 64 := by
  have h := toUInt64_cast v
  have h2 : v % 18446744073709551616 < 18446744073709551616 := Int.emod_lt_of_pos _ (by norm_num)
  have : ((toUInt64 v : Nat) : Int) < 18446744073709551616 := by rw [h]; exact h2
  norm_num
  exact_mod_cast this

theorem toUInt64_of_range (v : Int) (h0 : 0 ≤ v) (h1 : v < 18446744073709551616) :
    toUInt64 v = v.toNat := by
  unfold toUInt64
  rw [Int.emod_eq_of_lt h0 h1]

/-- One step of the packing loop, on the packed value. -/
theorem pack_step (s q : Int) (a : Nat) :
    (shl64 (toUInt64 s) a + toUInt64 q) % 2 ^ 64 = toUInt64 (s * 2 ^ a + q) := by
  have key : (((shl64 (toUInt64 s) a + toUInt64 q) % 2 ^ 64 : Nat) : Int) =
      ((toUInt64 (s * 2 ^ a + q) : Nat) : Int) := by
    rw [toUInt64_cast]
    unfold shl64
    rw [Nat.shiftLeft_eq]
    push_cast
    rw [toUInt64_cast, toUInt64_cast]
    norm_num
    have h1 : s % 18446744073709551616 * 2 ^ a ≡ s * 2 ^ a [ZMOD 18446744073709551616] :=
      Int.ModEq.mul_right _ (Int.mod_modEq _ _)
    have h3 := Int.ModEq.add h1 (Int.ModEq.refl q)
    exact h3
  exact_mod_cast key

theorem laneSum_succ (a : Nat) (q : Nat → Int) (L : Nat) :
    laneSum a q (L + 1) = laneSum a q L * 2 ^ a + q L := by
  unfold laneSum
  rw [Finset.sum_range_succ, Finset.sum_mul]
  have e : ∀ i ∈ Finset.range L, q i * 2 ^ (a * (L + 1 - 1 - i)) =
      q i * 2 ^ (a * (L - 1 - i)) * 2 ^ a := by
    intro i hi
    rw [Finset.mem_range] at hi
    have : a * (L + 1 - 1 - i) = a * (L - 1 - i) + a := by
      have : L + 1 - 1 - i = (L - 1 - i) + 1 := by omega
      rw [this]; ring
    rw [this, pow_add]; ring
  rw [Finset.sum_congr rfl e]
  simp

theorem laneSum_one (a : Nat) (q : Nat → Int) : laneSum a q 1 = q 0 := by
  simp [laneSum]

theorem MatrixBase.get_ok (m : MatrixBase) (r c : Nat) (hr : r < m.num_rows_)
    (hc : c < m.num_cols_) : m.get r c = Except.ok (m.elem r c) := by
  simp [MatrixBase.get, hr, hc]

/-- The inner loop of `Quantize` builds the packed value of the quantized group, reduced
modulo `2 ^ 64`. -/
theorem BitMatrix.quantizeWord_ok (fu : FloatUnit) (m : BitMatrix) (inp : MatrixBase) (L r c : Nat)
    (hL : 1 ≤ L)
    (hr : r < inp.num_rows_) (hc : c * L + L ≤ inp.num_cols_) :
    m.quantizeWord fu inp L r c = Except.ok (toUInt64 (laneSum m.align_bits_.toNat
      (fun i => m.quantize fu (inp.elem r (c * L + i))) L)) := by
  unfold BitMatrix.quantizeWord
  rw [MatrixBase.get_ok inp r (c * L) hr (by omega), bind_ok]
  refine forRange_eq_of_inv
    (fun k (tmp : Nat) => tmp = toUInt64 (laneSum m.align_bits_.toNat
      (fun i => m.quantize fu (inp.elem r (c * L + i))) (k + 1))) _ ?_ ?_ ?_
  · beta_reduce
    rw [Nat.zero_add, laneSum_one]
    rfl
  · intro k tmp hk htmp
    beta_reduce at htmp ⊢
    rw [MatrixBase.get_ok inp r (c * L + (k + 1)) hr (by omega), bind_ok, pure_eq_ok, htmp,
      pack_step, ← laneSum_succ]
    exact ⟨_, rfl, rfl⟩
  · intro t ht
    beta_reduce at ht
    have : L - 1 + 1 = L := by omega
    rw [ht, this]

theorem BitMatrix.lanesPerWord_ok (a : Int) (h0 : 0 < a) (h1 : a ≤ 64) :
    BitMatrix.lanesPerWord a = Except.ok (lanes a) ∧ 1 ≤ lanes a := by
  have e : toUInt64 a = a.toNat := toUInt64_of_range a (by omega) (by omega)
  have hpos : 0 < a.toNat := by omega
  have hle : a.toNat ≤ 64 := by omega
  constructor
  · unfold BitMatrix.lanesPerWord lanes
    rw [e]
    simp [Nat.ne_of_gt hpos]
  · unfold lanes
    exact (Nat.one_le_div_iff hpos).mpr hle

theorem BitMatrix.wordsPerRow_ok (a : Int) (h0 : 0 < a) (h1 : a ≤ 64) (n : Nat) :
    BitMatrix.wordsPerRow a n = Except.ok (n / lanes a) := by
  obtain ⟨e, hl⟩ := BitMatrix.lanesPerWord_ok a h0 h1
  unfold BitMatrix.wordsPerRow
  rw [e, bind_ok]
  simp [Nat.ne_of_gt hl]

/-- Allocation of a matrix with positive dimensions in a working memory environment. -/
theorem BitMatrix.Allocate_pos (h : Heap) (hh : h.Ok) (m : BitMatrix) (rows cols : Nat)
    (hr : 0 < rows) (hc : 0 < cols) :
    ∃ m1, m.AllocateBitMatrixMemory h rows cols = Except.ok m1 ∧ m1.Valid ∧
      m1.num_rows_ = rows ∧ m1.num_cols_ = cols ∧ m1.scale_ = m.scale_ ∧
      m1.quant_bits_ = m.quant_bits_ ∧ m1.align_bits_ = m.align_bits_ := by
  obtain ⟨h4, h8, hal⟩ := hh
  have hn : h.SNOWBOY_MEM_ALIGN / 8 ≠ 0 := by omega
  unfold BitMatrix.AllocateBitMatrixMemory
  have ha : ((rows : Int) ≥ 0 ∧ (cols : Int) ≥ 0) := by omega
  have hz : ¬ ((rows : Int) = 0 ∨ (cols : Int) = 0) := by omega
  rw [assert_ok _ ha, bind_ok]
  simp only [hz, if_false, assert_ok _ h4, bind_ok, hn, Int.toNat_ofNat]
  obtain ⟨blk, hb⟩ := Option.isSome_iff_exists.mp
    (hal h.SNOWBOY_MEM_ALIGN (8 * rows * (cols + (h.SNOWBOY_MEM_ALIGN / 8 -
      cols % (h.SNOWBOY_MEM_ALIGN / 8)) % (h.SNOWBOY_MEM_ALIGN / 8))))
  rw [hb]
  refine ⟨_, rfl, ?_, rfl, rfl, rfl, rfl, rfl⟩
  right
  exact ⟨rfl, hr, hc, Nat.le_add_right _ _⟩

/-- Allocation with a zero dimension yields the empty state. -/
theorem BitMatrix.Allocate_zero (h : Heap) (m : BitMatrix) (rows cols : Nat)
    (hz : rows = 0 ∨ cols = 0) :
    ∃ m1, m.AllocateBitMatrixMemory h rows cols = Except.ok m1 ∧ m1.Valid ∧
      m1.num_rows_ = 0 ∧ m1.num_cols_ = 0 ∧ m1.scale_ = m.scale_ ∧
      m1.quant_bits_ = m.quant_bits_ ∧ m1.align_bits_ = m.align_bits_ := by
  unfold BitMatrix.AllocateBitMatrixMemory
  have ha : ((rows : Int) ≥ 0 ∧ (cols : Int) ≥ 0) := by omega
  have hz1 : ((rows : Int) = 0 ∨ (cols : Int) = 0) := by omega
  rw [assert_ok _ ha, bind_ok]
  simp only [hz1, if_true]
  refine ⟨_, rfl, ?_, rfl, rfl, rfl, rfl, rfl⟩
  left
  exact ⟨rfl, rfl, rfl, rfl⟩

/-- `Resize` to a shape other than the current one releases and allocates. -/
theorem BitMatrix.Resize_ne (h : Heap) (m : BitMatrix) (rows cols : Nat)
    (hne : m.num_rows_ ≠ rows ∨ m.num_cols_ ≠ cols) :
    m.Resize h rows cols =
      (if m.data_.isSome then m.ReleaseBitMatrixMemory else m).AllocateBitMatrixMemory h
        rows cols := by
  unfold BitMatrix.Resize
  have : ¬ ((m.num_rows_ : Int) = rows ∧ (m.num_cols_ : Int) = cols) := by omega
  simp only [this, if_false]

theorem offset_ne (stride cols r r1 c c1 : Nat) (hc : c < cols) (hc1 : c1 < cols)
    (hs : cols ≤ stride) (hne : ¬ (r1 = r ∧ c1 = c)) : r1 * stride + c1 ≠ r * stride + c := by
  intro h
  rcases Nat.lt_trichotomy r1 r with hlt | heq | hgt
  · have : (r1 + 1) * stride ≤ r * stride := Nat.mul_le_mul_right _ hlt
    rw [Nat.add_mul] at this
    omega
  · subst heq
    exact hne ⟨rfl, by omega⟩
  · have : (r + 1) * stride ≤ r1 * stride := Nat.mul_le_mul_right _ hgt
    rw [Nat.add_mul] at this
    omega

theorem BitMatrix.word_write (m : BitMatrix) (f : Nat → Nat) (hf : m.data_ = some f)
    (off w : Nat) (r c : Nat) :
    BitMatrix.word { m with data_ := some (fun k => if k = off then w else f k) } r c =
      if r * m.stride_ + c = off then w else m.word r c := by
  simp [BitMatrix.word, hf]

/-- The state `Quantize` works on after its optional `Resize`. -/
theorem BitMatrix.Quantize_resize (h : Heap) (hh : h.Ok) (m : BitMatrix) (rows cols : Nat)
    (hv : m.Valid) (hshape : (rows = 0 ∧ cols = 0) ∨ (0 < rows ∧ 0 < cols)) :
    ∃ m1, (if m.num_rows_ ≠ rows ∨ m.num_cols_ ≠ cols then m.Resize h rows cols
        else pure m) = Except.ok m1 ∧ m1.Valid ∧
      m1.num_rows_ = rows ∧ m1.num_cols_ = cols ∧ m1.scale_ = m.scale_ ∧
      m1.quant_bits_ = m.quant_bits_ ∧ m1.align_bits_ = m.align_bits_ := by
  by_cases hne : m.num_rows_ ≠ rows ∨ m.num_cols_ ≠ cols
  · simp only [hne, if_true]
    rw [BitMatrix.Resize_ne h m rows cols hne]
    have hmeta : ∀ m0 : BitMatrix, m0 = (if m.data_.isSome then m.ReleaseBitMatrixMemory else m) →
        m0.scale_ = m.scale_ ∧ m0.quant_bits_ = m.quant_bits_ ∧
        m0.align_bits_ = m.align_bits_ := by
      intro m0 h0
      rw [h0]
      split <;> exact ⟨rfl, rfl, rfl⟩
    obtain ⟨e1, e2, e3⟩ := hmeta _ rfl
    rcases hshape with ⟨hr, hc⟩ | ⟨hr, hc⟩
    · obtain ⟨m1, hm1, hv1, a1, a2, a3, a4, a5⟩ := BitMatrix.Allocate_zero h
        (if m.data_.isSome then m.ReleaseBitMatrixMemory else m) rows cols (Or.inl hr)
      exact ⟨m1, hm1, hv1, by omega, by omega, a3.trans e1, a4.trans e2, a5.trans e3⟩
    · obtain ⟨m1, hm1, hv1, a1, a2, a3, a4, a5⟩ := BitMatrix.Allocate_pos h hh
        (if m.data_.isSome then m.ReleaseBitMatrixMemory else m) rows cols hr hc
      exact ⟨m1, hm1, hv1, a1, a2, a3.trans e1, a4.trans e2, a5.trans e3⟩
  · simp only [hne, if_false]
    have : m.num_rows_ = rows ∧ m.num_cols_ = cols := by
      constructor
      · by_contra hx; exact hne (Or.inl hx)
      · by_contra hx; exact hne (Or.inr hx)
    exact ⟨m, rfl, hv, this.1, this.2, rfl, rfl, rfl⟩

theorem SameFrame.refl (m : BitMatrix) : SameFrame m m := ⟨rfl, rfl, rfl, rfl, rfl, rfl, rfl⟩

theorem SameFrame.valid {m1 m2 : BitMatrix} (h : SameFrame m1 m2) (hv : m1.Valid) :
    m2.Valid := by
  obtain ⟨a1, a2, a3, _, _, _, a7⟩ := h
  unfold BitMatrix.Valid at hv ⊢
  rw [a1, a2, a3, a7]
  exact hv

theorem SameFrame.quantize (fu : FloatUnit) {m1 m2 : BitMatrix} (h : SameFrame m1 m2) (x : ℚ) :
    m2.quantize fu x = m1.quantize fu x := by
  unfold BitMatrix.quantize
  rw [h.2.2.2.2.1]

/-- The double loop of `Quantize`. -/
theorem BitMatrix.Quantize_loops (fu : FloatUnit) (m1 : BitMatrix) (inp : MatrixBase) (L : Nat)
    (hv : m1.Valid)
    (hL : 1 ≤ L) (hr : m1.num_rows_ = inp.num_rows_) (hc : m1.num_cols_ = inp.num_cols_ / L) :
    ∃ m2, forRange m1.num_rows_ (fun r m2 =>
        forRange m2.num_cols_ (fun c m3 => do
          let tmp ← m3.quantizeWord fu inp L r c
          let d ← writeWord m3.data_ (r * m3.stride_ + c) tmp
          pure { m3 with data_ := d }) m2) m1 = Except.ok m2 ∧ SameFrame m1 m2 ∧
      ∀ r c, r < m1.num_rows_ → c < m1.num_cols_ →
        m2.word r c = toUInt64 (laneSum m1.align_bits_.toNat
          (fun k => m1.quantize fu (inp.elem r (c * L + k))) L) := by
  refine forRange_post
    (fun i (m2 : BitMatrix) => SameFrame m1 m2 ∧
      ∀ r c, r < i → c < m1.num_cols_ →
        m2.word r c = toUInt64 (laneSum m1.align_bits_.toNat
          (fun k => m1.quantize fu (inp.elem r (c * L + k))) L))
    ⟨SameFrame.refl m1, fun r c hr => absurd hr (Nat.not_lt_zero r)⟩ ?_ (fun t ht => ht)
  intro i m2 hi hI
  obtain ⟨hf2, hw2⟩ := hI
  rw [hf2.2.1]
  refine forRange_post
    (fun j (m3 : BitMatrix) => SameFrame m1 m3 ∧
      (∀ r c, r < i → c < m1.num_cols_ →
        m3.word r c = toUInt64 (laneSum m1.align_bits_.toNat
          (fun k => m1.quantize fu (inp.elem r (c * L + k))) L)) ∧
      ∀ c, c < j →
        m3.word i c = toUInt64 (laneSum m1.align_bits_.toNat
          (fun k => m1.quantize fu (inp.elem i (c * L + k))) L))
    ⟨hf2, hw2, fun c hc => absurd hc (Nat.not_lt_zero c)⟩ ?_ ?_
  · intro j m3 hj hJ
    obtain ⟨hf3, hw3, hw3i⟩ := hJ
    have hv3 : m3.Valid := hf3.valid hv
    obtain ⟨f3, hd3⟩ := hv3.data_some (by rw [hf3.1]; omega)
    have hcl : j * L + L ≤ inp.num_cols_ := by
      have h1 : j + 1 ≤ inp.num_cols_ / L := by omega
      have h2 := (Nat.le_div_iff_mul_le (by omega : 0 < L)).mp h1
      rw [Nat.add_mul] at h2
      omega
    have hstr : m1.num_cols_ ≤ m1.stride_ := by
      rcases hv with ⟨_, h0, _, _⟩ | ⟨_, _, _, h4⟩
      · omega
      · exact h4
    rw [BitMatrix.quantizeWord_ok fu m3 inp L i j hL (by omega) hcl, bind_ok, hd3]
    simp only [writeWord, bind_ok, pure_eq_ok]
    refine ⟨_, rfl, ?_, ?_, ?_⟩
    · obtain ⟨a1, a2, a3, a4, a5, a6, a7⟩ := hf3
      refine ⟨a1, a2, a3, a4, a5, a6, ?_⟩
      rw [← a7, hd3]
      rfl
    · intro r c hr hc
      rw [BitMatrix.word_write m3 f3 hd3, hf3.2.2.1]
      have hne := offset_ne m1.stride_ m1.num_cols_ i r j c (by omega) hc hstr
        (fun h => absurd h.1 (Nat.ne_of_lt hr))
      simp only [hne, if_false]
      exact hw3 r c hr hc
    · intro c hc
      rw [BitMatrix.word_write m3 f3 hd3, hf3.2.2.1]
      by_cases hcj : c = j
      · subst hcj
        simp only [if_true, hf3.2.2.2.2.2.1]
        congr 2
        funext k
        exact hf3.quantize fu _
      · have hne := offset_ne m1.stride_ m1.num_cols_ i i j c (by omega) (by omega) hstr
          (fun h => hcj h.2)
        simp only [hne, if_false]
        exact hw3i c (by omega)
  · intro m3 hJ
    obtain ⟨hf3, hw3, hw3i⟩ := hJ
    refine ⟨hf3, ?_⟩
    intro r c hr hc
    rcases Nat.lt_succ_iff_lt_or_eq.mp hr with hlt | heq
    · exact hw3 r c hlt hc
    · rw [heq]; exact hw3i c hc

/-- What `Quantize` computes. For a valid target with `0 < align_bits ≤ 64` and
`quant_bits ≤ align_bits`, a working memory environment and a source whose row count and
word count are both zero or both positive, `Quantize` succeeds; the result has the source's
row count, `NumCols / L` words per row, unchanged metadata, and at `(r, c)` the packed value
of the quantized group. -/
theorem BitMatrix.Quantize_spec (fu : FloatUnit) (h : Heap) (hh : h.Ok) (m : BitMatrix)
    (inp : MatrixBase)
    (hv : m.Valid) (ha0 : 0 < m.align_bits_) (ha1 : m.align_bits_ ≤ 64)
    (hq : m.quant_bits_ ≤ m.align_bits_)
    (hshape : (inp.num_rows_ = 0 ∧ inp.num_cols_ / lanes m.align_bits_ = 0) ∨
      (0 < inp.num_rows_ ∧ 0 < inp.num_cols_ / lanes m.align_bits_)) :
    ∃ m2, m.Quantize fu h inp = Except.ok m2 ∧ m2.Valid ∧
      m2.num_rows_ = inp.num_rows_ ∧ m2.num_cols_ = inp.num_cols_ / lanes m.align_bits_ ∧
      m2.scale_ = m.scale_ ∧ m2.quant_bits_ = m.quant_bits_ ∧
      m2.align_bits_ = m.align_bits_ ∧
      ∀ r c, r < m2.num_rows_ → c < m2.num_cols_ → m2.word r c = quantWord fu m inp r c := by
  obtain ⟨m1, hm1, hv1, b1, b2, b3, b4, b5⟩ := BitMatrix.Quantize_resize h hh m
    inp.num_rows_ (inp.num_cols_ / lanes m.align_bits_) hv hshape
  obtain ⟨hl, hl1⟩ := BitMatrix.lanesPerWord_ok m.align_bits_ ha0 ha1
  obtain ⟨m2, hm2, hf, hw⟩ := BitMatrix.Quantize_loops fu m1 inp (lanes m.align_bits_) hv1 hl1 b1 b2
  unfold BitMatrix.Quantize
  rw [assert_ok _ ha0, bind_ok, BitMatrix.wordsPerRow_ok m.align_bits_ ha0 ha1, bind_ok, hm1,
    bind_ok, assert_ok _ (And.intro b1 b2), bind_ok,
    assert_ok (m1.align_bits_ ≥ m1.quant_bits_) (by rw [b4, b5]; exact hq), bind_ok, b5, hl,
    bind_ok, hm2]
  obtain ⟨a1, a2, a3, a4, a5, a6, a7⟩ := hf
  refine ⟨m2, rfl, SameFrame.valid ⟨a1, a2, a3, a4, a5, a6, a7⟩ hv1, a1.trans b1, a2.trans b2,
    a4.trans b3, a5.trans b4, a6.trans b5, ?_⟩
  intro r c hr hc
  rw [hw r c (by omega) (by omega)]
  unfold quantWord
  rw [b5]
  congr 2
  funext k
  unfold BitMatrix.quantize
  rw [b4]

theorem BitMatrix.Set_empty (m : BitMatrix) (v : Nat) (hr : m.num_rows_ = 0) :
    m.Set v = Except.ok m := by
  unfold BitMatrix.Set
  rw [hr]
  rfl

/-- What the constructor `BitMatrix(in, quant_bits, align_bits)` computes. -/
theorem BitMatrix.BitMatrix_quant_align_spec (fu : FloatUnit) (h : Heap) (hh : h.Ok)
    (inp : MatrixBase)
    (qb ab : Int) (ha0 : 0 < ab) (ha1 : ab ≤ 64) (hq : qb ≤ ab)
    (hshape : (inp.num_rows_ = 0 ∧ inp.num_cols_ / lanes ab = 0) ∨
      (0 < inp.num_rows_ ∧ 0 < inp.num_cols_ / lanes ab)) :
    ∃ m2, BitMatrix.BitMatrix_quant_align fu h inp qb ab = Except.ok m2 ∧ m2.Valid ∧
      m2.num_rows_ = inp.num_rows_ ∧ m2.num_cols_ = inp.num_cols_ / lanes ab ∧
      m2.scale_ = 1 / ((2 : ℚ) ^ qb - 1) ∧ m2.quant_bits_ = qb ∧ m2.align_bits_ = ab ∧
      ∀ r c, r < m2.num_rows_ → c < m2.num_cols_ →
        m2.word r c = toUInt64 (laneSum ab.toNat
          (fun k => (BitMatrix.ctorState qb ab).quantize fu (inp.elem r (c * lanes ab + k)))
          (lanes ab)) := by
  have hv0 : (BitMatrix.ctorState qb ab).Valid := Or.inl ⟨rfl, rfl, rfl, rfl⟩
  have hres : ∃ m1, (BitMatrix.ctorState qb ab).Resize h
      inp.num_rows_ (inp.num_cols_ / lanes ab : Nat) = Except.ok m1 ∧ m1.Valid ∧
      m1.scale_ = 1 / ((2 : ℚ) ^ qb - 1) ∧ m1.quant_bits_ = qb ∧ m1.align_bits_ = ab := by
    by_cases hz : inp.num_rows_ = 0 ∧ inp.num_cols_ / lanes ab = 0
    · refine ⟨_, ?_, hv0, rfl, rfl, rfl⟩
      unfold BitMatrix.Resize
      have : (((BitMatrix.ctorState qb ab).num_rows_ : Nat) : Int) = (inp.num_rows_ : Int) ∧
          (((BitMatrix.ctorState qb ab).num_cols_ : Nat) : Int) =
            ((inp.num_cols_ / lanes ab : Nat) : Int) := by
        rw [hz.1, hz.2]; exact ⟨rfl, rfl⟩
      simp only [this, and_self, if_true]
      exact BitMatrix.Set_empty _ 0 rfl
    · have hne : (BitMatrix.ctorState qb ab).num_rows_ ≠ inp.num_rows_ ∨
          (BitMatrix.ctorState qb ab).num_cols_ ≠ inp.num_cols_ / lanes ab := by
        show (0 : Nat) ≠ inp.num_rows_ ∨ (0 : Nat) ≠ inp.num_cols_ / lanes ab
        omega
      obtain ⟨m1, hm1, hv1, _, _, c3, c4, c5⟩ := BitMatrix.Quantize_resize h hh _
        inp.num_rows_ (inp.num_cols_ / lanes ab) hv0 hshape
      simp only [hne, if_true] at hm1
      exact ⟨m1, hm1, hv1, c3, c4, c5⟩
  obtain ⟨m1, hm1, hv1, c3, c4, c5⟩ := hres
  obtain ⟨m2, hm2, hv2, d1, d2, d3, d4, d5, hw⟩ := BitMatrix.Quantize_spec fu h hh m1 inp hv1
    (by rw [c5]; exact ha0) (by rw [c5]; exact ha1) (by rw [c4, c5]; exact hq)
    (by rw [c5]; exact hshape)
  unfold BitMatrix.BitMatrix_quant_align
  rw [BitMatrix.wordsPerRow_ok ab ha0 ha1, bind_ok]
  simp only [bind_ok] at *
  rw [hm1, bind_ok, hm2]
  rw [c5] at d2 d5
  refine ⟨m2, rfl, hv2, d1, d2, d3.trans c3, d4.trans c4, d5, ?_⟩
  intro r c hr hc
  rw [hw r c hr hc]
  unfold quantWord BitMatrix.quantize
  rw [c4, c5]
  rfl

/-! ## C4: the packing rule -/

theorem heap16_ok : heap16.Ok := ⟨by decide, by decide, fun _ _ => rfl⟩

theorem laneSum_congr (a : Nat) (q1 q2 : Nat → Int) (L : Nat) (h : ∀ i, i < L → q1 i = q2 i) :
    laneSum a q1 L = laneSum a q2 L := by
  unfold laneSum
  exact Finset.sum_congr rfl (fun i hi => by rw [h i (Finset.mem_range.mp hi)])

/-- The quantizer is the rounded value reduced to `int32`. -/
theorem BitMatrix.quantize_eq (fu : FloatUnit) (m : BitMatrix) (x : ℚ) :
    m.quantize fu x = toInt32 (quantValue fu m.quant_bits_ x) := rfl

/-- In exact arithmetic the quantizer of a constructed matrix rounds the exact product. -/
theorem BitMatrix.quantize_exact (qb ab : Int) (x : ℚ) :
    (BitMatrix.ctorState qb ab).quantize FloatUnit.exact x =
      toInt32 (roundf (x * ((2 : ℚ) ^ qb - 1))) := rfl

/-- C4 (amended). For either arithmetic `fu`, a valid target with `0 < align_bits ≤ 64` and
`quant_bits ≤ align_bits`, a working memory environment, a source whose row count and word
count are both zero or both positive and whose rounded values `Q(x) = quantValue fu
quant_bits x` (`roundf` of the product `x * (2 ^ quant_bits - 1)` as the floating-point unit
delivers it) all fit the `int32` result of the quantizer: `Quantize` succeeds and the word at
every `(r, c)` is the sum over the `L` lanes of
`Q(in(r, c * L + i)) * 2 ^ (align_bits * (L - 1 - i))` modulo `2 ^ 64`. -/
theorem Quantize_packing (fu : FloatUnit) (h : Heap) (hh : h.Ok) (m : BitMatrix)
    (inp : MatrixBase) (hv : m.Valid) (ha0 : 0 < m.AlignBits) (ha1 : m.AlignBits ≤ 64)
    (hq : m.QuantBits ≤ m.AlignBits)
    (hshape : (inp.num_rows_ = 0 ∧ inp.num_cols_ / lanes m.AlignBits = 0) ∨
      (0 < inp.num_rows_ ∧ 0 < inp.num_cols_ / lanes m.AlignBits))
    (hfit : ∀ r c, r < inp.num_rows_ → c < inp.num_cols_ →
      -2147483648 ≤ quantValue fu m.QuantBits (inp.elem r c) ∧
      quantValue fu m.QuantBits (inp.elem r c) < 2147483648) :
    ∃ m2, m.Quantize fu h inp = Except.ok m2 ∧ m2.NumRows = inp.num_rows_ ∧
      m2.NumCols = inp.num_cols_ / lanes m.AlignBits ∧
      ∀ r c, r < m2.NumRows → c < m2.NumCols →
        m2.get r c = Except.ok (packedWord fu m.QuantBits m.AlignBits inp r c) := by
  obtain ⟨m2, hm2, hv2, d1, d2, _, _, _, hw⟩ :=
    BitMatrix.Quantize_spec fu h hh m inp hv ha0 ha1 hq hshape
  refine ⟨m2, hm2, d1, d2, ?_⟩
  intro r c hr hc
  have hr1 : r < m2.num_rows_ := hr
  have hc1 : c < m2.num_cols_ := hc
  rw [BitMatrix.get_eq_word m2 hv2 r c hr1 hc1, hw r c hr1 hc1]
  unfold quantWord packedWord BitMatrix.AlignBits BitMatrix.QuantBits
  congr 2
  apply laneSum_congr
  intro i hi
  have hl1 : 1 ≤ lanes m.align_bits_ := (BitMatrix.lanesPerWord_ok m.align_bits_ ha0 ha1).2
  have hcl : c * lanes m.align_bits_ + i < inp.num_cols_ := by
    have h1 : c + 1 ≤ inp.num_cols_ / lanes m.align_bits_ := by omega
    have h2 := (Nat.le_div_iff_mul_le (by omega : 0 < lanes m.align_bits_)).mp h1
    rw [Nat.add_mul] at h2
    omega
  have hb := hfit r (c * lanes m.align_bits_ + i) (by omega) hcl
  rw [BitMatrix.quantize_eq]
  exact toInt32_of_range _ hb.1 hb.2

theorem roundf_intCast (z : Int) : roundf (z : ℚ) = z := by
  unfold roundf
  have h1 : ⌊(z : ℚ) + 1 / 2⌋ = z := by
    rw [Int.floor_eq_iff]
    constructor <;> norm_num
  have h2 : ⌊-(z : ℚ) + 1 / 2⌋ = -z := by
    rw [Int.floor_eq_iff]
    constructor <;> push_cast <;> norm_num
  split
  · exact h1
  · rw [h2]; ring

theorem lanes_64 : lanes 64 = 1 := by decide

theorem lanes_8 : lanes 8 = 8 := by decide

theorem lanes_64_cols (n : Nat) : n / lanes 64 = n := by
  rw [lanes_64, Nat.div_one]

theorem two_zpow_sub_one (qb : Int) (h : 0 ≤ qb) :
    (2 : ℚ) ^ qb - 1 = ((2 ^ qb.toNat - 1 : Nat) : ℚ) := by
  have e : qb = (qb.toNat : Int) := (Int.toNat_of_nonneg h).symm
  have hp : 1 ≤ 2 ^ qb.toNat := Nat.one_le_two_pow
  rw [Nat.cast_sub hp]
  push_cast
  conv_lhs => rw [e]
  rw [zpow_natCast]

/-- The factor `2 ^ quant_bits - 1` is an integer that the `double` format holds, for
`0 ≤ quant_bits ≤ 53`. -/
theorem toDouble_factor (fu : FloatUnit) (qb : Int) (hq0 : 0 ≤ qb) (hq : qb ≤ 53) :
    fu.toDouble ((2 : ℚ) ^ qb - 1) = (2 : ℚ) ^ qb - 1 := by
  have hp1 : 1 ≤ 2 ^ qb.toNat := Nat.one_le_two_pow
  have hp53 : 2 ^ qb.toNat ≤ 2 ^ 53 := Nat.pow_le_pow_right (by norm_num) (by omega)
  have hlt : 2 ^ qb.toNat - 1 < 2 ^ 53 := by omega
  rw [two_zpow_sub_one qb hq0, ← Int.cast_natCast]
  apply FloatUnit.toDouble_intCast
  rw [abs_of_nonneg (by positivity)]
  exact_mod_cast hlt

/-- When the product `x * (2 ^ quant_bits - 1)` is an integer below `2 ^ 24` in absolute
value, no rounding of the floating-point unit changes it. -/
theorem quantValue_of_int (fu : FloatUnit) (qb : Int) (x : ℚ) (n : Int) (hq0 : 0 ≤ qb)
    (hq : qb ≤ 53) (hx : x * ((2 : ℚ) ^ qb - 1) = (n : ℚ)) (hn : |(n : ℚ)| < 2 ^ 24) :
    quantValue fu qb x = n := by
  unfold quantValue
  rw [toDouble_factor fu qb hq0 hq, hx,
    FloatUnit.toDouble_intCast fu n (lt_trans hn (by norm_num)),
    FloatUnit.toFloat_intCast fu n hn, roundf_intCast]

/-- `Quantize` of a 1 x 1 source into one 64-bit lane stores the value of the quantizer. -/
theorem Quantize_oneCell (fu : FloatUnit) (qb : Int) (hq : qb ≤ 64) (inp : MatrixBase)
    (hr : inp.num_rows_ = 1) (hc : inp.num_cols_ = 1) :
    ∃ m2, (BitMatrix.ctorState qb 64).Quantize fu heap16 inp = Except.ok m2 ∧
      m2.get 0 0 = Except.ok (toUInt64 (toInt32 (quantValue fu qb (inp.elem 0 0)))) := by
  have hshape : (inp.num_rows_ = 0 ∧ inp.num_cols_ / lanes 64 = 0) ∨
      (0 < inp.num_rows_ ∧ 0 < inp.num_cols_ / lanes 64) := by
    rw [lanes_64_cols, hr, hc]
    exact Or.inr ⟨Nat.one_pos, Nat.one_pos⟩
  obtain ⟨m2, hm2, hv2, d1, d2, _, _, _, hw⟩ :=
    BitMatrix.Quantize_spec fu heap16 heap16_ok (BitMatrix.ctorState qb 64) inp
      (Or.inl ⟨rfl, rfl, rfl, rfl⟩) (by show (0 : Int) < 64; norm_num)
      (by show (64 : Int) ≤ 64; norm_num) hq hshape
  have hr0 : 0 < m2.num_rows_ := by rw [d1, hr]; exact Nat.one_pos
  have hc0 : 0 < m2.num_cols_ := by
    rw [d2]
    show 0 < inp.num_cols_ / lanes 64
    rw [lanes_64_cols, hc]
    exact Nat.one_pos
  refine ⟨m2, hm2, ?_⟩
  have hg := BitMatrix.get_eq_word m2 hv2 0 0 hr0 hc0
  rw [hw 0 0 hr0 hc0] at hg
  simp only [Nat.cast_zero] at hg
  rw [hg]
  congr 1
  show toUInt64 (laneSum (64 : Int).toNat
    (fun i => (BitMatrix.ctorState qb 64).quantize fu (inp.elem 0 (0 * lanes 64 + i)))
    (lanes 64)) = _
  rw [lanes_64, laneSum_one]
  rfl

theorem roundf_half (f : Int) (hf : 0 ≤ f) : roundf ((f : ℚ) + 1 / 2) = f + 1 := by
  have h0 : (0 : ℚ) ≤ (f : ℚ) := by exact_mod_cast hf
  unfold roundf
  rw [if_pos (by linarith), Int.floor_eq_iff]
  constructor <;> push_cast <;> linarith

/-- The quantizer of the machine at `2 ^ 31` with one quantization bit: the product is
representable, and so is the value rounded. -/
theorem quantValue_twoPow31 : quantValue FloatUnit.ieee 1 2147483648 = 2147483648 := by
  have hu : ulp 24 2147483648 = 256 := by
    rw [ulp_of_binade 24 2147483648 31 (by rw [abs_of_pos (by norm_num)]; norm_num)
      (by rw [abs_of_pos (by norm_num)]; norm_num)]
    norm_num
  have hf : FloatUnit.ieee.toFloat 2147483648 = 2147483648 :=
    roundToPrecision_eq 24 2147483648 8388608 (by rw [hu]; norm_num)
  have hd : FloatUnit.ieee.toDouble ((2147483648 : Int) : ℚ) = ((2147483648 : Int) : ℚ) :=
    FloatUnit.toDouble_intCast _ _ (by norm_num)
  unfold quantValue
  rw [toDouble_factor _ 1 (by norm_num) (by norm_num)]
  have e : (2147483648 : ℚ) * ((2 : ℚ) ^ (1 : Int) - 1) = ((2147483648 : Int) : ℚ) := by
    norm_num
  rw [e, hd]
  have e2 : ((2147483648 : Int) : ℚ) = 2147483648 := by norm_num
  rw [e2, hf, ← e2, roundf_intCast]

/-- The quantizer of the machine at the `float` value `0x1.020202p-1` with eight bits: the
product `2155872255 / 2 ^ 24`, just below 128.5, is a `double`, its nearest `float` is 128.5,
and `roundf` takes that to 129. -/
theorem quantValue_tie : quantValue FloatUnit.ieee 8 (8454401 / 16777216) = 129 := by
  have hy : (8454401 / 16777216 : ℚ) * ((2 : ℚ) ^ (8 : Int) - 1) = 2155872255 / 16777216 := by
    norm_num
  have h1 : (2 : ℚ) ^ (7 : Int) ≤ |(2155872255 / 16777216 : ℚ)| := by
    rw [abs_of_pos (by norm_num)]; norm_num
  have h2 : |(2155872255 / 16777216 : ℚ)| < (2 : ℚ) ^ ((7 : Int) + 1) := by
    rw [abs_of_pos (by norm_num)]; norm_num
  have hd : FloatUnit.ieee.toDouble (2155872255 / 16777216) = 2155872255 / 16777216 := by
    refine roundToPrecision_eq 53 _ 4521191811317760 ?_
    rw [ulp_of_binade 53 _ 7 h1 h2]
    norm_num
  have hf : FloatUnit.ieee.toFloat (2155872255 / 16777216) = 257 / 2 := by
    show roundToPrecision 24 (2155872255 / 16777216) = 257 / 2
    rw [roundToPrecision_of_binade 24 _ 7 h1 h2]
    have e : (2155872255 / 16777216 : ℚ) / (2 : ℚ) ^ ((7 : Int) - ((24 : Nat) : Int) + 1) =
        2155872255 / 256 := by norm_num
    rw [e, roundEven_up (2155872255 / 256) 8421375 (by norm_num) (by norm_num)]
    norm_num
  unfold quantValue
  rw [toDouble_factor _ 8 (by norm_num) (by norm_num), hy, hd, hf]
  have e : (257 / 2 : ℚ) = ((128 : Int) : ℚ) + 1 / 2 := by norm_num
  rw [e, roundf_half 128 (by norm_num)]
  rfl

/-- In exact arithmetic the rounded value at `0x1.020202p-1` with eight bits is 128. -/
theorem quantValue_tie_exact : quantValue FloatUnit.exact 8 (8454401 / 16777216) = 128 := by
  show roundf ((8454401 / 16777216 : ℚ) * ((2 : ℚ) ^ (8 : Int) - 1)) = 128
  unfold roundf
  rw [if_pos (by norm_num), Int.floor_eq_iff]
  constructor <;> norm_num

/-- C4 (counterexample). With the arithmetic of the machine and one 64-bit lane. A source
value of `2 ^ 31` with `quant_bits = 1`: the quantizer's `int32` result is `-2 ^ 31`, the
stored word is `2 ^ 64 - 2 ^ 31`, while the packing rule with
`Q(x) = round(x * (2 ^ quant_bits - 1))` gives `2 ^ 31`. The source value `0x1.020202p-1`
with `quant_bits = 8`: the product with 255 is narrowed to the `float` 128.5, the stored word
is 129, while the packing rule with `Q` gives 128. -/
theorem Quantize_packing_counterexample :
    (∃ m2, (BitMatrix.ctorState 1 64).Quantize FloatUnit.ieee heap16 sourceTwoPow31 =
        Except.ok m2 ∧
      m2.get 0 0 = Except.ok 18446744071562067968 ∧
      packedWord FloatUnit.exact 1 64 sourceTwoPow31 0 0 = 2147483648) ∧
    (∃ m2, (BitMatrix.ctorState 8 64).Quantize FloatUnit.ieee heap16 sourceTie =
        Except.ok m2 ∧
      m2.get 0 0 = Except.ok 129 ∧
      packedWord FloatUnit.exact 8 64 sourceTie 0 0 = 128) := by
  constructor
  · obtain ⟨m2, hm2, hw⟩ := Quantize_oneCell FloatUnit.ieee 1 (by decide) sourceTwoPow31 rfl rfl
    refine ⟨m2, hm2, ?_, ?_⟩
    · rw [hw]
      show Except.ok (toUInt64 (toInt32 (quantValue FloatUnit.ieee 1 2147483648))) = _
      rw [quantValue_twoPow31]
      rfl
    · show toUInt64 (laneSum (64 : Int).toNat
        (fun i => quantValue FloatUnit.exact 1 (sourceTwoPow31.elem 0 (0 * lanes 64 + i)))
        (lanes 64)) = 2147483648
      rw [lanes_64, laneSum_one]
      show toUInt64 (roundf ((2147483648 : ℚ) * ((2 : ℚ) ^ (1 : Int) - 1))) = _
      have e2 : (2147483648 : ℚ) * ((2 : ℚ) ^ (1 : Int) - 1) = ((2147483648 : Int) : ℚ) := by
        norm_num
      rw [e2, roundf_intCast]
      decide
  · obtain ⟨m2, hm2, hw⟩ := Quantize_oneCell FloatUnit.ieee 8 (by decide) sourceTie rfl rfl
    refine ⟨m2, hm2, ?_, ?_⟩
    · rw [hw]
      show Except.ok (toUInt64 (toInt32 (quantValue FloatUnit.ieee 8 (8454401 / 16777216)))) = _
      rw [quantValue_tie]
      rfl
    · show toUInt64 (laneSum (64 : Int).toNat
        (fun i => quantValue FloatUnit.exact 8 (sourceTie.elem 0 (0 * lanes 64 + i)))
        (lanes 64)) = 128
      rw [lanes_64, laneSum_one]
      show toUInt64 (quantValue FloatUnit.exact 8 (8454401 / 16777216)) = _
      rw [quantValue_tie_exact]
      rfl

theorem sourceRamp_quant (fu : FloatUnit) (c : Nat) (hc : c < 16777216) :
    quantValue fu 8 (sourceRamp.elem 0 c) = (c : Int) := by
  apply quantValue_of_int fu 8 _ (c : Int) (by norm_num) (by norm_num)
  · show (c : ℚ) / 255 * ((2 : ℚ) ^ (8 : Int) - 1) = ((c : Int) : ℚ)
    norm_num
  · rw [abs_of_nonneg (by positivity)]
    exact_mod_cast hc

/-- Witness of C4 (amended): with the arithmetic of the machine, the row 0/255, ..., 7/255
quantized with 8 bits in 8-bit lanes packs into the word `0x0001020304050607`. -/
theorem Quantize_packing_witness :
    ∃ m2, (BitMatrix.ctorState 8 8).Quantize FloatUnit.ieee heap16 sourceRamp = Except.ok m2 ∧
      m2.get 0 0 = Except.ok 283686952306183 := by
  obtain ⟨m2, hm2, d1, d2, hw⟩ :=
    Quantize_packing FloatUnit.ieee heap16 heap16_ok (BitMatrix.ctorState 8 8) sourceRamp
      (by decide) (by decide) (by decide) (by decide) (by decide)
      (fun r c hr hc => by
        have hr0 : r = 0 := by
          have : r < 1 := hr
          omega
        subst hr0
        have hc8 : c < 8 := hc
        have := sourceRamp_quant FloatUnit.ieee c (by omega)
        show -2147483648 ≤ quantValue FloatUnit.ieee 8 (sourceRamp.elem 0 c) ∧
          quantValue FloatUnit.ieee 8 (sourceRamp.elem 0 c) < 2147483648
        rw [this]
        omega)
  refine ⟨m2, hm2, ?_⟩
  have := hw 0 0 (by rw [d1]; decide) (by rw [d2]; decide)
  simp only [Nat.cast_zero] at this
  rw [this]
  congr 1
  show toUInt64 (laneSum (8 : Int).toNat
    (fun i => quantValue FloatUnit.ieee 8 (sourceRamp.elem 0 (0 * lanes 8 + i)))
    (lanes 8)) = 283686952306183
  rw [lanes_8]
  have e : laneSum (8 : Int).toNat
      (fun i => quantValue FloatUnit.ieee 8 (sourceRamp.elem 0 (0 * 8 + i))) 8 =
      laneSum 8 (fun i => (i : Int)) 8 := by
    apply laneSum_congr
    intro i hi
    rw [Nat.zero_mul, Nat.zero_add]
    exact sourceRamp_quant FloatUnit.ieee i (by omega)
  rw [e]
  decide

/-! ## C5: lane range -/

theorem natLaneSum_succ (a : Nat) (d : Nat → Nat) (L : Nat) :
    natLaneSum a d (L + 1) = natLaneSum a d L * 2 ^ a + d L := by
  unfold natLaneSum
  rw [Finset.sum_range_succ, Finset.sum_mul]
  have e : ∀ i ∈ Finset.range L, d i * 2 ^ (a * (L + 1 - 1 - i)) =
      d i * 2 ^ (a * (L - 1 - i)) * 2 ^ a := by
    intro i hi
    rw [Finset.mem_range] at hi
    have : a * (L + 1 - 1 - i) = a * (L - 1 - i) + a := by
      have : L + 1 - 1 - i = (L - 1 - i) + 1 := by omega
      rw [this]; ring
    rw [this, pow_add]; ring
  rw [Finset.sum_congr rfl e]
  simp

theorem natLaneSum_lt (a : Nat) (d : Nat → Nat) (L : Nat) (hd : ∀ i, i < L → d i < 2 ^ a) :
    natLaneSum a d L < 2 ^ (a * L) := by
  induction L with
  | zero => simp [natLaneSum]
  | succ L ih =>
    rw [natLaneSum_succ]
    have h1 := ih (fun i hi => hd i (Nat.lt_succ_of_lt hi))
    have h2 := hd L (Nat.lt_succ_self L)
    have e : 2 ^ (a * (L + 1)) = 2 ^ (a * L) * 2 ^ a := by rw [Nat.mul_succ, pow_add]
    rw [e]
    have hp : 0 < 2 ^ a := Nat.pow_pos (by norm_num)
    nlinarith

theorem laneOf_natLaneSum (a : Nat) (d : Nat → Nat) (L : Nat) (hd : ∀ i, i < L → d i < 2 ^ a)
    (j : Nat) (hj : j < L) : laneOf a L (natLaneSum a d L) j = d j := by
  induction L with
  | zero => omega
  | succ L ih =>
    have hp : 0 < 2 ^ a := Nat.pow_pos (by norm_num)
    have hL := hd L (Nat.lt_succ_self L)
    unfold laneOf
    rw [natLaneSum_succ]
    rcases Nat.lt_succ_iff_lt_or_eq.mp hj with hlt | heq
    · have e : a * (L + 1 - 1 - j) = a + a * (L - 1 - j) := by
        have : L + 1 - 1 - j = (L - 1 - j) + 1 := by omega
        rw [this]; ring
      rw [e, pow_add, ← Nat.div_div_eq_div_mul]
      have e2 : (natLaneSum a d L * 2 ^ a + d L) / 2 ^ a = natLaneSum a d L := by
        rw [Nat.add_comm, Nat.add_mul_div_right _ _ hp, Nat.div_eq_of_lt hL, Nat.zero_add]
      rw [e2]
      exact ih (fun i hi => hd i (Nat.lt_succ_of_lt hi)) hlt
    · subst heq
      have e : a * (j + 1 - 1 - j) = 0 := by
        have : j + 1 - 1 - j = 0 := by omega
        rw [this]; ring
      rw [e, pow_zero, Nat.div_one, Nat.add_comm, Nat.add_mul_mod_self_right,
        Nat.mod_eq_of_lt hL]

theorem laneSum_cast (a : Nat) (d : Nat → Nat) (L : Nat) :
    laneSum a (fun i => (d i : Int)) L = (natLaneSum a d L : Int) := by
  unfold laneSum natLaneSum
  push_cast
  rfl

theorem align_div (ab : Int) (h0 : 0 < ab) (hdiv : 64 % ab = 0) :
    ab ≤ 64 ∧ ab.toNat * lanes ab = 64 := by
  have hle : ab ≤ 64 := by
    by_contra hgt
    have : (64 : Int) % ab = 64 := Int.emod_eq_of_lt (by norm_num) (by omega)
    omega
  refine ⟨hle, ?_⟩
  have e : ab = (ab.toNat : Int) := (Int.toNat_of_nonneg (by omega)).symm
  have hn : 64 % ab.toNat = 0 := by
    have h2 : ((64 % ab.toNat : Nat) : Int) = 0 := by
      rw [Int.natCast_mod, ← e]
      exact hdiv
    exact_mod_cast h2
  unfold lanes
  exact Nat.mul_div_cancel' (Nat.dvd_of_mod_eq_zero hn)

theorem roundf_le_int (w : ℚ) (M : Int) (h0 : 0 ≤ w) (h : w ≤ (M : ℚ)) :
    0 ≤ roundf w ∧ roundf w ≤ M := by
  unfold roundf
  rw [if_pos h0]
  constructor
  · exact Int.floor_nonneg.mpr (by linarith)
  · have : ⌊w + 1 / 2⌋ < M + 1 := by
      rw [Int.floor_lt]
      push_cast
      linarith
    omega

theorem roundf_error (y : ℚ) (h0 : 0 ≤ y) : |(roundf y : ℚ) - y| ≤ 1 / 2 := by
  unfold roundf
  rw [if_pos h0]
  have h1 : (⌊y + 1 / 2⌋ : ℚ) ≤ y + 1 / 2 := Int.floor_le _
  have h2 : y + 1 / 2 < (⌊y + 1 / 2⌋ : ℚ) + 1 := Int.lt_floor_add_one _
  rw [abs_le]
  constructor <;> linarith

/-- The rounded value of a source value in `[0, 1]` for `1 ≤ quant_bits ≤ 30`, in either
arithmetic: it lies in `[0, 2 ^ quant_bits]`, in `[0, 2 ^ quant_bits - 1]` when
`quant_bits ≤ 24` (the factor `2 ^ quant_bits - 1` is then a `float`), and it differs from the
exact product by at most one half plus the rounding of the product, which is at most
`(2 ^ quant_bits - 1) / 2 ^ 23`. -/
theorem quantValue_unit (fu : FloatUnit) (qb : Int) (x : ℚ) (hq1 : 1 ≤ qb) (hq30 : qb ≤ 30)
    (h0 : 0 ≤ x) (h1 : x ≤ 1) :
    0 ≤ quantValue fu qb x ∧ quantValue fu qb x ≤ 2 ^ qb.toNat ∧
    (qb ≤ 24 → quantValue fu qb x ≤ 2 ^ qb.toNat - 1) ∧
    |(quantValue fu qb x : ℚ) - x * ((2 : ℚ) ^ qb - 1)| ≤
      1 / 2 + ((2 : ℚ) ^ qb - 1) / 2 ^ 23 := by
  have hp1 : 1 ≤ 2 ^ qb.toNat := Nat.one_le_two_pow
  have hp30 : 2 ^ qb.toNat ≤ 2 ^ 30 := Nat.pow_le_pow_right (by norm_num) (by omega)
  have hNq : (2 : ℚ) ^ qb - 1 = (((2 ^ qb.toNat - 1 : Nat) : Int) : ℚ) := by
    rw [two_zpow_sub_one qb (by omega), Int.cast_natCast]
  have hNpow : ((2 ^ qb.toNat - 1 : Nat) : Int) + 1 = 2 ^ qb.toNat := by
    rw [Nat.cast_sub hp1]; push_cast; ring
  have hN0 : (0 : Int) ≤ ((2 ^ qb.toNat - 1 : Nat) : Int) := Int.natCast_nonneg _
  have hpi : (2 : Int) ^ qb.toNat ≤ 2 ^ 30 := by exact_mod_cast hp30
  generalize ((2 ^ qb.toNat - 1 : Nat) : Int) = N at hNq hNpow hN0
  have hN0q : (0 : ℚ) ≤ (N : ℚ) := by exact_mod_cast hN0
  have hNle : (N : ℚ) + 1 = 2 ^ qb.toNat := by exact_mod_cast hNpow
  have hN30 : (N : ℚ) < 2 ^ 30 := by
    have : N < 2 ^ 30 := by omega
    exact_mod_cast this
  unfold quantValue
  rw [toDouble_factor fu qb (by omega) (by omega), hNq]
  have hy0 : 0 ≤ x * (N : ℚ) := mul_nonneg h0 hN0q
  have hyN : x * (N : ℚ) ≤ (N : ℚ) := by nlinarith
  have hz0 := FloatUnit.toDouble_nonneg fu _ hy0
  have hzN := FloatUnit.toDouble_le_int fu _ N hy0 hyN (by linarith)
  have hze := FloatUnit.toDouble_error fu (x * (N : ℚ))
  rw [abs_of_nonneg hy0] at hze
  have hw0 := FloatUnit.toFloat_nonneg fu _ hz0
  have hwe := FloatUnit.toFloat_error fu (fu.toDouble (x * (N : ℚ)))
  rw [abs_of_nonneg hz0] at hwe
  have hwP : fu.toFloat (fu.toDouble (x * (N : ℚ))) ≤ 2 ^ qb.toNat :=
    FloatUnit.toFloat_le_two_pow fu _ qb.toNat hz0 (by linarith)
  have hr := roundf_le_int _ (2 ^ qb.toNat : Int) hw0 (by push_cast; exact hwP)
  have hre := roundf_error _ hw0
  refine ⟨hr.1, hr.2, ?_, ?_⟩
  · intro h24
    have hp24 : (2 : Int) ^ qb.toNat ≤ 2 ^ 24 :=
      pow_le_pow_right₀ (by norm_num) (by omega)
    have hN24 : (N : ℚ) < 2 ^ 24 := by
      have : N < 2 ^ 24 := by omega
      exact_mod_cast this
    have := (roundf_le_int _ N hw0 (FloatUnit.toFloat_le_int fu _ N hz0 hzN hN24)).2
    omega
  · have a : fu.toDouble (x * (N : ℚ)) / 2 ^ 24 ≤ (N : ℚ) / 2 ^ 24 :=
      div_le_div_of_nonneg_right hzN (by positivity)
    have b : x * (N : ℚ) / 2 ^ 53 ≤ (N : ℚ) / 2 ^ 24 := by
      rw [div_le_div_iff₀ (by positivity) (by positivity)]
      nlinarith
    have c : (N : ℚ) / 2 ^ 23 = (N : ℚ) / 2 ^ 24 + (N : ℚ) / 2 ^ 24 := by ring
    rw [abs_le] at hze hwe hre ⊢
    rw [c]
    constructor <;> linarith

/-- The quantizer on a source value in `[0, 1]` for `1 ≤ quant_bits ≤ 24`, in either
arithmetic: the `int32` result type does not change the rounded value, which lies in
`[0, 2 ^ quant_bits - 1]`. -/
theorem quantize_lane (fu : FloatUnit) (m : BitMatrix) (x : ℚ) (hq1 : 1 ≤ m.quant_bits_)
    (hq24 : m.quant_bits_ ≤ 24) (h0 : 0 ≤ x) (h1 : x ≤ 1) :
    m.quantize fu x = quantValue fu m.quant_bits_ x ∧
      0 ≤ m.quantize fu x ∧ m.quantize fu x < 2 ^ m.quant_bits_.toNat := by
  obtain ⟨b0, _, b2, _⟩ := quantValue_unit fu m.quant_bits_ x hq1 (by omega) h0 h1
  have b3 := b2 hq24
  have hpi : (2 : Int) ^ m.quant_bits_.toNat ≤ 2 ^ 24 :=
    pow_le_pow_right₀ (by norm_num) (by omega)
  have e : m.quantize fu x = quantValue fu m.quant_bits_ x := by
    rw [BitMatrix.quantize_eq]
    exact toInt32_of_range _ (by omega) (by omega)
  rw [e]
  exact ⟨rfl, b0, by omega⟩

/-- C5 (amended). In either arithmetic `fu`, for a source with all entries in `[0, 1]` and
`1 ≤ quant_bits ≤ 24`, `quant_bits ≤ align_bits`, `align_bits` dividing 64: every lane `i`
(counted from the most significant lane) of every word produced by `Quantize` holds the
rounded value `Q(in(r, c * L + i)) = quantValue fu quant_bits (in(r, c * L + i))`; this
value differs from the exact product `in(r, c * L + i) * (2 ^ quant_bits - 1)` by at most
`1/2 + (2 ^ quant_bits - 1) / 2 ^ 23`, and it lies in `[0, 2 ^ quant_bits - 1]`, so the upper
`align_bits - quant_bits` bits of the lane are zero. -/
theorem Quantize_lanes (fu : FloatUnit) (h : Heap) (hh : h.Ok) (m : BitMatrix)
    (inp : MatrixBase) (hv : m.Valid) (hq1 : 1 ≤ m.QuantBits) (hq24 : m.QuantBits ≤ 24)
    (hqa : m.QuantBits ≤ m.AlignBits) (hdiv : 64 % m.AlignBits = 0)
    (hshape : (inp.num_rows_ = 0 ∧ inp.num_cols_ / lanes m.AlignBits = 0) ∨
      (0 < inp.num_rows_ ∧ 0 < inp.num_cols_ / lanes m.AlignBits))
    (hunit : ∀ r c, r < inp.num_rows_ → c < inp.num_cols_ →
      0 ≤ inp.elem r c ∧ inp.elem r c ≤ 1) :
    ∃ m2, m.Quantize fu h inp = Except.ok m2 ∧
      ∀ r c, r < m2.NumRows → c < m2.NumCols →
        ∃ w, m2.get r c = Except.ok w ∧
          ∀ i, i < lanes m.AlignBits →
            (laneOf m.AlignBits.toNat (lanes m.AlignBits) w i : Int) =
              quantValue fu m.QuantBits (inp.elem r (c * lanes m.AlignBits + i)) ∧
            |((laneOf m.AlignBits.toNat (lanes m.AlignBits) w i : Nat) : ℚ) -
                inp.elem r (c * lanes m.AlignBits + i) * ((2 : ℚ) ^ m.QuantBits - 1)| ≤
              1 / 2 + ((2 : ℚ) ^ m.QuantBits - 1) / 2 ^ 23 ∧
            laneOf m.AlignBits.toNat (lanes m.AlignBits) w i ≤ 2 ^ m.QuantBits.toNat - 1 ∧
            laneOf m.AlignBits.toNat (lanes m.AlignBits) w i / 2 ^ m.QuantBits.toNat = 0 := by
  simp only [BitMatrix.QuantBits, BitMatrix.AlignBits, BitMatrix.NumRows,
    BitMatrix.NumCols] at *
  have ha0 : 0 < m.align_bits_ := by omega
  obtain ⟨ha1, haL⟩ := align_div m.align_bits_ ha0 hdiv
  obtain ⟨m2, hm2, hv2, d1, d2, _, _, _, hw⟩ :=
    BitMatrix.Quantize_spec fu h hh m inp hv ha0 ha1 hqa hshape
  refine ⟨m2, hm2, ?_⟩
  intro r c hr hc
  refine ⟨_, BitMatrix.get_eq_word m2 hv2 r c hr hc, ?_⟩
  have hl1 : 1 ≤ lanes m.align_bits_ := (BitMatrix.lanesPerWord_ok m.align_bits_ ha0 ha1).2
  have hidx : ∀ i, i < lanes m.align_bits_ → c * lanes m.align_bits_ + i < inp.num_cols_ := by
    intro i hi
    have h1 : c + 1 ≤ inp.num_cols_ / lanes m.align_bits_ := by omega
    have h2 := (Nat.le_div_iff_mul_le (by omega : 0 < lanes m.align_bits_)).mp h1
    rw [Nat.add_mul] at h2
    omega
  have hqz : ∀ i, i < lanes m.align_bits_ →
      m.quantize fu (inp.elem r (c * lanes m.align_bits_ + i)) =
        quantValue fu m.quant_bits_ (inp.elem r (c * lanes m.align_bits_ + i)) ∧
      0 ≤ m.quantize fu (inp.elem r (c * lanes m.align_bits_ + i)) ∧
      m.quantize fu (inp.elem r (c * lanes m.align_bits_ + i)) < 2 ^ m.quant_bits_.toNat := by
    intro i hi
    have hu := hunit r (c * lanes m.align_bits_ + i) (by omega) (hidx i hi)
    exact quantize_lane fu m _ hq1 hq24 hu.1 hu.2
  have hpow : 2 ^ m.quant_bits_.toNat ≤ 2 ^ m.align_bits_.toNat :=
    Nat.pow_le_pow_right (by norm_num) (by omega)
  have hd : ∀ i, i < lanes m.align_bits_ →
      (m.quantize fu (inp.elem r (c * lanes m.align_bits_ + i))).toNat <
        2 ^ m.align_bits_.toNat := by
    intro i hi
    obtain ⟨_, h0, h1⟩ := hqz i hi
    have : ((m.quantize fu (inp.elem r (c * lanes m.align_bits_ + i))).toNat : Int) <
        ((2 ^ m.quant_bits_.toNat : Nat) : Int) := by
      rw [Int.toNat_of_nonneg h0]; exact_mod_cast h1
    have h2 : (m.quantize fu (inp.elem r (c * lanes m.align_bits_ + i))).toNat <
        2 ^ m.quant_bits_.toNat := by exact_mod_cast this
    omega
  have hword : m2.word r c = natLaneSum m.align_bits_.toNat
      (fun i => (m.quantize fu (inp.elem r (c * lanes m.align_bits_ + i))).toNat)
      (lanes m.align_bits_) := by
    rw [hw r c hr hc]
    unfold quantWord
    rw [laneSum_congr _ _ (fun i => (((m.quantize fu
      (inp.elem r (c * lanes m.align_bits_ + i))).toNat : Nat) : Int)) _
      (fun i hi => (Int.toNat_of_nonneg (hqz i hi).2.1).symm), laneSum_cast]
    have hlt := natLaneSum_lt m.align_bits_.toNat
      (fun i => (m.quantize fu (inp.elem r (c * lanes m.align_bits_ + i))).toNat)
      (lanes m.align_bits_) hd
    rw [haL] at hlt
    rw [toUInt64_of_range _ (Int.natCast_nonneg _) (by exact_mod_cast hlt), Int.toNat_ofNat]
  intro i hi
  rw [hword, laneOf_natLaneSum _ _ _ hd i hi]
  obtain ⟨e, h0, h1⟩ := hqz i hi
  have hlt : (m.quantize fu (inp.elem r (c * lanes m.align_bits_ + i))).toNat <
      2 ^ m.quant_bits_.toNat := by
    have : ((m.quantize fu (inp.elem r (c * lanes m.align_bits_ + i))).toNat : Int) <
        ((2 ^ m.quant_bits_.toNat : Nat) : Int) := by
      rw [Int.toNat_of_nonneg h0]; exact_mod_cast h1
    exact_mod_cast this
  have hval : (((m.quantize fu (inp.elem r (c * lanes m.align_bits_ + i))).toNat : Nat) : Int) =
      quantValue fu m.quant_bits_ (inp.elem r (c * lanes m.align_bits_ + i)) := by
    rw [Int.toNat_of_nonneg h0, e]
  have hu := hunit r (c * lanes m.align_bits_ + i) (by omega) (hidx i hi)
  refine ⟨hval, ?_, by omega, Nat.div_eq_of_lt hlt⟩
  have hq : (((m.quantize fu (inp.elem r (c * lanes m.align_bits_ + i))).toNat : Nat) : ℚ) =
      ((quantValue fu m.quant_bits_ (inp.elem r (c * lanes m.align_bits_ + i)) : Int) : ℚ) := by
    rw [← hval, Int.cast_natCast]
  rw [hq]
  exact (quantValue_unit fu m.quant_bits_ _ hq1 (by omega) hu.1 hu.2).2.2.2

/-- The quantizer of the machine at the source value 1 with 25 bits: the factor
`2 ^ 25 - 1` is not a `float`, and the nearest one, by the rule of the even significand, is
`2 ^ 25`. -/
theorem quantValue_one_25 : quantValue FloatUnit.ieee 25 1 = 33554432 := by
  have h1 : (2 : ℚ) ^ (24 : Int) ≤ |(33554431 : ℚ)| := by
    rw [abs_of_pos (by norm_num)]; norm_num
  have h2 : |(33554431 : ℚ)| < (2 : ℚ) ^ ((24 : Int) + 1) := by
    rw [abs_of_pos (by norm_num)]; norm_num
  have hd : FloatUnit.ieee.toDouble ((33554431 : Int) : ℚ) = ((33554431 : Int) : ℚ) :=
    FloatUnit.toDouble_intCast _ _ (by norm_num)
  have hf : FloatUnit.ieee.toFloat (33554431 : ℚ) = 33554432 := by
    show roundToPrecision 24 (33554431 : ℚ) = 33554432
    rw [roundToPrecision_of_binade 24 _ 24 h1 h2]
    have e : (33554431 : ℚ) / (2 : ℚ) ^ ((24 : Int) - ((24 : Nat) : Int) + 1) =
        ((16777215 : Int) : ℚ) + 1 / 2 := by norm_num
    rw [e, roundEven_tie_odd 16777215 (by decide)]
    norm_num
  unfold quantValue
  rw [toDouble_factor _ 25 (by norm_num) (by norm_num)]
  have e : (1 : ℚ) * ((2 : ℚ) ^ (25 : Int) - 1) = ((33554431 : Int) : ℚ) := by norm_num
  rw [e, hd]
  have e2 : ((33554431 : Int) : ℚ) = 33554431 := by norm_num
  rw [e2, hf]
  have e3 : (33554432 : ℚ) = ((33554432 : Int) : ℚ) := by norm_num
  rw [e3, roundf_intCast]

/-- C5 (counterexample). With the arithmetic of the machine, `quant_bits = 25` in one 64-bit
lane and the source value 1: the factor `2 ^ 25 - 1` is narrowed to the `float` `2 ^ 25`, so
the lane holds `2 ^ 25`, which is not `round(1 * (2 ^ 25 - 1)) = 2 ^ 25 - 1`, lies outside
`[0, 2 ^ 25 - 1]`, and has a bit set above the 25 quantization bits. -/
theorem Quantize_lanes_counterexample :
    (0 ≤ (allOnes 1 1).elem 0 0 ∧ (allOnes 1 1).elem 0 0 ≤ 1) ∧
    ((1 : Int) ≤ 25 ∧ (25 : Int) ≤ 64 ∧ (64 : Int) % 64 = 0) ∧
    ∃ m2, (BitMatrix.ctorState 25 64).Quantize FloatUnit.ieee heap16 (allOnes 1 1) =
        Except.ok m2 ∧
      m2.get 0 0 = Except.ok 33554432 ∧
      laneOf 64 1 33554432 0 = 33554432 ∧
      roundf ((allOnes 1 1).elem 0 0 * ((2 : ℚ) ^ (25 : Int) - 1)) = 33554431 ∧
      ¬ (laneOf 64 1 33554432 0 ≤ 2 ^ 25 - 1) ∧
      ¬ (laneOf 64 1 33554432 0 / 2 ^ 25 = 0) := by
  have hround : roundf ((allOnes 1 1).elem 0 0 * ((2 : ℚ) ^ (25 : Int) - 1)) = 33554431 := by
    show roundf ((1 : ℚ) * ((2 : ℚ) ^ (25 : Int) - 1)) = 33554431
    have e : (1 : ℚ) * ((2 : ℚ) ^ (25 : Int) - 1) = ((33554431 : Int) : ℚ) := by norm_num
    rw [e, roundf_intCast]
  obtain ⟨m2, hm2, hw⟩ := Quantize_oneCell FloatUnit.ieee 25 (by decide) (allOnes 1 1) rfl rfl
  refine ⟨⟨by norm_num [allOnes], by norm_num [allOnes]⟩, ⟨by decide, by decide, by decide⟩,
    m2, hm2, ?_, by decide, hround, by decide, by decide⟩
  rw [hw]
  show Except.ok (toUInt64 (toInt32 (quantValue FloatUnit.ieee 25 1))) = _
  rw [quantValue_one_25]
  rfl

/-- Witness of C5 (amended): with the arithmetic of the machine, in the 8-bit quantization of
0/255, ..., 7/255 lane 3 of the word holds 3. -/
theorem Quantize_lanes_witness :
    ∃ m2 w, (BitMatrix.ctorState 8 8).Quantize FloatUnit.ieee heap16 sourceRamp =
        Except.ok m2 ∧
      m2.get 0 0 = Except.ok w ∧ (laneOf 8 8 w 3 : Int) = 3 := by
  obtain ⟨m2, hm2, hw⟩ :=
    Quantize_lanes FloatUnit.ieee heap16 heap16_ok (BitMatrix.ctorState 8 8) sourceRamp
      (by decide) (by decide) (by decide) (by decide) (by decide) (by decide)
      (fun r c hr hc => by
        show 0 ≤ (c : ℚ) / 255 ∧ (c : ℚ) / 255 ≤ 1
        have hc8 : c < 8 := hc
        have h1 : (c : ℚ) ≤ 8 := by exact_mod_cast (Nat.le_of_lt hc8)
        have h0 : (0 : ℚ) ≤ (c : ℚ) := Nat.cast_nonneg c
        constructor
        · positivity
        · rw [div_le_one (by norm_num)]; linarith)
  have hm : m2.NumRows = 1 ∧ m2.NumCols = 1 := by
    obtain ⟨m3, hm3, _, d1, d2, _⟩ :=
      BitMatrix.Quantize_spec FloatUnit.ieee heap16 heap16_ok (BitMatrix.ctorState 8 8)
        sourceRamp (by decide) (by decide) (by decide) (by decide) (by decide)
    rw [hm2] at hm3
    injection hm3 with e
    subst e
    exact ⟨d1, d2⟩
  obtain ⟨w, hg, hl⟩ := hw 0 0 (by rw [hm.1]; decide) (by rw [hm.2]; decide)
  refine ⟨m2, w, hm2, hg, ?_⟩
  have h3 := (hl 3 (by decide)).1
  rw [show (BitMatrix.ctorState 8 8).AlignBits.toNat = 8 from rfl,
    show lanes (BitMatrix.ctorState 8 8).AlignBits = 8 from lanes_8] at h3
  rw [h3]
  exact sourceRamp_quant FloatUnit.ieee 3 (by decide)

/-! ## C7: ToMatrix -/

theorem readWord_word (m : BitMatrix) (f : Nat → Nat) (hf : m.data_ = some f) (r c : Nat) :
    readWord m.data_ (r * m.stride_ + c) = Except.ok (m.word r c) := by
  simp [readWord, BitMatrix.word, hf]

/-- The double loop of `ToMatrix`, for either reconstruction rule `g`. -/
theorem ToMatrix_loops (m : BitMatrix) (out : MatrixBase) (g : Nat → ℚ) (hv : m.Valid)
    (hr : m.num_rows_ ≤ out.num_rows_) (hc : m.num_cols_ ≤ out.num_cols_) :
    ∃ o, forRange m.num_rows_ (fun r o1 =>
        forRange m.num_cols_ (fun c o2 => do
          let w ← readWord m.data_ (r * m.stride_ + c)
          o2.set r c (g w)) o1) out = Except.ok o ∧
      o.num_rows_ = out.num_rows_ ∧ o.num_cols_ = out.num_cols_ ∧
      ∀ r c, o.elem r c =
        if r < m.num_rows_ ∧ c < m.num_cols_ then g (m.word r c) else out.elem r c := by
  refine forRange_post
    (fun i (o : MatrixBase) => o.num_rows_ = out.num_rows_ ∧ o.num_cols_ = out.num_cols_ ∧
      ∀ r c, o.elem r c = if r < i ∧ c < m.num_cols_ then g (m.word r c) else out.elem r c)
    ⟨rfl, rfl, fun r c => by simp⟩ ?_ (fun t ht => ht)
  intro i o1 hi hI
  obtain ⟨h1, h2, h3⟩ := hI
  obtain ⟨f, hf⟩ := hv.data_some (by omega)
  refine forRange_post
    (fun j (o : MatrixBase) => o.num_rows_ = out.num_rows_ ∧ o.num_cols_ = out.num_cols_ ∧
      ∀ r c, o.elem r c =
        if (r < i ∧ c < m.num_cols_) ∨ (r = i ∧ c < j) then g (m.word r c) else out.elem r c)
    ⟨h1, h2, fun r c => by rw [h3 r c]; simp⟩ ?_ ?_
  · intro j o2 hj hJ
    obtain ⟨k1, k2, k3⟩ := hJ
    rw [readWord_word m f hf, bind_ok, MatrixBase.set_ok o2 i j _ (by omega) (by omega)]
    refine ⟨_, rfl, k1, k2, ?_⟩
    intro r c
    show (if r = i ∧ c = j then g (m.word i j) else o2.elem r c) = _
    by_cases hrc : r = i ∧ c = j
    · obtain ⟨e1, e2⟩ := hrc
      subst e1 e2
      simp
    · rw [if_neg hrc, k3 r c]
      have : ((r < i ∧ c < m.num_cols_) ∨ (r = i ∧ c < j)) ↔
          ((r < i ∧ c < m.num_cols_) ∨ (r = i ∧ c < j + 1)) := by
        constructor
        · rintro (h | h)
          · exact Or.inl h
          · exact Or.inr ⟨h.1, by omega⟩
        · rintro (h | h)
          · exact Or.inl h
          · refine Or.inr ⟨h.1, ?_⟩
            have : c ≠ j := fun e => hrc ⟨h.1, e⟩
            omega
      simp only [this]
  · intro o2 hJ
    obtain ⟨k1, k2, k3⟩ := hJ
    refine ⟨k1, k2, ?_⟩
    intro r c
    rw [k3 r c]
    have : ((r < i ∧ c < m.num_cols_) ∨ (r = i ∧ c < m.num_cols_)) ↔
        (r < i + 1 ∧ c < m.num_cols_) := by
      constructor
      · rintro (h | h)
        · exact ⟨by omega, h.2⟩
        · exact ⟨by omega, h.2⟩
      · rintro ⟨h1, h2⟩
        rcases Nat.lt_succ_iff_lt_or_eq.mp h1 with h | h
        · exact Or.inl ⟨h, h2⟩
        · exact Or.inr ⟨h, h2⟩
    simp only [this]

/-- What `ToMatrix` computes: one entry per word. -/
theorem BitMatrix.ToMatrix_spec (m : BitMatrix) (out : MatrixBase) (hv : m.Valid)
    (hr : m.num_rows_ ≤ out.num_rows_) (hc : m.num_cols_ ≤ out.num_cols_) :
    ∃ o, m.ToMatrix out = Except.ok o ∧
      o.num_rows_ = out.num_rows_ ∧ o.num_cols_ = out.num_cols_ ∧
      (∀ r c, r < m.num_rows_ → c < m.num_cols_ →
        o.elem r c =
          if m.quant_bits_ = 1 then (if m.word r c = 1 then m.scale_ else -m.scale_)
          else (m.word r c : ℚ) * m.scale_) ∧
      ∀ r c, ¬ (r < m.num_rows_ ∧ c < m.num_cols_) → o.elem r c = out.elem r c := by
  unfold BitMatrix.ToMatrix
  by_cases hq : m.quant_bits_ = 1
  · obtain ⟨o, ho, h1, h2, h3⟩ := ToMatrix_loops m out
      (fun w => if w = 1 then m.scale_ else -m.scale_) hv hr hc
    simp only [hq, if_true]
    refine ⟨o, ho, h1, h2, ?_, ?_⟩
    · intro r c hr1 hc1
      rw [h3 r c, if_pos ⟨hr1, hc1⟩]
    · intro r c hn
      rw [h3 r c, if_neg hn]
  · obtain ⟨o, ho, h1, h2, h3⟩ := ToMatrix_loops m out
      (fun w => m.scale_ * (w : ℚ)) hv hr hc
    simp only [hq, if_false]
    refine ⟨o, ho, h1, h2, ?_, ?_⟩
    · intro r c hr1 hc1
      rw [h3 r c, if_pos ⟨hr1, hc1⟩, mul_comm]
    · intro r c hn
      rw [h3 r c, if_neg hn]

/-- C7 (amended). `ToMatrix` reconstructs one entry per word, not per lane: for a valid
matrix and an output with at least `NumRows` rows and `NumCols` columns it succeeds, keeps the
output's shape, and sets entry `(r, c)` for `r < NumRows`, `c < NumCols` to `+scale` when
`quant_bits == 1` and the word is 1, to `-scale` when `quant_bits == 1` and the word is not 1,
and to `word * scale` when `quant_bits != 1`; every other entry is left as it was. -/
theorem ToMatrix_words (m : BitMatrix) (out : MatrixBase) (hv : m.Valid)
    (hr : m.NumRows ≤ out.num_rows_) (hc : m.NumCols ≤ out.num_cols_) :
    ∃ o, m.ToMatrix out = Except.ok o ∧
      o.num_rows_ = out.num_rows_ ∧ o.num_cols_ = out.num_cols_ ∧
      (∀ r c, r < m.NumRows → c < m.NumCols →
        o.elem r c =
          if m.QuantBits = 1 then (if m.word r c = 1 then m.Scale else -m.Scale)
          else (m.word r c : ℚ) * m.Scale) ∧
      ∀ r c, ¬ (r < m.NumRows ∧ c < m.NumCols) → o.elem r c = out.elem r c :=
  BitMatrix.ToMatrix_spec m out hv hr hc

/-- C7 (counterexample). For one word of eight 8-bit lanes and an output of shape 1 x 8, the
entry for lane 1 stays 0 although lane 1 holds 1 (so the claim asks for 1/255), and entry 0
is the whole word times the scale. -/
theorem ToMatrix_words_counterexample :
    ∃ o, rampBits.ToMatrix rowOfEight = Except.ok o ∧ o.elem 0 1 = 0 ∧
      (laneOf 8 8 (rampBits.word 0 0) 1 : ℚ) * rampBits.Scale = 1 / 255 ∧
      o.elem 0 0 = 283686952306183 / 255 ∧
      (laneOf 8 8 (rampBits.word 0 0) 0 : ℚ) * rampBits.Scale = 0 := by
  obtain ⟨o, ho, _, _, h3, h4⟩ := BitMatrix.ToMatrix_spec rampBits rowOfEight (by decide)
    (by decide) (by decide)
  refine ⟨o, ho, ?_, ?_, ?_, ?_⟩
  · rw [h4 0 1 (by decide)]
    rfl
  · have e : laneOf 8 8 (rampBits.word 0 0) 1 = 1 := by decide
    rw [e]
    show ((1 : Nat) : ℚ) * (1 / 255) = 1 / 255
    norm_num
  · rw [h3 0 0 (by decide) (by decide)]
    have hq : ¬ (rampBits.quant_bits_ = 1) := by decide
    rw [if_neg hq]
    show ((283686952306183 : Nat) : ℚ) * (1 / 255) = 283686952306183 / 255
    norm_num
  · have e : laneOf 8 8 (rampBits.word 0 0) 0 = 0 := by decide
    rw [e]
    norm_num

/-- Witness of C7 (amended): the one-word ramp matrix written into a 1 x 8 output sets entry
`(0, 0)` to the word times the scale. -/
theorem ToMatrix_words_witness :
    ∃ o, rampBits.ToMatrix rowOfEight = Except.ok o ∧
      o.elem 0 0 = 283686952306183 / 255 := by
  obtain ⟨o, ho, _, _, h3, _⟩ := ToMatrix_words rampBits rowOfEight (by decide)
    (by decide) (by decide)
  refine ⟨o, ho, ?_⟩
  rw [h3 0 0 (by decide) (by decide)]
  have hq : ¬ (rampBits.QuantBits = 1) := by decide
  rw [if_neg hq]
  show ((283686952306183 : Nat) : ℚ) * (1 / 255) = 283686952306183 / 255
  norm_num

/-! ## C6: quantize then dequantize -/

theorem testBit_shl64 (y b j : Nat) :
    (shl64 y b).testBit j = (decide (j < 64) && (decide (b ≤ j) && y.testBit (j - b))) := by
  unfold shl64
  rw [Nat.testBit_mod_two_pow, Nat.testBit_shiftLeft]

theorem testBit_not64 (x j : Nat) :
    (not64 x).testBit j = (decide (j < 64) && !x.testBit j) := by
  have hlt : x % 2 ^ 64 < 2 ^ 64 := Nat.mod_lt _ (by norm_num)
  have e : not64 x = 2 ^ 64 - (x % 2 ^ 64 + 1) := by unfold not64; omega
  rw [e, Nat.testBit_two_pow_sub_succ hlt, Nat.testBit_mod_two_pow]
  by_cases hj : j < 64 <;> simp [hj]

theorem not64_land_mask (y : Nat) :
    not64 (y &&& mask_8_1) &&& mask_8_1 = not64 y &&& mask_8_1 := by
  apply Nat.eq_of_testBit_eq
  intro j
  simp only [Nat.testBit_land, testBit_not64]
  cases y.testBit j <;> cases mask_8_1.testBit j <;> simp

/-- The positive count of a bit plane splits into the part of the mask bits of `y` and the
part of the other bits of `y`. -/
theorem popcountll_split (x y b : Nat) :
    popcountll (x &&& shl64 y b) =
      popcountll (x &&& shl64 (y &&& mask_8_1) b) +
      popcountll (x &&& shl64 (y &&& not64 mask_8_1) b) := by
  simp only [popcountll_eq_sum]
  rw [← Finset.sum_add_distrib]
  refine Finset.sum_congr rfl (fun j hj => ?_)
  rw [Finset.mem_range] at hj
  have hjb : j - b < 64 := by omega
  simp only [Nat.testBit_land, testBit_shl64, testBit_not64, hj, hjb, decide_True, Bool.true_and]
  cases x.testBit j <;> cases y.testBit (j - b) <;> cases mask_8_1.testBit (j - b) <;>
    cases decide (b ≤ j) <;> simp

/-- C8 (amended). The negative count of the kernel uses only the mask bits of `y`, but the
positive count uses every bit of `y`: for all words `x`, `y` the kernel at `y` is the kernel
at `y & mask` plus, for each bit plane `b`, `2 ^ b` times the number of set bits of
`x & ((y & ~mask) << b)`. The two kernels agree when `y` has no bit outside the mask. -/
theorem kernel_sign_bits (x y : Nat) :
    bit_kernel_for_uint64_8_1 x y =
      bit_kernel_for_uint64_8_1 x (y &&& mask_8_1) +
      ∑ b in Finset.range 8,
        (popcountll (x &&& shl64 (y &&& not64 mask_8_1) b) : Int) * 2 ^ b := by
  rw [kernel_eq_raw, kernel_eq_raw, ← Finset.sum_add_distrib]
  refine Finset.sum_congr rfl (fun b _ => ?_)
  unfold planeDiff
  rw [not64_land_mask, popcountll_split x y b]
  push_cast
  ring

/-- C8 (counterexample). For `x = 2`, `y = 2` the kernel is -1, while at `y & mask = 0` it
is -2. -/
theorem kernel_sign_bits_counterexample :
    bit_kernel_for_uint64_8_1 2 2 ≠ bit_kernel_for_uint64_8_1 2 (2 &&& 0x0101010101010101) := by
  decide

/-! ## C3: end-to-end multiply -/

theorem BitMatrix_in_bits_eq (fu : FloatUnit) (h : Heap) (inp : MatrixBase) (b : Int) :
    BitMatrix.BitMatrix_in_bits fu h inp b = BitMatrix.BitMatrix_quant_align fu h inp b b := rfl

theorem truncToInt32_unit : truncToInt32 (1 / 255) = 0 := by
  have h : ⌊(1 / 255 : ℚ)⌋ = 0 := by
    rw [Int.floor_eq_iff]
    norm_num
  unfold truncToInt32
  rw [if_pos (by norm_num), h]
  rfl

/-- C10. The text form of the one-word matrix `rampBits` (8-bit lanes 0, 1, .., 7) is the
header followed by the single literal of its word; reading that text back into
a default-constructed matrix runs the loop to the closing bracket with one stored word, one row
and a column count of zero, and then fails the assertion on the size of the data, leaving
the target empty. -/
theorem text_roundtrip_fails :
    ∃ os, rampBits.Write false [] = Except.ok os ∧
      (∃ r, textLoop 8 8 21 textStart (chars "  283686952306183 ]\n") = Except.ok r ∧
        r.1.data.length = 1 ∧ r.1.num_rows = 1 ∧ r.1.num_cols = 0) ∧
      ∃ st, BitMatrix.Read heap16 false BitMatrix.BitMatrix_default os =
        Except.error (Failure.assertion, st) ∧ st.num_rows_ = 0 ∧ st.num_cols_ = 0 :=
  ⟨_, rfl, ⟨_, rfl, rfl, rfl, rfl⟩, _, rfl, rfl, rfl⟩

/-- C11. The view of row 0 of `rampBits`, whose scale is `1 / 255`, has the dimension, the
bit widths and the word of its owner, but its `Scale()` is 0: the member is an `int32`. -/
theorem row_view_scale :
    ∃ v, rampBits.Row 0 = Except.ok v ∧ v.Dim = rampBits.NumCols ∧
      v.QuantBits = rampBits.QuantBits ∧ v.AlignBits = rampBits.AlignBits ∧
      v.get 0 = rampBits.get 0 0 ∧ rampBits.Scale = 1 / 255 ∧ v.Scale = 0 := by
  refine ⟨_, BitMatrix.Row_ok rampBits _ rfl 0 (by decide), rfl, rfl, rfl, rfl, rfl, ?_⟩
  show ((truncToInt32 (1 / 255) : Int) : ℚ) = 0
  rw [truncToInt32_unit]
  rfl

/-- C17. The text input `raggedText` has a first row of eight literals and a last row of
three; `Read` returns a 2 x 1 matrix whose second word is the three literals shifted left
by five lanes. -/
theorem text_read_ragged :
    ∃ m rest, BitMatrix.Read heap16 false BitMatrix.BitMatrix_default raggedText =
        Except.ok (m, rest) ∧ m.num_rows_ = 2 ∧ m.num_cols_ = 1 ∧
      m.get 0 0 = Except.ok 72623859790382856 ∧ m.get 1 0 = Except.ok 72623842526232576 :=
  ⟨_, _, rfl, rfl, rfl, rfl, rfl⟩

/-- C19. The text form of the one-word matrix `rampBits`, whose eight 8-bit lanes are
0, 1, .., 7: the body holds the one literal `283686952306183` of the whole word. -/
theorem text_write_words :
    rampBits.Write false [] =
      Except.ok (headerItems 8 8 (1 / 255) ++ chars " [\n  283686952306183 ]\n") := rfl

/-- C20. The text input `shortRowsText` has 8-bit lanes and two rows of three literals; the
loop stores one word per row and leaves the literal count 3, `Read` divides it by the eight
lanes of a word to zero words per row and fails the assertion on the size of the data. -/
theorem text_read_partial_groups :
    (∃ r, textLoop 8 8 17 textStart (chars " 1 2 3\n 4 5 6 ]\n") = Except.ok r ∧
        r.1.data = [72623842526232576, 289644348105031680] ∧ r.1.num_rows = 2 ∧
        r.1.num_cols = 3) ∧
      ∃ st, BitMatrix.Read heap16 false BitMatrix.BitMatrix_default shortRowsText =
        Except.error (Failure.assertion, st) ∧ st.num_rows_ = 0 :=
  ⟨⟨_, rfl, rfl, rfl, rfl⟩, _, rfl, rfl⟩

/-! ## VecVec on arbitrary views -/

/-- What `VecVec` computes on two views of equal dimension over present buffers: the kernel
sum reduced to `int32` when the second view has `quant_bits_ = 1`, and 0 otherwise. -/
theorem VecVec_spec (x y : BitVector) (f g : Nat → Nat) (hx : x.data_ = some f)
    (hy : y.data_ = some g) (hd : x.dim_ = y.dim_) :
    VecVec x y =
      Except.ok (if y.quant_bits_ = 1 then toInt32 (vecSum f g x.dim_) else 0) := by
  have ha : SNOWBOY_ASSERT (x.Dim = y.Dim) = Except.ok () := assert_ok _ hd
  unfold VecVec
  rw [ha, bind_ok]
  simp only [BitVector.Dim, BitVector.QuantBits]
  by_cases hq : y.quant_bits_ = 1
  · simp only [hq, if_true]
    refine forRange_eq_of_inv (fun k (res : Int) => res = toInt32 (vecSum f g k)) _
      (by simp [vecSum, toInt32]) ?_ (fun t ht => ht)
    intro k res hk hres
    have h1 : ((k : Int) < (y.dim_ : Int) ∧ (k : Int) ≥ 0) := by omega
    have h2 : ((k : Int) < (x.dim_ : Int) ∧ (k : Int) ≥ 0) := by omega
    refine ⟨_, ?_, rfl⟩
    simp only [BitVector.get, assert_ok _ h1, assert_ok _ h2, bind_ok, readWord, Int.toNat_ofNat,
      pure_eq_ok, hres, vecSum, Finset.sum_range_succ, hx, hy, toInt32_add_toInt32]
  · simp only [hq, if_false, pure_eq_ok]

theorem vecSum_const (a b n : Nat) :
    vecSum (fun _ => a) (fun _ => b) n = (n : Int) * bit_kernel_for_uint64_8_1 a b := by
  simp [vecSum]

theorem vecSum_bounds (f g : Nat → Nat) (n : Nat) :
    -(16320 * (n : Int)) ≤ vecSum f g n ∧ vecSum f g n ≤ 16320 * (n : Int) := by
  induction n with
  | zero => simp [vecSum]
  | succ n ih =>
    have h := kernel_bounds (f n) (g n)
    have e : vecSum f g (n + 1) = vecSum f g n + bit_kernel_for_uint64_8_1 (f n) (g n) := by
      simp [vecSum, Finset.sum_range_succ]
    rw [e]
    push_cast
    omega

/-- C12 (amended). For two views of equal dimension over present buffers `f` and `g`, whose
words `x(k)` and `y(k)` are `f k` and `g k`: `VecVec` never fails; when the second view has
`QuantBits() = 1` the result is the sum of `bit_kernel_for_uint64_8_1 (x(k), y(k))` over all
`k` wrapped to `int32`, which is that sum itself when every partial sum fits the `int32`
accumulator; when `QuantBits()` is not 1 the result is 0, whatever the words. -/
theorem VecVec_dispatch (x y : BitVector) (f g : Nat → Nat) (hx : x.data_ = some f)
    (hy : y.data_ = some g) (hd : x.Dim = y.Dim) :
    (∀ k, k < x.Dim → x.get k = Except.ok (f k) ∧ y.get k = Except.ok (g k)) ∧
    (∃ v, VecVec x y = Except.ok v) ∧
    (y.QuantBits = 1 → VecVec x y = Except.ok (toInt32 (vecSum f g x.Dim))) ∧
    (y.QuantBits = 1 →
      (∀ n, n ≤ x.Dim → -2147483648 ≤ vecSum f g n ∧ vecSum f g n < 2147483648) →
      VecVec x y = Except.ok (vecSum f g x.Dim)) ∧
    (y.QuantBits ≠ 1 → VecVec x y = Except.ok 0) := by
  simp only [BitVector.Dim, BitVector.QuantBits] at hd ⊢
  refine ⟨?_, ⟨_, VecVec_spec x y f g hx hy hd⟩, ?_, ?_, ?_⟩
  · intro k hk
    have h1 : ((k : Int) < (y.dim_ : Int) ∧ (k : Int) ≥ 0) := by omega
    have h2 : ((k : Int) < (x.dim_ : Int) ∧ (k : Int) ≥ 0) := by omega
    simp only [BitVector.get, assert_ok _ h1, assert_ok _ h2, bind_ok, readWord, hx, hy,
      Int.toNat_ofNat, and_self]
  · intro hq
    rw [VecVec_spec x y f g hx hy hd, if_pos hq]
  · intro hq hfit
    rw [VecVec_spec x y f g hx hy hd, if_pos hq,
      toInt32_of_range _ (hfit _ (Nat.le_refl _)).1 (hfit _ (Nat.le_refl _)).2]
  · intro hq
    rw [VecVec_spec x y f g hx hy hd, if_neg hq]

/-- C12 (counterexample). Two views of 1052689 words, all lanes 255 against all sign flags
set, second view with `QuantBits() = 1`: the kernel sum is 2147485560, and `VecVec` returns
the wrapped `int32` value -2147481736. -/
theorem VecVec_dispatch_counterexample :
    (constView 1052689 18446744073709551615 8).Dim = (constView 1052689 mask_8_1 1).Dim ∧
    (constView 1052689 mask_8_1 1).QuantBits = 1 ∧
    vecSum (fun _ => 18446744073709551615) (fun _ => mask_8_1) 1052689 = 2147485560 ∧
    VecVec (constView 1052689 18446744073709551615 8) (constView 1052689 mask_8_1 1) =
      Except.ok (-2147481736) := by
  have hk : vecSum (fun _ => 18446744073709551615) (fun _ => mask_8_1) 1052689 = 2147485560 := by
    rw [vecSum_const]
    have : bit_kernel_for_uint64_8_1 18446744073709551615 mask_8_1 = 2040 := by decide
    rw [this]; norm_num
  refine ⟨rfl, rfl, hk, ?_⟩
  rw [VecVec_spec (constView 1052689 18446744073709551615 8) (constView 1052689 mask_8_1 1)
    (fun _ => 18446744073709551615) (fun _ => mask_8_1) rfl rfl rfl]
  show Except.ok (if (1 : Int) = 1 then
    toInt32 (vecSum (fun _ => 18446744073709551615) (fun _ => mask_8_1) 1052689) else 0) = _
  rw [if_pos rfl, hk]
  rfl

/-- Witness of C12 (amended): two views of three words with kernel value 2040 each; the
result is 6120 with a sign view, and 0 when the second view has eight quantization bits. -/
theorem VecVec_dispatch_witness :
    VecVec (constView 3 18446744073709551615 8) (constView 3 mask_8_1 1) = Except.ok 6120 ∧
    VecVec (constView 3 18446744073709551615 8) (constView 3 mask_8_1 8) = Except.ok 0 := by
  have h := VecVec_dispatch (constView 3 18446744073709551615 8) (constView 3 mask_8_1 1)
    (fun _ => 18446744073709551615) (fun _ => mask_8_1) rfl rfl rfl
  have hk : vecSum (fun _ => 18446744073709551615) (fun _ => mask_8_1) 3 = 6120 := by
    rw [vecSum_const]
    have : bit_kernel_for_uint64_8_1 18446744073709551615 mask_8_1 = 2040 := by decide
    rw [this]; norm_num
  constructor
  · have h1 := h.2.2.2.1 rfl (fun n hn => by
      have hb := vecSum_bounds (fun _ => 18446744073709551615) (fun _ => mask_8_1) n
      have hn1 : (n : Int) ≤ 3 := by exact_mod_cast hn
      constructor <;> omega)
    rw [h1]
    exact congrArg Except.ok hk
  · exact (VecVec_dispatch (constView 3 18446744073709551615 8) (constView 3 mask_8_1 8)
      (fun _ => 18446744073709551615) (fun _ => mask_8_1) rfl rfl rfl).2.2.2.2 (by decide)

/-! ## The precondition of BitMatBitMat -/

theorem rowView_data (m : BitMatrix) (f : Nat → Nat) (r : Nat) :
    (m.rowView f r).data_ = some (fun k => f (r * m.stride_ + k)) := rfl

/-- With valid operands and matching shapes `BitMatBitMat` succeeds, whatever the
quantization width of the second operand. -/
theorem BitMatBitMat_total (x y : BitMatrix) (out : MatrixBase) (hx : x.Valid) (hy : y.Valid)
    (hcols : x.num_cols_ = y.num_cols_) (hrows : x.num_rows_ = out.num_rows_)
    (hoc : y.num_rows_ = out.num_cols_) :
    ∃ o, BitMatBitMat x y out = Except.ok o ∧ o.num_rows_ = out.num_rows_ ∧
      o.num_cols_ = out.num_cols_ := by
  unfold BitMatBitMat
  simp only [BitMatrix.NumCols, BitMatrix.NumRows, BitMatrix.Scale,
    assert_ok _ (And.intro hcols (And.intro hrows hoc)), bind_ok]
  refine forRange_post
    (fun _ (o : MatrixBase) => o.num_rows_ = out.num_rows_ ∧ o.num_cols_ = out.num_cols_)
    ⟨rfl, rfl⟩ ?_ (fun t ht => ht)
  intro i o1 hi hI
  obtain ⟨f, hf⟩ := hx.data_some (by omega)
  refine forRange_post
    (fun _ (o : MatrixBase) => o.num_rows_ = out.num_rows_ ∧ o.num_cols_ = out.num_cols_)
    hI ?_ (fun t ht => ht)
  intro j o3 hj hJ
  obtain ⟨g, hg⟩ := hy.data_some (by omega)
  rw [BitMatrix.Row_ok x f hf i (by omega), bind_ok, BitMatrix.Row_ok y g hg j (by omega),
    bind_ok, VecVec_spec (x.rowView f i) (y.rowView g j) _ _ (rowView_data x f i)
      (rowView_data y g j) hcols, bind_ok,
    MatrixBase.set_ok o3 i j _ (by omega) (by omega)]
  exact ⟨_, rfl, hJ.1, hJ.2⟩

/-- C16. For valid operands, `BitMatBitMat(x, y, out)` fails with an assertion exactly when
`x.NumCols != y.NumCols` or `out.NumRows != x.NumRows` or `out.NumCols != y.NumRows`; when
the three equalities hold the call succeeds, so none of the range assertions of `Row`, of the
element accesses of `VecVec` and of the output access fires. -/
theorem BitMatBitMat_precondition (x y : BitMatrix) (out : MatrixBase) (hx : x.Valid)
    (hy : y.Valid) :
    (BitMatBitMat x y out = Except.error Failure.assertion ↔
      (x.NumCols ≠ y.NumCols ∨ out.num_rows_ ≠ x.NumRows ∨ out.num_cols_ ≠ y.NumRows)) ∧
    (x.NumCols = y.NumCols ∧ out.num_rows_ = x.NumRows ∧ out.num_cols_ = y.NumRows →
      ∃ o, BitMatBitMat x y out = Except.ok o ∧ o.num_rows_ = out.num_rows_ ∧
        o.num_cols_ = out.num_cols_) := by
  simp only [BitMatrix.NumCols, BitMatrix.NumRows]
  have hok : x.num_cols_ = y.num_cols_ ∧ out.num_rows_ = x.num_rows_ ∧
      out.num_cols_ = y.num_rows_ →
      ∃ o, BitMatBitMat x y out = Except.ok o ∧ o.num_rows_ = out.num_rows_ ∧
        o.num_cols_ = out.num_cols_ :=
    fun h => BitMatBitMat_total x y out hx hy h.1 h.2.1.symm h.2.2.symm
  refine ⟨⟨?_, ?_⟩, hok⟩
  · intro hfail
    by_contra hn
    have hpre : x.num_cols_ = y.num_cols_ ∧ out.num_rows_ = x.num_rows_ ∧
        out.num_cols_ = y.num_rows_ := by omega
    obtain ⟨o, ho, _⟩ := hok hpre
    rw [ho] at hfail
    cases hfail
  · intro hn
    unfold BitMatBitMat
    have hna : ¬ (x.NumCols = y.NumCols ∧ x.NumRows = out.num_rows_ ∧
        y.NumRows = out.num_cols_) := by
      simp only [BitMatrix.NumCols, BitMatrix.NumRows]
      omega
    rw [assert_fail _ hna, bind_error]

/-- Witness of C16: the one-word operands `smallMagnitudes` and `smallSigns` with a one-cell
output satisfy the precondition and the call succeeds; with the 1 x 8 output `rowOfEight` the
call fails with an assertion. -/
theorem BitMatBitMat_precondition_witness :
    smallMagnitudes.Valid ∧ smallSigns.Valid ∧
    (∃ o, BitMatBitMat smallMagnitudes smallSigns oneCell = Except.ok o ∧
      o.num_rows_ = 1 ∧ o.num_cols_ = 1) ∧
    BitMatBitMat smallMagnitudes smallSigns rowOfEight = Except.error Failure.assertion :=
  ⟨by decide, by decide,
    (BitMatBitMat_precondition smallMagnitudes smallSigns oneCell (by decide) (by decide)).2
      ⟨rfl, rfl, rfl⟩,
    (BitMatBitMat_precondition smallMagnitudes smallSigns rowOfEight (by decide)
      (by decide)).1.2 (Or.inr (Or.inr (by decide)))⟩

/-! ## Preconditions of Quantize -/

/-- In a working memory environment `Resize` to a different shape succeeds and keeps the
bit widths. -/
theorem BitMatrix.Resize_ne_ok (h : Heap) (hh : h.Ok) (m : BitMatrix) (rows cols : Nat)
    (hne : m.num_rows_ ≠ rows ∨ m.num_cols_ ≠ cols) :
    ∃ m1, m.Resize h rows cols = Except.ok m1 ∧ m1.Valid ∧
      m1.quant_bits_ = m.quant_bits_ ∧ m1.align_bits_ = m.align_bits_ ∧
      m1.scale_ = m.scale_ ∧
      ((m1.num_rows_ = rows ∧ m1.num_cols_ = cols) ∨
        ((rows = 0 ∨ cols = 0) ∧ m1.num_rows_ = 0 ∧ m1.num_cols_ = 0)) := by
  rw [BitMatrix.Resize_ne h m rows cols hne]
  have hmeta : ∀ m0 : BitMatrix, m0 = (if m.data_.isSome then m.ReleaseBitMatrixMemory else m) →
      m0.scale_ = m.scale_ ∧ m0.quant_bits_ = m.quant_bits_ ∧
      m0.align_bits_ = m.align_bits_ := by
    intro m0 h0
    rw [h0]
    split <;> exact ⟨rfl, rfl, rfl⟩
  obtain ⟨e1, e2, e3⟩ := hmeta _ rfl
  by_cases hz : rows = 0 ∨ cols = 0
  · obtain ⟨m1, hm1, hv1, a1, a2, a3, a4, a5⟩ := BitMatrix.Allocate_zero h
      (if m.data_.isSome then m.ReleaseBitMatrixMemory else m) rows cols hz
    exact ⟨m1, hm1, hv1, a4.trans e2, a5.trans e3, a3.trans e1, Or.inr ⟨hz, a1, a2⟩⟩
  · obtain ⟨m1, hm1, hv1, a1, a2, a3, a4, a5⟩ := BitMatrix.Allocate_pos h hh
      (if m.data_.isSome then m.ReleaseBitMatrixMemory else m) rows cols (by omega) (by omega)
    exact ⟨m1, hm1, hv1, a4.trans e2, a5.trans e3, a3.trans e1, Or.inl ⟨a1, a2⟩⟩

/-- `Quantize` with a lane narrower than the quantization width fails with an assertion. -/
theorem BitMatrix.Quantize_narrow (fu : FloatUnit) (h : Heap) (hh : h.Ok) (m : BitMatrix)
    (inp : MatrixBase)
    (ha0 : 0 < m.align_bits_) (ha1 : m.align_bits_ ≤ 64)
    (hlt : m.align_bits_ < m.quant_bits_) :
    m.Quantize fu h inp = Except.error Failure.assertion := by
  unfold BitMatrix.Quantize
  rw [assert_ok _ ha0, bind_ok, BitMatrix.wordsPerRow_ok m.align_bits_ ha0 ha1, bind_ok]
  have hres : ∃ m1, (if m.num_rows_ ≠ inp.num_rows_ ∨
      m.num_cols_ ≠ inp.num_cols_ / lanes m.align_bits_ then
      m.Resize h inp.num_rows_ (inp.num_cols_ / lanes m.align_bits_ : Nat) else pure m) =
        Except.ok m1 ∧ m1.quant_bits_ = m.quant_bits_ ∧ m1.align_bits_ = m.align_bits_ := by
    by_cases hne : m.num_rows_ ≠ inp.num_rows_ ∨ m.num_cols_ ≠ inp.num_cols_ / lanes m.align_bits_
    · obtain ⟨m1, hm1, _, b1, b2, _⟩ := BitMatrix.Resize_ne_ok h hh m _ _ hne
      exact ⟨m1, by rw [if_pos hne]; exact hm1, b1, b2⟩
    · exact ⟨m, by rw [if_neg hne]; rfl, rfl, rfl⟩
  obtain ⟨m1, hm1, b1, b2⟩ := hres
  rw [hm1, bind_ok]
  by_cases hs : m1.num_rows_ = inp.num_rows_ ∧ m1.num_cols_ = inp.num_cols_ / lanes m.align_bits_
  · rw [assert_ok _ hs, bind_ok,
      assert_fail (m1.align_bits_ ≥ m1.quant_bits_) (by rw [b1, b2]; omega), bind_error]
  · rw [assert_fail _ hs, bind_error]

/-- The quantizing constructor with a lane narrower than the quantization width fails with
an assertion. -/
theorem BitMatrix.BitMatrix_quant_align_narrow (fu : FloatUnit) (h : Heap) (hh : h.Ok)
    (inp : MatrixBase)
    (qb ab : Int) (ha0 : 0 < ab) (ha1 : ab ≤ 64) (hlt : ab < qb) :
    BitMatrix.BitMatrix_quant_align fu h inp qb ab = Except.error Failure.assertion := by
  have hres : ∃ m1, (BitMatrix.ctorState qb ab).Resize h
      inp.num_rows_ (inp.num_cols_ / lanes ab : Nat) = Except.ok m1 ∧
      m1.quant_bits_ = qb ∧ m1.align_bits_ = ab := by
    by_cases hz : inp.num_rows_ = 0 ∧ inp.num_cols_ / lanes ab = 0
    · refine ⟨BitMatrix.ctorState qb ab, ?_, rfl, rfl⟩
      unfold BitMatrix.Resize
      have : (((BitMatrix.ctorState qb ab).num_rows_ : Nat) : Int) = (inp.num_rows_ : Int) ∧
          (((BitMatrix.ctorState qb ab).num_cols_ : Nat) : Int) =
            ((inp.num_cols_ / lanes ab : Nat) : Int) := by
        rw [hz.1, hz.2]; exact ⟨rfl, rfl⟩
      simp only [this, and_self, if_true]
      exact BitMatrix.Set_empty _ 0 rfl
    · have hne : (BitMatrix.ctorState qb ab).num_rows_ ≠ inp.num_rows_ ∨
          (BitMatrix.ctorState qb ab).num_cols_ ≠ inp.num_cols_ / lanes ab := by
        show (0 : Nat) ≠ inp.num_rows_ ∨ (0 : Nat) ≠ inp.num_cols_ / lanes ab
        omega
      obtain ⟨m1, hm1, _, b1, b2, _⟩ := BitMatrix.Resize_ne_ok h hh _ _ _ hne
      exact ⟨m1, hm1, b1, b2⟩
  obtain ⟨m1, hm1, c4, c5⟩ := hres
  unfold BitMatrix.BitMatrix_quant_align
  rw [BitMatrix.wordsPerRow_ok ab ha0 ha1, bind_ok, hm1, bind_ok]
  exact BitMatrix.Quantize_narrow fu h hh m1 inp (by rw [c5]; exact ha0) (by rw [c5]; exact ha1)
    (by rw [c4, c5]; exact hlt)

/-- `Quantize` with a lane width that is not positive fails its first assertion. -/
theorem BitMatrix.Quantize_nonpos (fu : FloatUnit) (h : Heap) (m : BitMatrix) (inp : MatrixBase)
    (ha : m.align_bits_ ≤ 0) : m.Quantize fu h inp = Except.error Failure.assertion := by
  unfold BitMatrix.Quantize
  rw [assert_fail (m.align_bits_ > 0) (by omega), bind_error]

/-! ## C13: the precondition of Quantize -/

/-- C13 (amended). In a working memory environment and for a lane width
`0 < align_bits <= 64`: when `align_bits < quant_bits`, `Quantize` and the constructor
`BitMatrix(in, quant_bits, align_bits)` fail with an assertion, for every source matrix; when
`align_bits >= quant_bits` and the source is empty or has at least one full group of columns
in each of its rows, `Quantize` and both quantizing constructors succeed, so the check does
not fail. The arithmetic `fu` of the quantizer is arbitrary. -/
theorem Quantize_precondition (fu : FloatUnit) (h : Heap) (hh : h.Ok) (m : BitMatrix)
    (inp : MatrixBase)
    (hv : m.Valid) (ha0 : 0 < m.AlignBits) (ha1 : m.AlignBits ≤ 64) :
    (m.AlignBits < m.QuantBits →
      m.Quantize fu h inp = Except.error Failure.assertion ∧
      BitMatrix.BitMatrix_quant_align fu h inp m.QuantBits m.AlignBits =
        Except.error Failure.assertion) ∧
    (m.QuantBits ≤ m.AlignBits →
      ((inp.num_rows_ = 0 ∧ inp.num_cols_ / lanes m.AlignBits = 0) ∨
        (0 < inp.num_rows_ ∧ 0 < inp.num_cols_ / lanes m.AlignBits)) →
      (∃ m2, m.Quantize fu h inp = Except.ok m2) ∧
      (∃ m2, BitMatrix.BitMatrix_quant_align fu h inp m.QuantBits m.AlignBits = Except.ok m2) ∧
      ∃ m2, BitMatrix.BitMatrix_in_bits fu h inp m.AlignBits = Except.ok m2) := by
  simp only [BitMatrix.AlignBits, BitMatrix.QuantBits] at ha0 ha1 ⊢
  constructor
  · intro hlt
    exact ⟨BitMatrix.Quantize_narrow fu h hh m inp ha0 ha1 hlt,
      BitMatrix.BitMatrix_quant_align_narrow fu h hh inp _ _ ha0 ha1 hlt⟩
  · intro hq hshape
    obtain ⟨m2, hm2, _⟩ := BitMatrix.Quantize_spec fu h hh m inp hv ha0 ha1 hq hshape
    obtain ⟨m3, hm3, _⟩ := BitMatrix.BitMatrix_quant_align_spec fu h hh inp m.quant_bits_
      m.align_bits_ ha0 ha1 hq hshape
    obtain ⟨m4, hm4, _⟩ := BitMatrix.BitMatrix_quant_align_spec fu h hh inp m.align_bits_
      m.align_bits_ ha0 ha1 (le_refl _) hshape
    exact ⟨⟨m2, hm2⟩, ⟨m3, hm3⟩, ⟨m4, hm4⟩⟩

/-- C13 (counterexample). With `align_bits = 0 < quant_bits = 8` the constructor divides by
zero before any assertion is reached, and with `align_bits = 65 < quant_bits = 66` the
quotient `64 / align_bits` is zero and `Quantize` divides by it: neither fails with an
assertion. -/
theorem Quantize_precondition_counterexample :
    (0 : Int) < 8 ∧
    BitMatrix.BitMatrix_quant_align FloatUnit.ieee heap16 oneCell 8 0 =
      Except.error Failure.undefined ∧
    (BitMatrix.ctorState 66 65).AlignBits < (BitMatrix.ctorState 66 65).QuantBits ∧
    (BitMatrix.ctorState 66 65).Quantize FloatUnit.ieee heap16 oneCell =
      Except.error Failure.undefined :=
  ⟨by decide, rfl, by decide, rfl⟩

/-- Witness of C13 (amended): 8-bit lanes with 16 quantization bits fail with an assertion,
8-bit lanes with 8 quantization bits on a 1 x 8 source succeed. -/
theorem Quantize_precondition_witness :
    heap16.Ok ∧ (BitMatrix.ctorState 16 8).Valid ∧
    ((BitMatrix.ctorState 16 8).Quantize FloatUnit.ieee heap16 rowOfEight =
      Except.error Failure.assertion ∧
      BitMatrix.BitMatrix_quant_align FloatUnit.ieee heap16 rowOfEight 16 8 =
        Except.error Failure.assertion) ∧
    ∃ m2, (BitMatrix.ctorState 8 8).Quantize FloatUnit.ieee heap16 rowOfEight = Except.ok m2 :=
  ⟨heap16_ok, by decide,
    (Quantize_precondition FloatUnit.ieee heap16 heap16_ok (BitMatrix.ctorState 16 8) rowOfEight
      (by decide)
      (by decide) (by decide)).1 (by decide),
    ((Quantize_precondition FloatUnit.ieee heap16 heap16_ok (BitMatrix.ctorState 8 8) rowOfEight
      (by decide)
      (by decide) (by decide)).2 (by decide) (Or.inr (by decide))).1⟩

/-! ## C14: source columns beyond the last full group -/

theorem quantWord_congr (fu : FloatUnit) (m : BitMatrix) (inp inp2 : MatrixBase) (r c n : Nat)
    (hc : c < n)
    (hsame : ∀ k, k < n * lanes m.align_bits_ → inp2.elem r k = inp.elem r k) :
    quantWord fu m inp2 r c = quantWord fu m inp r c := by
  unfold quantWord
  congr 1
  apply laneSum_congr
  intro i hi
  have hlt : c * lanes m.align_bits_ + i < n * lanes m.align_bits_ := by
    have : (c + 1) * lanes m.align_bits_ ≤ n * lanes m.align_bits_ :=
      Nat.mul_le_mul_right _ hc
    rw [Nat.add_mul, Nat.one_mul] at this
    omega
  rw [hsame _ hlt]

/-- C14 (amended). With `L = 64 / align_bits`, a successful `Quantize` yields
`NumCols = floor(source columns / L)`, so `NumCols * L` is at most the source column count
and equals it exactly when `L` divides it; the source columns from `NumCols * L` on are not
read: a second source that agrees with the first on the columns below `NumCols * L` is
quantized to the same words. The arithmetic `fu` of the quantizer is arbitrary. -/
theorem Quantize_columns (fu : FloatUnit) (h : Heap) (hh : h.Ok) (m : BitMatrix) (inp : MatrixBase)
    (hv : m.Valid) (ha0 : 0 < m.align_bits_) (ha1 : m.align_bits_ ≤ 64)
    (hq : m.quant_bits_ ≤ m.align_bits_)
    (hshape : (inp.num_rows_ = 0 ∧ inp.num_cols_ / lanes m.align_bits_ = 0) ∨
      (0 < inp.num_rows_ ∧ 0 < inp.num_cols_ / lanes m.align_bits_)) :
    ∃ m2, m.Quantize fu h inp = Except.ok m2 ∧
      m2.NumCols = inp.num_cols_ / lanes m.align_bits_ ∧
      m2.NumCols * lanes m.align_bits_ ≤ inp.num_cols_ ∧
      (m2.NumCols * lanes m.align_bits_ = inp.num_cols_ ↔
        inp.num_cols_ % lanes m.align_bits_ = 0) ∧
      ∀ inp2 : MatrixBase, inp2.num_rows_ = inp.num_rows_ → inp2.num_cols_ = inp.num_cols_ →
        (∀ r k, k < m2.NumCols * lanes m.align_bits_ → inp2.elem r k = inp.elem r k) →
        ∃ m3, m.Quantize fu h inp2 = Except.ok m3 ∧ m3.NumRows = m2.NumRows ∧
          m3.NumCols = m2.NumCols ∧
          ∀ r c, r < m2.NumRows → c < m2.NumCols → m3.word r c = m2.word r c := by
  obtain ⟨m2, hm2, _, d1, d2, _, _, _, hw⟩ := BitMatrix.Quantize_spec fu h hh m inp hv ha0 ha1 hq
    hshape
  simp only [BitMatrix.NumCols, BitMatrix.NumRows]
  refine ⟨m2, hm2, d2, ?_, ?_, ?_⟩
  · rw [d2]; exact Nat.div_mul_le_self _ _
  · rw [d2]
    have := Nat.div_add_mod inp.num_cols_ (lanes m.align_bits_)
    have hcomm := Nat.mul_comm (lanes m.align_bits_) (inp.num_cols_ / lanes m.align_bits_)
    constructor <;> intro hx <;> omega
  · intro inp2 hr2 hc2 hsame
    obtain ⟨m3, hm3, _, e1, e2, _, _, _, hw3⟩ := BitMatrix.Quantize_spec fu h hh m inp2 hv ha0 ha1
      hq (by rw [hr2, hc2]; exact hshape)
    refine ⟨m3, hm3, by rw [e1, d1, hr2], by rw [e2, d2, hc2], ?_⟩
    intro r c hr hc
    rw [hw3 r c (by omega) (by rw [e2, hc2, ← d2]; exact hc), hw r c hr hc]
    exact quantWord_congr fu m inp inp2 r c m2.num_cols_ hc (fun k hk => hsame r k hk)

/-- C14 (counterexample). A 1 x 9 source quantized with 8-bit lanes (`L = 8`): the
constructor succeeds with `NumCols = 1`, and `1 * 8` is not the source column count 9. -/
theorem Quantize_columns_counterexample :
    ∃ m2, BitMatrix.BitMatrix_quant_align FloatUnit.ieee heap16 rowOfNine 8 8 = Except.ok m2 ∧
      m2.NumCols = 1 ∧ lanes 8 = 8 ∧ rowOfNine.num_cols_ = 9 ∧
      m2.NumCols * lanes 8 ≠ rowOfNine.num_cols_ := by
  obtain ⟨m2, hm2, _, _, d2, _⟩ :=
    BitMatrix.BitMatrix_quant_align_spec FloatUnit.ieee heap16 heap16_ok
    rowOfNine 8 8 (by decide) (by decide) (by decide) (Or.inr (by decide))
  have hc : m2.NumCols = 1 := by
    show m2.num_cols_ = 1
    rw [d2]; decide
  refine ⟨m2, hm2, hc, by decide, rfl, ?_⟩
  rw [hc]; decide

/-- Witness of C14 (amended): the 1 x 8 source `sourceRamp` with 8-bit lanes gives one word
per row, and `1 * 8` is the source column count. -/
theorem Quantize_columns_witness :
    ∃ m2, (BitMatrix.ctorState 8 8).Quantize FloatUnit.ieee heap16 sourceRamp = Except.ok m2 ∧
      m2.NumCols = 1 ∧ m2.NumCols * lanes 8 = sourceRamp.num_cols_ := by
  obtain ⟨m2, hm2, hc, _, _, _⟩ := Quantize_columns FloatUnit.ieee heap16 heap16_ok
    (BitMatrix.ctorState 8 8)
    sourceRamp (by decide) (by decide) (by decide) (by decide) (Or.inr (by decide))
  have hc1 : m2.NumCols = 1 := by rw [hc]; decide
  refine ⟨m2, hm2, hc1, ?_⟩
  rw [hc1]; decide

/-! ## C15: lane widths that do not divide the word width -/

/-- C15 (amended). The quantizing constructor and `Quantize` check `align_bits > 0` and
`align_bits >= quant_bits`, not `64 % align_bits == 0`: in a working memory environment, for
every `0 < align_bits <= 64` with `align_bits >= quant_bits`, whether or not `align_bits`
divides 64, and every source that is empty or has a full group of `64 / align_bits` columns,
the constructor succeeds and the matrix produced keeps the `align_bits` given, with
`floor(columns / (64 / align_bits))` words per row; and `Quantize` on any target with
`align_bits <= 0`, whatever its other members and whatever the source, fails its first
assertion. The arithmetic `fu` of the quantizer is arbitrary. -/
theorem alignment_accepted (fu : FloatUnit) (h : Heap) (hh : h.Ok) :
    (∀ (inp : MatrixBase) (qb ab : Int), 0 < ab → ab ≤ 64 → qb ≤ ab →
      ((inp.num_rows_ = 0 ∧ inp.num_cols_ / lanes ab = 0) ∨
        (0 < inp.num_rows_ ∧ 0 < inp.num_cols_ / lanes ab)) →
      ∃ m2, BitMatrix.BitMatrix_quant_align fu h inp qb ab = Except.ok m2 ∧
        m2.AlignBits = ab ∧ m2.QuantBits = qb ∧ m2.NumRows = inp.num_rows_ ∧
        m2.NumCols = inp.num_cols_ / (64 / ab.toNat)) ∧
    (∀ (t : BitMatrix) (inp : MatrixBase), t.AlignBits ≤ 0 →
      t.Quantize fu h inp = Except.error Failure.assertion) := by
  constructor
  · intro inp qb ab ha0 ha1 hq hshape
    obtain ⟨m2, hm2, _, d1, d2, _, d4, d5, _⟩ := BitMatrix.BitMatrix_quant_align_spec fu h hh inp
      qb ab ha0 ha1 hq hshape
    exact ⟨m2, hm2, d5, d4, d1, d2⟩
  · intro t inp ha
    exact BitMatrix.Quantize_nonpos fu h t inp ha

/-- C15 (counterexample). With `align_bits = 24`, which does not divide 64, the quantizing
constructor succeeds on a 1 x 2 source and the matrix it produces has `align_bits = 24`; and
`Read` of a text input whose header has `align_bits = 24` into a default-constructed matrix
succeeds and yields a matrix with `align_bits = 24`. -/
theorem alignment_accepted_counterexample :
    (64 : Int) % 24 ≠ 0 ∧
    (∃ m2, BitMatrix.BitMatrix_quant_align FloatUnit.ieee heap16 (allZeros 1 2) 8 24 =
      Except.ok m2 ∧
      m2.AlignBits = 24) ∧
    ∃ m rest, BitMatrix.Read heap16 false BitMatrix.BitMatrix_default align24Text =
      Except.ok (m, rest) ∧ m.AlignBits = 24 := by
  refine ⟨by decide, ?_, _, _, rfl, rfl⟩
  obtain ⟨m2, hm2, _, _, _, _, _, d5, _⟩ :=
    BitMatrix.BitMatrix_quant_align_spec FloatUnit.ieee heap16
    heap16_ok (allZeros 1 2) 8 24 (by decide) (by decide) (by decide) (Or.inr (by decide))
  exact ⟨m2, hm2, d5⟩

/-- Witness of C15 (amended): 32-bit lanes on a 1 x 8 source give four words per row, and
`Quantize` on a target with 8 quantization bits and `align_bits = 0` fails its assertion on
that source. -/
theorem alignment_accepted_witness :
    (∃ m2, BitMatrix.BitMatrix_quant_align FloatUnit.ieee heap16 rowOfEight 8 32 = Except.ok m2 ∧
      m2.AlignBits = 32 ∧ m2.NumCols = 4) ∧
    (BitMatrix.ctorState 8 0).Quantize FloatUnit.ieee heap16 rowOfEight =
      Except.error Failure.assertion := by
  have hw := alignment_accepted FloatUnit.ieee heap16 heap16_ok
  obtain ⟨m2, hm2, h1, _, _, h4⟩ := hw.1 rowOfEight 8 32 (by decide) (by decide) (by decide)
    (Or.inr (by decide))
  exact ⟨⟨m2, hm2, h1, h4.trans (by decide)⟩,
    hw.2 (BitMatrix.ctorState 8 0) rowOfEight (by decide)⟩

/-! ## The state of the target when Read fails -/

theorem bind_eq_error {ε α β : Type} {x : Except ε α} {f : α → Except ε β} {e : ε}
    (h : (x >>= f) = Except.error e) :
    x = Except.error e ∨ ∃ a, x = Except.ok a ∧ f a = Except.error e := by
  cases x with
  | error e1 =>
    left
    rw [bind_error] at h
    simp only [Except.error.injEq] at h
    rw [h]
  | ok a => right; exact ⟨a, rfl, h⟩

theorem bind_eq_ok {ε α β : Type} {x : Except ε α} {f : α → Except ε β} {b : β}
    (h : (x >>= f) = Except.ok b) : ∃ a, x = Except.ok a ∧ f a = Except.ok b := by
  cases x with
  | error e1 => cases h
  | ok a => exact ⟨a, rfl, h⟩

theorem failAt_error {α : Type} {m st : BitMatrix} {x : Except Failure α} {e : Failure}
    (h : failAt m x = Except.error (e, st)) : st = m ∧ x = Except.error e := by
  cases x with
  | error e1 =>
    simp only [failAt, Except.error.injEq, Prod.mk.injEq] at h
    exact ⟨h.2.symm, by rw [h.1]⟩
  | ok a => cases h

theorem forRange_error {ε σ : Type} (P : ε → Prop) (n : Nat) (body : Nat → σ → Except ε σ)
    (s : σ) (e : ε) (hbody : ∀ i t e1, body i t = Except.error e1 → P e1)
    (h : forRange n body s = Except.error e) : P e := by
  induction n generalizing e with
  | zero => cases h
  | succ k ih =>
    simp only [forRange] at h
    cases hk : forRange k body s with
    | error e1 =>
      rw [hk] at h
      simp only [Except.error.injEq] at h
      rw [← h]
      exact ih e1 hk
    | ok t =>
      rw [hk] at h
      exact hbody k t e h

theorem assert_error {c : Prop} [Decidable c] {e : Failure}
    (h : SNOWBOY_ASSERT c = Except.error e) : e = Failure.assertion := by
  unfold SNOWBOY_ASSERT at h
  split at h
  · cases h
  · simp only [Except.error.injEq] at h
    exact h.symm

theorem BitMatrix.set_error (m : BitMatrix) (r c : Int) (w : Nat) (e : Failure)
    (h : m.set r c w = Except.error e) : e ≠ Failure.error := by
  unfold BitMatrix.set at h
  rcases bind_eq_error h with h1 | ⟨_, _, h2⟩
  · rw [assert_error h1]; decide
  · rcases bind_eq_error h2 with h3 | ⟨_, _, h4⟩
    · unfold writeWord at h3
      split at h3
      · cases h3
      · simp only [Except.error.injEq] at h3
        rw [← h3]; decide
    · cases h4

theorem BitMatrix.Resize_error (hp : Heap) (m : BitMatrix) (rows cols : Int) (e : Failure)
    (h : m.Resize hp rows cols = Except.error e) : e ≠ Failure.error := by
  unfold BitMatrix.Resize at h
  split at h
  · unfold BitMatrix.Set at h
    refine forRange_error (fun e => e ≠ Failure.error) _ _ _ e ?_ h
    intro i t e1 h1
    refine forRange_error (fun e => e ≠ Failure.error) _ _ _ e1 ?_ h1
    intro j t2 e2 h2
    exact BitMatrix.set_error t2 _ _ _ e2 h2
  · simp only at h
    unfold BitMatrix.AllocateBitMatrixMemory at h
    rcases bind_eq_error h with h1 | ⟨_, _, h2⟩
    · rw [assert_error h1]; decide
    · split at h2
      · cases h2
      · rcases bind_eq_error h2 with h3 | ⟨_, _, h4⟩
        · rw [assert_error h3]; decide
        · simp only at h4
          split at h4
          · simp only [Except.error.injEq] at h4
            rw [← h4]; decide
          · split at h4
            · cases h4
            · simp only [Except.error.injEq] at h4
              rw [← h4]; decide

theorem SameBuffer.same (m : BitMatrix) : SameBuffer m m := ⟨rfl, rfl, rfl, rfl⟩

/-- Reading the header changes the metadata only: whether it fails or not, the shape and the
buffer of the state it leaves are those of the target. -/
theorem readHeader_frame (m : BitMatrix) (is : List Item) :
    (∀ e st, readHeader m is = Except.error (e, st) → SameBuffer m st) ∧
    (∀ m3 rest, readHeader m is = Except.ok (m3, rest) → SameBuffer m m3) := by
  constructor
  · intro e st h
    unfold readHeader at h
    rcases bind_eq_error h with h1 | ⟨_, _, h⟩
    · rw [(failAt_error h1).1]; exact SameBuffer.same m
    rcases bind_eq_error h with h1 | ⟨_, _, h⟩
    · rw [(failAt_error h1).1]; exact SameBuffer.same m
    rcases bind_eq_error h with h1 | ⟨_, _, h⟩
    · rw [(failAt_error h1).1]; exact ⟨rfl, rfl, rfl, rfl⟩
    rcases bind_eq_error h with h1 | ⟨_, _, h⟩
    · rw [(failAt_error h1).1]; exact ⟨rfl, rfl, rfl, rfl⟩
    rcases bind_eq_error h with h1 | ⟨_, _, h⟩
    · rw [(failAt_error h1).1]; exact ⟨rfl, rfl, rfl, rfl⟩
    rcases bind_eq_error h with h1 | ⟨_, _, h⟩
    · rw [(failAt_error h1).1]; exact ⟨rfl, rfl, rfl, rfl⟩
    rcases bind_eq_error h with h1 | ⟨_, _, h⟩
    · rw [(failAt_error h1).1]; exact ⟨rfl, rfl, rfl, rfl⟩
    cases h
  · intro m3 rest h
    unfold readHeader at h
    obtain ⟨_, _, h⟩ := bind_eq_ok h
    obtain ⟨_, _, h⟩ := bind_eq_ok h
    obtain ⟨_, _, h⟩ := bind_eq_ok h
    obtain ⟨_, _, h⟩ := bind_eq_ok h
    obtain ⟨_, _, h⟩ := bind_eq_ok h
    obtain ⟨_, _, h⟩ := bind_eq_ok h
    obtain ⟨_, _, h⟩ := bind_eq_ok h
    simp only [pure_eq_ok, Except.ok.injEq, Prod.mk.injEq] at h
    rw [← h.1]
    exact ⟨rfl, rfl, rfl, rfl⟩

/-- A parse error in the text branch comes before the `Resize`: the state is the one the
branch started with. -/
theorem readTextBody_error (hp : Heap) (m : BitMatrix) (is : List Item) (st : BitMatrix)
    (h : readTextBody hp m is = Except.error (Failure.error, st)) : st = m := by
  unfold readTextBody at h
  rcases bind_eq_error h with h1 | ⟨_, _, h⟩
  · exact (failAt_error h1).1
  rcases bind_eq_error h with h1 | ⟨_, _, h⟩
  · exact (failAt_error h1).1
  rcases bind_eq_error h with h1 | ⟨r, _, h⟩
  · exact (failAt_error h1).1
  rcases bind_eq_error h with h1 | ⟨_, _, h⟩
  · exact (failAt_error h1).1
  rcases bind_eq_error h with h1 | ⟨m1, _, h⟩
  · exfalso
    unfold resizeAt at h1
    split at h1
    · cases h1
    · rename_i e he
      simp only [Except.error.injEq, Prod.mk.injEq] at h1
      exact BitMatrix.Resize_error hp m _ _ e he h1.1
  rcases bind_eq_error h with h1 | ⟨_, _, h⟩
  · exfalso
    have hP := forRange_error (fun (e : Failure × BitMatrix) => e.1 ≠ Failure.error) _ _ _ _
      ?_ h1
    · exact hP rfl
    intro i t e1 h2
    refine forRange_error (fun (e : Failure × BitMatrix) => e.1 ≠ Failure.error) _ _ _ _ ?_ h2
    intro j t2 e2 h3
    split at h3
    · cases h3
    · rename_i e he
      simp only [Except.error.injEq] at h3
      rw [← h3]
      exact BitMatrix.set_error t2 _ _ _ e he
  · cases h

/-- C18 (amended). When `Read` in text mode fails with a parse error (`SNOWBOY_ERROR`:
unexpected token, inconsistent column counts, end of input, non-numeric data), the target
keeps its shape, its stride and its buffer with all words; its `quant_bits`, `align_bits`
and `scale` may have been replaced by header values read before the error. When `Read`, in
either mode, fails its first assertion, the target is exactly as it was. -/
theorem Read_parse_error (hp : Heap) (m : BitMatrix) (is : List Item) :
    (∀ st, BitMatrix.Read hp false m is = Except.error (Failure.error, st) →
      st.NumRows = m.NumRows ∧ st.NumCols = m.NumCols ∧ st.Stride = m.Stride ∧
        st.data_ = m.data_) ∧
    (∀ binary, ¬ (m.align_bits_ > 0 ∧ (64 : Int) % m.align_bits_ = 0) →
      BitMatrix.Read hp binary m is = Except.error (Failure.assertion, m)) := by
  constructor
  · intro st h
    show SameBuffer m st
    unfold BitMatrix.Read at h
    rcases bind_eq_error h with h1 | ⟨_, _, h⟩
    · rw [(failAt_error h1).1]; exact SameBuffer.same m
    simp only [Bool.false_eq_true, if_false] at h
    rcases bind_eq_error h with h1 | ⟨hd, hhd, h⟩
    · exact (readHeader_frame m is).1 _ _ h1
    · rw [readTextBody_error hp hd.1 hd.2 st h]
      exact (readHeader_frame m is).2 hd.1 hd.2 hhd
  · intro binary hn
    unfold BitMatrix.Read
    rw [assert_fail _ hn]
    rfl

/-- C18 (counterexample). A text input whose header has `align_bits = 4` below
`quant_bits = 8` makes `Read` fail, and the default-constructed target is left with
`quant_bits = 8`, `align_bits = 4` and `scale = 1` instead of 0, 64 and 0; a binary input
that announces a 1 x 1 matrix and ends before its word makes `Read` fail after the target
has been resized to 1 x 1. -/
theorem Read_parse_error_counterexample :
    (∃ st, BitMatrix.Read heap16 false BitMatrix.BitMatrix_default narrowHeaderText =
        Except.error (Failure.assertion, st) ∧
      st.QuantBits = 8 ∧ st.AlignBits = 4 ∧ st.Scale = 1 ∧
      BitMatrix.BitMatrix_default.QuantBits = 0 ∧ BitMatrix.BitMatrix_default.AlignBits = 64 ∧
      BitMatrix.BitMatrix_default.Scale = 0) ∧
    ∃ st, BitMatrix.Read heap16 true BitMatrix.BitMatrix_default truncatedBinary =
        Except.error (Failure.error, st) ∧
      st.NumRows = 1 ∧ st.NumCols = 1 ∧ BitMatrix.BitMatrix_default.NumRows = 0 :=
  ⟨⟨_, rfl, rfl, rfl, rfl, rfl, rfl, rfl⟩, _, rfl, rfl, rfl, rfl⟩

/-- Witness of C18 (amended): the one-word matrix `rampBits` as target of a text input
that stops inside the first row: `Read` fails with a parse error, and the state left has the shape,
the stride and the buffer of `rampBits`, with the `align_bits = 64` of the header. -/
theorem Read_parse_error_witness :
    ∃ st, BitMatrix.Read heap16 false rampBits (headerItems 8 64 1 ++ chars " [\n 1 2") =
        Except.error (Failure.error, st) ∧
      (st.NumRows = rampBits.NumRows ∧ st.NumCols = rampBits.NumCols ∧
        st.Stride = rampBits.Stride ∧ st.data_ = rampBits.data_) ∧
      st.AlignBits = 64 ∧ rampBits.AlignBits = 8 :=
  ⟨_, rfl, (Read_parse_error heap16 rampBits (headerItems 8 64 1 ++ chars " [\n 1 2")).1 _ rfl,
    rfl, rfl⟩

/-! ## Binary serialization -/

theorem wordsFrom_zero (wl : Nat → Nat) (a : Nat) : wordsFrom wl a 0 = [] := rfl

theorem wordsFrom_succ (wl : Nat → Nat) (a n : Nat) :
    wordsFrom wl a (n + 1) = Item.word (wl a) :: wordsFrom wl (a + 1) n := by
  simp [wordsFrom, List.range'_succ]

theorem wordsFrom_append (wl : Nat → Nat) (a n k : Nat) :
    wordsFrom wl a n ++ wordsFrom wl (a + n) k = wordsFrom wl a (n + k) := by
  unfold wordsFrom
  rw [← List.map_append, List.range'_append_1, Nat.add_comm k n]

theorem takeWords_zero (is : List Item) : takeWords 0 is = ([], is) := by
  cases is <;> rfl

theorem takeWords_wordsFrom (wl : Nat → Nat) (k : Nat) :
    ∀ a n, k ≤ n → takeWords k (wordsFrom wl a n) =
      ((List.range' a k).map wl, wordsFrom wl (a + k) (n - k)) := by
  induction k with
  | zero =>
    intro a n _
    rw [takeWords_zero]
    rfl
  | succ k ih =>
    intro a n hk
    obtain ⟨n1, rfl⟩ : ∃ n1, n = n1 + 1 := ⟨n - 1, by omega⟩
    rw [wordsFrom_succ]
    simp only [takeWords]
    rw [ih (a + 1) n1 (by omega)]
    simp only [List.range'_succ, List.map_cons]
    have e1 : a + 1 + k = a + (k + 1) := by omega
    have e2 : n1 + 1 - (k + 1) = n1 - k := by omega
    rw [e1, e2]

theorem getD_map_range (wl : Nat → Nat) (a k j : Nat) (hj : j < k) :
    ((List.range' a k).map wl).getD j 0 = wl (a + j) := by
  simp [List.getD_eq_getElem?_getD, List.getElem?_map, List.getElem?_range', hj]

theorem readBlock_wordsFrom (m : BitMatrix) (f : Nat → Nat) (hf : m.data_ = some f)
    (wl : Nat → Nat) (off k a n : Nat) (hk : k ≤ n) :
    readBlock m off k (wordsFrom wl a n) =
      Except.ok ({ m with data_ := some (fun j =>
        if off ≤ j ∧ j < off + k then wl (a + (j - off)) else f j) },
        wordsFrom wl (a + k) (n - k)) := by
  unfold readBlock storeWords
  rw [takeWords_wordsFrom wl k a n hk, hf]
  simp only [List.length_map, List.length_range', if_true]
  congr 4
  funext j
  by_cases hj : off ≤ j ∧ j < off + k
  · rw [if_pos hj, if_pos hj, getD_map_range wl a k (j - off) (by omega)]
  · rw [if_neg hj, if_neg hj]

theorem rowMajor_at (m : BitMatrix) (r c : Nat) (hc : c < m.num_cols_) :
    rowMajor m (r * m.num_cols_ + c) = m.word r c := by
  unfold rowMajor
  have h1 : (r * m.num_cols_ + c) / m.num_cols_ = r := by
    rw [Nat.mul_comm, Nat.mul_add_div (by omega), Nat.div_eq_of_lt hc, Nat.add_zero]
  have h2 : (r * m.num_cols_ + c) % m.num_cols_ = c := by
    rw [Nat.mul_comm, Nat.mul_add_mod, Nat.mod_eq_of_lt hc]
  rw [h1, h2]

theorem writeHeader_binary (m : BitMatrix) (os : List Item) :
    writeHeader m (WriteBasicType_int32 m.num_cols_
      (WriteBasicType_int32 m.num_rows_ (WriteToken "BM" os))) =
    os ++ binaryHeader m.num_rows_ m.num_cols_ m.quant_bits_ m.align_bits_ m.scale_ := by
  simp [writeHeader, WriteToken, WriteBasicType_int32, WriteBasicType_float, binaryHeader,
    headerItems]

/-- The binary form of a valid matrix appended to a stream: the header, then its words in
row-major order. -/
theorem Write_binary_onto (m : BitMatrix) (hv : m.Valid) (os : List Item) :
    m.Write true os = Except.ok (os ++ binaryHeader m.num_rows_ m.num_cols_ m.quant_bits_
      m.align_bits_ m.scale_ ++ wordsFrom (rowMajor m) 0 (m.num_rows_ * m.num_cols_)) := by
  unfold BitMatrix.Write
  simp only [if_true, writeHeader_binary, BitMatrix.Stride, BitMatrix.NumCols]
  rcases hv with ⟨hs, hr, hc, hst⟩ | ⟨hs, hr, hc, hst⟩
  · rw [if_pos (by rw [hst, hc]), hr, hc]
    rfl
  · obtain ⟨f, hf⟩ := Option.isSome_iff_exists.mp hs
    by_cases hsc : m.stride_ = m.num_cols_
    · rw [if_pos hsc]
      have hn : m.num_rows_ * m.num_cols_ ≠ 0 := Nat.mul_ne_zero (by omega) (by omega)
      unfold writeWords
      rw [if_neg hn, hf]
      simp only [bind_ok, pure_eq_ok]
      congr 2
      unfold wordsFrom
      rw [List.range_eq_range']
      apply List.map_congr_left
      intro k _
      have hk : rowMajor m k = f k := by
        unfold rowMajor BitMatrix.word
        rw [hf, hsc]
        simp only
        rw [Nat.mul_comm, Nat.div_add_mod]
      rw [hk, Nat.zero_add]
    · rw [if_neg hsc]
      refine forRange_eq_of_inv (fun i (os1 : List Item) =>
        os1 = os ++ binaryHeader m.num_rows_ m.num_cols_ m.quant_bits_ m.align_bits_ m.scale_ ++
          wordsFrom (rowMajor m) 0 (i * m.num_cols_)) _ ?_ ?_ (fun t ht => ht)
      · simp [wordsFrom]
      · intro i os1 hi hos
        beta_reduce at hos
        have h1 : ((i : Int) < (m.num_rows_ : Int) ∧ (i : Int) ≥ 0) := by omega
        have hn : m.num_cols_ ≠ 0 := by omega
        refine ⟨_, ?_, rfl⟩
        simp only [BitMatrix.RowData, assert_ok _ h1, bind_ok, pure_eq_ok, hf, Option.map_some',
          writeWords, if_neg hn, Int.toNat_ofNat]
        congr 1
        rw [hos, List.append_assoc _ (wordsFrom (rowMajor m) 0 (i * m.num_cols_))]
        congr 1
        rw [Nat.add_mul, Nat.one_mul, ← wordsFrom_append, Nat.zero_add]
        congr 1
        unfold wordsFrom
        rw [List.range_eq_range', List.range'_eq_map_range, List.range'_eq_map_range,
          List.map_map, List.map_map]
        apply List.map_congr_left
        intro k hk
        have hk1 : k < m.num_cols_ := List.mem_range.mp hk
        simp only [Function.comp, Nat.zero_add]
        rw [rowMajor_at m i k hk1]
        unfold BitMatrix.word
        rw [hf]

/-- The binary form of a valid matrix: the header, then its words in row-major order. -/
theorem Write_binary (m : BitMatrix) (hv : m.Valid) :
    m.Write true [] = Except.ok (binaryHeader m.num_rows_ m.num_cols_ m.quant_bits_
      m.align_bits_ m.scale_ ++ wordsFrom (rowMajor m) 0 (m.num_rows_ * m.num_cols_)) :=
  Write_binary_onto m hv []

theorem readHeader_items (m : BitMatrix) (q a : Int) (s : ℚ) (rest : List Item) (hqa : a ≥ q) :
    readHeader m (headerItems q a s ++ rest) = Except.ok (withHeader m q a s, rest) := by
  have ha : SNOWBOY_ASSERT ((withHeader m q a s).align_bits_ ≥ (withHeader m q a s).quant_bits_) =
      Except.ok () := assert_ok _ hqa
  unfold withHeader at ha
  simp only [readHeader, headerItems, List.cons_append, List.nil_append, ExpectToken,
    if_true, failAt, bind_ok, ReadBasicType_int32, ReadBasicType_float, ha, pure_eq_ok,
    withHeader]

/-- Binary `Read` of a header followed by a stream: what is left is the body. -/
theorem Read_binary_header (h : Heap) (m : BitMatrix) (rows cols : Nat) (q a : Int) (s : ℚ)
    (rest : List Item) (hm : m.align_bits_ > 0 ∧ (64 : Int) % m.align_bits_ = 0)
    (hqa : a ≥ q) :
    BitMatrix.Read h true m (binaryHeader rows cols q a s ++ rest) =
      readBinaryBody h (withHeader m q a s) rows cols rest := by
  unfold BitMatrix.Read
  rw [assert_ok _ hm]
  simp only [binaryHeader, List.cons_append, List.nil_append, ExpectToken, if_true, failAt,
    bind_ok, ReadBasicType_int32, List.append_assoc]
  rw [readHeader_items m q a s rest hqa, bind_ok]

theorem cell_lt (rows cols r c : Nat) (hr : r < rows) (hc : c < cols) :
    r * cols + c < rows * cols := by
  have h : (r + 1) * cols ≤ rows * cols := Nat.mul_le_mul_right _ hr
  rw [Nat.add_mul, Nat.one_mul] at h
  omega

theorem row_before (stride cols r i c : Nat) (hr : r < i) (hc : c < cols) (hs : cols ≤ stride) :
    r * stride + c < i * stride := by
  have h : (r + 1) * stride ≤ i * stride := Nat.mul_le_mul_right _ hr
  rw [Nat.add_mul, Nat.one_mul] at h
  omega

/-- The binary body read into an empty target: with fewer than `2 ^ 31` words announced and
that many words in the stream, the target gets the announced shape and the words of the
stream in row-major order, and the stream is used up. -/
theorem readBinaryBody_words (h : Heap) (hh : h.Ok) (t : BitMatrix) (hv : t.Valid)
    (ht : t.num_rows_ = 0 ∧ t.num_cols_ = 0) (rows cols : Nat)
    (hshape : (rows = 0 ∧ cols = 0) ∨ (0 < rows ∧ 0 < cols))
    (hsmall : rows * cols < 2147483648) (wl : Nat → Nat) :
    ∃ m1, readBinaryBody h t rows cols (wordsFrom wl 0 (rows * cols)) = Except.ok (m1, []) ∧
      m1.Valid ∧ m1.num_rows_ = rows ∧ m1.num_cols_ = cols ∧ m1.scale_ = t.scale_ ∧
      m1.quant_bits_ = t.quant_bits_ ∧ m1.align_bits_ = t.align_bits_ ∧
      ∀ r c, r < rows → c < cols → m1.word r c = wl (r * cols + c) := by
  unfold readBinaryBody
  rcases hshape with ⟨hr, hc⟩ | ⟨hr, hc⟩
  · subst hr; subst hc
    have hcond : ¬ (((0 : Nat) : Int) ≠ (t.num_rows_ : Int) ∨
        ((0 : Nat) : Int) ≠ (t.num_cols_ : Int)) := by
      rw [ht.1, ht.2]; simp
    rw [if_neg hcond, pure_eq_ok, bind_ok]
    refine ⟨t, ?_, hv, ht.1, ht.2, rfl, rfl, rfl, fun r c hr => absurd hr (Nat.not_lt_zero r)⟩
    rfl
  · have hcond : ((rows : Int) ≠ (t.num_rows_ : Int) ∨ (cols : Int) ≠ (t.num_cols_ : Int)) := by
      rw [ht.1]; left; exact_mod_cast (Nat.ne_of_gt hr)
    obtain ⟨m1, hm1, hv1, b1, b2, b3, hdim⟩ := BitMatrix.Resize_ne_ok h hh t rows cols
      (Or.inl (by omega))
    have hd : m1.num_rows_ = rows ∧ m1.num_cols_ = cols := by
      rcases hdim with hd | ⟨hz, _⟩
      · exact hd
      · omega
    have hres : resizeAt h t rows cols = Except.ok m1 := by
      unfold resizeAt
      rw [hm1]
    rw [if_pos hcond, hres, bind_ok]
    have hpos : 0 < rows * cols := Nat.mul_pos hr hc
    have hprod : toInt32 ((rows : Int) * (cols : Int)) ≠ 0 := by
      have e : ((rows : Int) * (cols : Int)) = ((rows * cols : Nat) : Int) := by push_cast; rfl
      rw [e, toInt32_of_range _ (by omega) (by omega)]
      omega
    have htn : ((rows : Int) * (cols : Int)).toNat = rows * cols := by
      have e : ((rows : Int) * (cols : Int)) = ((rows * cols : Nat) : Int) := by push_cast; rfl
      rw [e, Int.toNat_ofNat]
    rw [if_pos hprod]
    obtain ⟨f, hf⟩ := hv1.data_some (by omega)
    have hst : m1.num_cols_ ≤ m1.stride_ := by
      rcases hv1 with ⟨_, h0, _, _⟩ | ⟨_, _, _, h4⟩
      · omega
      · exact h4
    by_cases hsc : m1.stride_ = m1.num_cols_
    · have e : wordsFrom wl (0 + rows * cols) (rows * cols - rows * cols) = [] := by
        rw [Nat.sub_self]; rfl
      rw [if_pos hsc, htn, readBlock_wordsFrom m1 f hf wl 0 (rows * cols) 0 (rows * cols)
        (Nat.le_refl _), e]
      refine ⟨_, rfl, ?_, hd.1, hd.2, b3, b1, b2, ?_⟩
      · rcases hv1 with ⟨h0, _⟩ | ⟨h1, h2, h3, h4⟩
        · rw [hf] at h0; cases h0
        · exact Or.inr ⟨rfl, h2, h3, h4⟩
      · intro r c hr1 hc1
        have hlt := cell_lt rows cols r c hr1 hc1
        simp only [BitMatrix.word]
        rw [hsc, hd.2, if_pos ⟨by omega, by omega⟩]
        congr 1
        omega
    · rw [if_neg hsc]
      have hloop : ∃ st, forRange (rows : Int).toNat
          (fun i (st : BitMatrix × List Item) => do
            failAt st.1 (SNOWBOY_ASSERT ((i : Int) < st.1.num_rows_ ∧ (i : Int) ≥ 0))
            readBlock st.1 (i * st.1.stride_) (cols : Int).toNat st.2)
          (m1, wordsFrom wl 0 (rows * cols)) = Except.ok st ∧
          (SameFrame m1 st.1 ∧ st.2 = wordsFrom wl (rows * cols) ((rows - rows) * cols) ∧
            ∃ g, st.1.data_ = some g ∧
              ∀ r c, r < rows → c < cols → g (r * m1.stride_ + c) = wl (r * cols + c)) := by
        rw [Int.toNat_ofNat, Int.toNat_ofNat]
        refine forRange_post (fun i (st : BitMatrix × List Item) =>
          SameFrame m1 st.1 ∧ st.2 = wordsFrom wl (i * cols) ((rows - i) * cols) ∧
            ∃ g, st.1.data_ = some g ∧
              ∀ r c, r < i → c < cols → g (r * m1.stride_ + c) = wl (r * cols + c))
          ⟨SameFrame.refl m1, by simp, f, hf, fun r c hr => absurd hr (Nat.not_lt_zero r)⟩
          ?_ (fun st hst => hst)
        intro i st hi hinv
        obtain ⟨hsf, hrest, g, hg, hwords⟩ := hinv
        obtain ⟨s1, s2, s3, s4, s5, s6, s7⟩ := hsf
        have h1 : ((i : Int) < (st.1.num_rows_ : Int) ∧ (i : Int) ≥ 0) := by
          rw [s1, hd.1]; omega
        have hle : cols ≤ (rows - i) * cols := by
          have : 1 * cols ≤ (rows - i) * cols := Nat.mul_le_mul_right _ (by omega)
          omega
        rw [assert_ok _ h1]
        simp only [failAt, bind_ok]
        rw [hrest, readBlock_wordsFrom st.1 g hg wl (i * st.1.stride_) cols (i * cols)
          ((rows - i) * cols) hle]
        refine ⟨_, rfl, ⟨s1, s2, s3, s4, s5, s6, ?_⟩, ?_, _, rfl, ?_⟩
        · show true = m1.data_.isSome
          rw [hf]; rfl
        · show wordsFrom wl (i * cols + cols) ((rows - i) * cols - cols) = _
          have e1 : i * cols + cols = (i + 1) * cols := by rw [Nat.add_mul, Nat.one_mul]
          have e2 : (rows - i) * cols - cols = (rows - (i + 1)) * cols := by
            have : rows - i = (rows - (i + 1)) + 1 := by omega
            rw [this, Nat.add_mul, Nat.one_mul, Nat.add_sub_cancel]
          rw [e1, e2]
        · intro r c hr1 hc1
          rw [s3]
          rw [hd.2] at hst
          rcases Nat.lt_succ_iff_lt_or_eq.mp hr1 with hlt | heq
          · have hb := row_before m1.stride_ cols r i c hlt hc1 hst
            rw [if_neg (by omega)]
            exact hwords r c hlt hc1
          · rw [heq, if_pos ⟨by omega, by omega⟩]
            congr 1
            omega
      obtain ⟨st, hst1, hsf, hrest, g, hg, hwords⟩ := hloop
      rw [hst1]
      have e0 : (rows - rows) * cols = 0 := by rw [Nat.sub_self, Nat.zero_mul]
      rw [e0, wordsFrom_zero] at hrest
      obtain ⟨s1, s2, s3, s4, s5, s6, s7⟩ := hsf
      refine ⟨st.1, ?_, SameFrame.valid ⟨s1, s2, s3, s4, s5, s6, s7⟩ hv1, s1.trans hd.1,
        s2.trans hd.2, s4.trans b3, s5.trans b1, s6.trans b2, ?_⟩
      · rw [← hrest]
      · intro r c hr1 hc1
        unfold BitMatrix.word
        rw [hg, s3]
        exact hwords r c hr1 hc1

/-! ## C9: the binary round trip -/

/-- C9. In a working memory environment, for every valid `BitMatrix` `m` with
`align_bits >= quant_bits`, of any shape, empty or with a stride above the column count,
whose offsets and those of the matrix that `Read` allocates are representable in the index
type (`NumRows * Stride < 2 ^ 31` for both, the size convention `Addressable`):
`Write(binary = true)` succeeds, and reading its output in binary mode into a
default-constructed matrix succeeds, uses up the stream and yields the same `NumRows`,
`NumCols`, `quant_bits`, `align_bits` and `scale` and the same word at every `(r, c)`. -/
theorem binary_roundtrip (h : Heap) (hh : h.Ok) (m : BitMatrix) (hv : m.Valid)
    (hqa : m.AlignBits ≥ m.QuantBits) (hsize : m.Addressable h) :
    ∃ os m1, m.Write true [] = Except.ok os ∧
      BitMatrix.Read h true BitMatrix.BitMatrix_default os = Except.ok (m1, []) ∧
      m1.NumRows = m.NumRows ∧ m1.NumCols = m.NumCols ∧ m1.QuantBits = m.QuantBits ∧
      m1.AlignBits = m.AlignBits ∧ m1.Scale = m.Scale ∧
      ∀ r c : Nat, r < m.NumRows → c < m.NumCols →
        m1.get r c = m.get r c ∧ m.get r c = Except.ok (m.word r c) := by
  simp only [BitMatrix.NumRows, BitMatrix.NumCols, BitMatrix.QuantBits, BitMatrix.AlignBits,
    BitMatrix.Scale] at hqa ⊢
  have hsmall : m.num_rows_ * m.num_cols_ < 2147483648 :=
    Nat.lt_of_le_of_lt (Nat.mul_le_mul_left _ (Nat.le_add_right _ _)) hsize.2
  have hshape : (m.num_rows_ = 0 ∧ m.num_cols_ = 0) ∨ (0 < m.num_rows_ ∧ 0 < m.num_cols_) := by
    rcases hv with ⟨_, h1, h2, _⟩ | ⟨_, h1, h2, _⟩
    · exact Or.inl ⟨h1, h2⟩
    · exact Or.inr ⟨h1, h2⟩
  obtain ⟨m1, hm1, hv1, d1, d2, d3, d4, d5, hw⟩ := readBinaryBody_words h hh
    (withHeader BitMatrix.BitMatrix_default m.quant_bits_ m.align_bits_ m.scale_)
    (Or.inl ⟨rfl, rfl, rfl, rfl⟩) ⟨rfl, rfl⟩ m.num_rows_ m.num_cols_ hshape hsmall (rowMajor m)
  refine ⟨_, m1, Write_binary m hv, ?_, d1, d2, d4, d5, d3, ?_⟩
  · rw [Read_binary_header h BitMatrix.BitMatrix_default m.num_rows_ m.num_cols_ m.quant_bits_
      m.align_bits_ m.scale_ _ (by decide) hqa]
    exact hm1
  · intro r c hr hc
    rw [BitMatrix.get_eq_word m1 hv1 r c (by omega) (by omega),
      BitMatrix.get_eq_word m hv r c hr hc, hw r c hr hc, rowMajor_at m r c hc]
    exact ⟨rfl, rfl⟩

/-- Witness of C9: the one-word matrix `rampBits`, whose stride is 2, written in binary mode
and read back. -/
theorem binary_roundtrip_witness :
    ∃ os m1, rampBits.Write true [] = Except.ok os ∧
      BitMatrix.Read heap16 true BitMatrix.BitMatrix_default os = Except.ok (m1, []) ∧
      m1.NumRows = 1 ∧ m1.NumCols = 1 ∧ m1.QuantBits = 8 ∧ m1.AlignBits = 8 ∧
      m1.Scale = 1 / 255 ∧ m1.get 0 0 = Except.ok 283686952306183 := by
  obtain ⟨os, m1, h1, h2, h3, h4, h5, h6, h7, h8⟩ := binary_roundtrip heap16 heap16_ok rampBits
    (by decide) (by decide) ⟨by decide, by decide⟩
  exact ⟨os, m1, h1, h2, h3, h4, h5, h6, h7, (h8 0 0 (by decide) (by decide)).1.trans rfl⟩

/-! ## Set and Resize -/

theorem BitMatrix.set_word_ok (m : BitMatrix) (f : Nat → Nat) (hf : m.data_ = some f) (r c : Nat)
    (hr : r < m.num_rows_) (hc : c < m.num_cols_) (w : Nat) :
    m.set r c w = Except.ok
      { m with data_ := some (fun k => if k = r * m.stride_ + c then w else f k) } := by
  have h1 : ((r : Int) < (m.num_rows_ : Int) ∧ (c : Int) < (m.num_cols_ : Int) ∧
      (r : Int) ≥ 0 ∧ (c : Int) ≥ 0) := by omega
  unfold BitMatrix.set
  rw [assert_ok _ h1, bind_ok, hf]
  simp only [writeWord, bind_ok, pure_eq_ok, Int.toNat_ofNat]

/-- What `Set(value)` computes on a valid matrix: the shape, the stride and the metadata are
kept, and every word in range is the value. -/
theorem BitMatrix.Set_spec (m : BitMatrix) (hv : m.Valid) (v : Nat) :
    ∃ m1, m.Set v = Except.ok m1 ∧ SameFrame m m1 ∧
      ∀ r c, r < m.num_rows_ → c < m.num_cols_ → m1.word r c = v := by
  have hstr : m.num_cols_ ≤ m.stride_ := by
    rcases hv with ⟨_, h0, _, _⟩ | ⟨_, _, _, h4⟩
    · omega
    · exact h4
  unfold BitMatrix.Set
  refine forRange_post
    (fun i (m2 : BitMatrix) => SameFrame m m2 ∧
      ∀ r c, r < i → c < m.num_cols_ → m2.word r c = v)
    ⟨SameFrame.refl m, fun r c hr => absurd hr (Nat.not_lt_zero r)⟩ ?_ (fun t ht => ht)
  intro i m2 hi hI
  obtain ⟨hf2, hw2⟩ := hI
  refine forRange_post
    (fun j (m3 : BitMatrix) => SameFrame m m3 ∧
      (∀ r c, r < i → c < m.num_cols_ → m3.word r c = v) ∧
      ∀ c, c < j → m3.word i c = v)
    ⟨hf2, hw2, fun c hc => absurd hc (Nat.not_lt_zero c)⟩ ?_ ?_
  · intro j m3 hj hJ
    obtain ⟨hf3, hw3, hw3i⟩ := hJ
    have hv3 : m3.Valid := hf3.valid hv
    obtain ⟨f3, hd3⟩ := hv3.data_some (by rw [hf3.1]; omega)
    rw [BitMatrix.set_word_ok m3 f3 hd3 i j (by rw [hf3.1]; exact hi) (by rw [hf3.2.1]; exact hj) v]
    refine ⟨_, rfl, ?_, ?_, ?_⟩
    · obtain ⟨a1, a2, a3, a4, a5, a6, a7⟩ := hf3
      refine ⟨a1, a2, a3, a4, a5, a6, ?_⟩
      rw [← a7, hd3]
      rfl
    · intro r c hr hc
      rw [BitMatrix.word_write m3 f3 hd3, hf3.2.2.1]
      have hne := offset_ne m.stride_ m.num_cols_ i r j c (by omega) hc hstr
        (fun h => absurd h.1 (Nat.ne_of_lt hr))
      simp only [hne, if_false]
      exact hw3 r c hr hc
    · intro c hc
      rw [BitMatrix.word_write m3 f3 hd3, hf3.2.2.1]
      by_cases hcj : c = j
      · subst hcj
        simp only [if_true]
      · have hne := offset_ne m.stride_ m.num_cols_ i i j c (by omega) (by omega) hstr
          (fun h => hcj h.2)
        simp only [hne, if_false]
        exact hw3i c (by omega)
  · intro m3 hJ
    obtain ⟨hf3, hw3, hw3i⟩ := hJ
    refine ⟨hf3, ?_⟩
    intro r c hr hc
    rcases Nat.lt_succ_iff_lt_or_eq.mp hr with hlt | heq
    · exact hw3 r c hlt hc
    · rw [heq]; exact hw3i c hc

/-- C28. For every valid `BitMatrix` and every value `v`, `Set(v)` succeeds; afterwards every
in-range access `m(r, c)` returns `v`, and the shape, the stride, `quant_bits`, `align_bits`
and `scale` are unchanged. -/
theorem Set_fills (m : BitMatrix) (hv : m.Valid) (v : Nat) :
    ∃ m1, m.Set v = Except.ok m1 ∧
      m1.NumRows = m.NumRows ∧ m1.NumCols = m.NumCols ∧ m1.Stride = m.Stride ∧
      m1.QuantBits = m.QuantBits ∧ m1.AlignBits = m.AlignBits ∧ m1.Scale = m.Scale ∧
      ∀ r c : Nat, r < m.NumRows → c < m.NumCols → m1.get r c = Except.ok v := by
  obtain ⟨m1, hm1, hf, hw⟩ := BitMatrix.Set_spec m hv v
  obtain ⟨a1, a2, a3, a4, a5, a6, a7⟩ := hf
  refine ⟨m1, hm1, a1, a2, a3, a5, a6, a4, ?_⟩
  intro r c hr hc
  simp only [BitMatrix.NumRows, BitMatrix.NumCols] at hr hc
  rw [BitMatrix.get_eq_word m1 (SameFrame.valid ⟨a1, a2, a3, a4, a5, a6, a7⟩ hv) r c
    (by omega) (by omega), hw r c hr hc]

/-- Witness of C28: `Set(5)` on the one-word matrix `rampBits`. -/
theorem Set_fills_witness :
    ∃ m1, rampBits.Set 5 = Except.ok m1 ∧ m1.get 0 0 = Except.ok 5 ∧ m1.Stride = 2 ∧
      m1.Scale = 1 / 255 := by
  obtain ⟨m1, hm1, _, _, h3, _, _, h6, hw⟩ := Set_fills rampBits (by decide) 5
  exact ⟨m1, hm1, hw 0 0 (by decide) (by decide), h3, h6⟩

/-- C24. For every valid `BitMatrix` `m` in a working memory environment: `Resize` to the
shape `m` has succeeds, keeps the shape, the stride and the metadata, and every in-range
access then returns 0; `Resize` to a different shape of positive dimensions succeeds with
`NumRows = rows` and `NumCols = cols`, and `quant_bits`, `align_bits` and `scale` are
unchanged. -/
theorem Resize_frame (h : Heap) (hh : h.Ok) (m : BitMatrix) (hv : m.Valid) :
    (∃ m1, m.Resize h m.NumRows m.NumCols = Except.ok m1 ∧
      m1.NumRows = m.NumRows ∧ m1.NumCols = m.NumCols ∧ m1.Stride = m.Stride ∧
      m1.QuantBits = m.QuantBits ∧ m1.AlignBits = m.AlignBits ∧ m1.Scale = m.Scale ∧
      ∀ r c : Nat, r < m.NumRows → c < m.NumCols → m1.get r c = Except.ok 0) ∧
    ∀ rows cols : Nat, 0 < rows → 0 < cols → (rows ≠ m.NumRows ∨ cols ≠ m.NumCols) →
      ∃ m1, m.Resize h rows cols = Except.ok m1 ∧ m1.NumRows = rows ∧ m1.NumCols = cols ∧
        m1.QuantBits = m.QuantBits ∧ m1.AlignBits = m.AlignBits ∧ m1.Scale = m.Scale := by
  simp only [BitMatrix.NumRows, BitMatrix.NumCols, BitMatrix.Stride, BitMatrix.QuantBits,
    BitMatrix.AlignBits, BitMatrix.Scale]
  constructor
  · obtain ⟨m1, hm1, hf, hw⟩ := BitMatrix.Set_spec m hv 0
    obtain ⟨a1, a2, a3, a4, a5, a6, a7⟩ := hf
    refine ⟨m1, ?_, a1, a2, a3, a5, a6, a4, ?_⟩
    · unfold BitMatrix.Resize
      rw [if_pos ⟨rfl, rfl⟩]
      exact hm1
    · intro r c hr hc
      rw [BitMatrix.get_eq_word m1 (SameFrame.valid ⟨a1, a2, a3, a4, a5, a6, a7⟩ hv) r c
        (by omega) (by omega), hw r c hr hc]
  · intro rows cols hr hc hne
    obtain ⟨m1, hm1, _, b1, b2, b3, hdim⟩ := BitMatrix.Resize_ne_ok h hh m rows cols
      (by omega)
    rcases hdim with hd | ⟨hz, _⟩
    · exact ⟨m1, hm1, hd.1, hd.2, b1, b2, b3⟩
    · omega

/-- Witness of C24: `rampBits` resized to its own shape 1 x 1 holds the word 0 and keeps its
stride 2; resized to 2 x 3 it has that shape and keeps its scale. -/
theorem Resize_frame_witness :
    (∃ m1, rampBits.Resize heap16 1 1 = Except.ok m1 ∧ m1.get 0 0 = Except.ok 0 ∧
      m1.Stride = 2) ∧
    ∃ m1, rampBits.Resize heap16 2 3 = Except.ok m1 ∧ m1.NumRows = 2 ∧ m1.NumCols = 3 ∧
      m1.Scale = 1 / 255 := by
  have h := Resize_frame heap16 heap16_ok rampBits (by decide)
  constructor
  · obtain ⟨m1, hm1, _, _, h3, _, _, _, hw⟩ := h.1
    exact ⟨m1, hm1, hw 0 0 (by decide) (by decide), h3⟩
  · obtain ⟨m1, hm1, h1, h2, _, _, h5⟩ := h.2 2 3 (by decide) (by decide)
      (Or.inl (by decide))
    exact ⟨m1, hm1, h1, h2, h5⟩

/-! ## Allocation -/

/-- What `AllocateBitMatrixMemory(rows, cols)` does for positive dimensions, with an
alignment constant that is a multiple of `sizeof(float)` and at least `sizeof(uint64)`: it
requests `8 * rows * (cols + pad)` bytes and, from a block, builds the state with that block,
the given shape and `stride = cols + pad`; without a block it raises `std::bad_alloc`. -/
theorem BitMatrix.Allocate_eq (h : Heap) (h4 : h.SNOWBOY_MEM_ALIGN % 4 = 0)
    (h8 : 8 ≤ h.SNOWBOY_MEM_ALIGN) (m : BitMatrix) (rows cols : Int) (hr : 0 < rows)
    (hc : 0 < cols) :
    m.AllocateBitMatrixMemory h rows cols =
      match h.SnowboyMemalign h.SNOWBOY_MEM_ALIGN
          (8 * rows.toNat * (cols.toNat + padOf (h.SNOWBOY_MEM_ALIGN / 8) cols.toNat)) with
      | some data => Except.ok (m.allocated data rows.toNat cols.toNat
          (cols.toNat + padOf (h.SNOWBOY_MEM_ALIGN / 8) cols.toNat))
      | none => Except.error Failure.bad_alloc := by
  have hn : h.SNOWBOY_MEM_ALIGN / 8 ≠ 0 := by omega
  have ha : (rows ≥ 0 ∧ cols ≥ 0) := by omega
  have hz : ¬ (rows = 0 ∨ cols = 0) := by omega
  unfold BitMatrix.AllocateBitMatrixMemory
  rw [assert_ok _ ha, bind_ok, if_neg hz, assert_ok _ h4, bind_ok]
  simp only [hn, if_false, padOf]
  rfl

theorem padOf_spec (n cols : Nat) (hn : 1 ≤ n) :
    (cols + padOf n cols) % n = 0 ∧ padOf n cols < n ∧ (padOf n cols = 0 ↔ cols % n = 0) := by
  unfold padOf
  have hlt : cols % n < n := Nat.mod_lt _ (by omega)
  have hdm := Nat.div_add_mod cols n
  by_cases h0 : cols % n = 0
  · rw [h0, Nat.sub_zero, Nat.mod_self, Nat.add_zero]
    exact ⟨h0, by omega, by simp⟩
  · have hp : (n - cols % n) % n = n - cols % n := Nat.mod_eq_of_lt (by omega)
    rw [hp]
    refine ⟨?_, by omega, by omega⟩
    have e : cols + (n - cols % n) = n * (cols / n + 1) := by
      rw [Nat.mul_add, Nat.mul_one]
      omega
    rw [e, Nat.mul_mod_right]

theorem padOf_least (n cols s : Nat) (hn : 1 ≤ n) (hs : s % n = 0) (hc : cols ≤ s) :
    cols + padOf n cols ≤ s := by
  obtain ⟨h1, h2, _⟩ := padOf_spec n cols hn
  by_contra hlt
  obtain ⟨k, hk⟩ := Nat.dvd_of_mod_eq_zero hs
  obtain ⟨j, hj⟩ := Nat.dvd_of_mod_eq_zero h1
  have hkj : k < j := by
    by_contra hge
    have : n * j ≤ n * k := Nat.mul_le_mul_left _ (by omega)
    omega
  have : n * (k + 1) ≤ n * j := Nat.mul_le_mul_left _ hkj
  rw [Nat.mul_add, Nat.mul_one] at this
  omega

/-- C23. With an alignment constant that is a multiple of `sizeof(float)` and at least
`sizeof(uint64)`: `AllocateBitMatrixMemory(rows, cols)` fails with an assertion exactly when
`rows < 0` or `cols < 0`; with `rows == 0` or `cols == 0` it yields the empty state
(`NumRows = NumCols = Stride = 0`, no buffer); with `rows > 0` and `cols > 0` it yields, from
the block `SnowboyMemalign` returns, a matrix with that block, `NumRows = rows` and
`NumCols = cols`, and when `SnowboyMemalign` returns no block it raises `std::bad_alloc`. -/
theorem Allocate_cases (h : Heap) (h4 : h.SNOWBOY_MEM_ALIGN % 4 = 0)
    (h8 : 8 ≤ h.SNOWBOY_MEM_ALIGN) (m : BitMatrix) (rows cols : Int) :
    (m.AllocateBitMatrixMemory h rows cols = Except.error Failure.assertion ↔
      (rows < 0 ∨ cols < 0)) ∧
    (0 ≤ rows → 0 ≤ cols → rows = 0 ∨ cols = 0 →
      ∃ m1, m.AllocateBitMatrixMemory h rows cols = Except.ok m1 ∧ m1.NumRows = 0 ∧
        m1.NumCols = 0 ∧ m1.Stride = 0 ∧ m1.data_ = none) ∧
    (0 < rows → 0 < cols →
      (∀ data, h.SnowboyMemalign h.SNOWBOY_MEM_ALIGN (8 * rows.toNat *
          (cols.toNat + padOf (h.SNOWBOY_MEM_ALIGN / 8) cols.toNat)) = some data →
        ∃ m1, m.AllocateBitMatrixMemory h rows cols = Except.ok m1 ∧
          (m1.NumRows : Int) = rows ∧ (m1.NumCols : Int) = cols ∧ m1.data_ = some data) ∧
      (h.SnowboyMemalign h.SNOWBOY_MEM_ALIGN (8 * rows.toNat *
          (cols.toNat + padOf (h.SNOWBOY_MEM_ALIGN / 8) cols.toNat)) = none →
        m.AllocateBitMatrixMemory h rows cols = Except.error Failure.bad_alloc)) := by
  have hzero : 0 ≤ rows → 0 ≤ cols → rows = 0 ∨ cols = 0 →
      m.AllocateBitMatrixMemory h rows cols = Except.ok (BitMatrix.ReleaseBitMatrixMemory m) := by
    intro h0 h1 hz
    have ha : (rows ≥ 0 ∧ cols ≥ 0) := ⟨h0, h1⟩
    unfold BitMatrix.AllocateBitMatrixMemory
    rw [assert_ok _ ha, bind_ok, if_pos hz]
    rfl
  refine ⟨⟨?_, ?_⟩, ?_, ?_⟩
  · intro hfail
    by_contra hn
    have h0 : 0 ≤ rows := by omega
    have h1 : 0 ≤ cols := by omega
    by_cases hz : rows = 0 ∨ cols = 0
    · rw [hzero h0 h1 hz] at hfail
      cases hfail
    · rw [BitMatrix.Allocate_eq h h4 h8 m rows cols (by omega) (by omega)] at hfail
      split at hfail <;> cases hfail
  · intro hneg
    have ha : ¬ (rows ≥ 0 ∧ cols ≥ 0) := by omega
    unfold BitMatrix.AllocateBitMatrixMemory
    rw [assert_fail _ ha, bind_error]
  · intro h0 h1 hz
    exact ⟨_, hzero h0 h1 hz, rfl, rfl, rfl, rfl⟩
  · intro hr hc
    constructor
    · intro data hd
      rw [BitMatrix.Allocate_eq h h4 h8 m rows cols hr hc, hd]
      refine ⟨_, rfl, ?_, ?_, rfl⟩
      · show ((rows.toNat : Nat) : Int) = rows
        omega
      · show ((cols.toNat : Nat) : Int) = cols
        omega
    · intro hd
      rw [BitMatrix.Allocate_eq h h4 h8 m rows cols hr hc, hd]

/-- Witness of C23: with 16-byte alignment, a negative row count fails with an assertion, a
zero column count gives the empty state, a 2 x 3 request gives a 2 x 3 matrix, and without
memory the 2 x 3 request raises `std::bad_alloc`. -/
theorem Allocate_cases_witness :
    BitMatrix.BitMatrix_default.AllocateBitMatrixMemory heap16 (-1) 3 =
      Except.error Failure.assertion ∧
    (∃ m1, BitMatrix.BitMatrix_default.AllocateBitMatrixMemory heap16 2 0 = Except.ok m1 ∧
      m1.NumRows = 0 ∧ m1.NumCols = 0 ∧ m1.Stride = 0 ∧ m1.data_ = none) ∧
    (∃ m1, BitMatrix.BitMatrix_default.AllocateBitMatrixMemory heap16 2 3 = Except.ok m1 ∧
      (m1.NumRows : Int) = 2 ∧ (m1.NumCols : Int) = 3) ∧
    BitMatrix.BitMatrix_default.AllocateBitMatrixMemory heapFull 2 3 =
      Except.error Failure.bad_alloc := by
  have h1 := Allocate_cases heap16 (by decide) (by decide) BitMatrix.BitMatrix_default (-1) 3
  have h2 := Allocate_cases heap16 (by decide) (by decide) BitMatrix.BitMatrix_default 2 0
  have h3 := Allocate_cases heap16 (by decide) (by decide) BitMatrix.BitMatrix_default 2 3
  have h4 := Allocate_cases heapFull (by decide) (by decide) BitMatrix.BitMatrix_default 2 3
  refine ⟨h1.1.2 (Or.inl (by decide)), h2.2.1 (by decide) (by decide) (Or.inr rfl), ?_,
    (h4.2.2 (by decide) (by decide)).2 rfl⟩
  obtain ⟨m1, hm1, a1, a2, _⟩ := (h3.2.2 (by decide) (by decide)).1 (fun _ => 0) rfl
  exact ⟨m1, hm1, a1, a2⟩

/-- C27. In a working memory environment, with `n = SNOWBOY_MEM_ALIGN / 8` words per
alignment unit (`n >= 1`): allocation for `rows > 0` and `cols > 0` sets
`stride = cols + pad` with `pad = (n - cols mod n) mod n`; the stride is a multiple of `n`,
`cols <= stride < cols + n`, it is the least multiple of `n` that is at least `cols`, and
`pad = 0` exactly when `n` divides `cols`. -/
theorem stride_formula (h : Heap) (hh : h.Ok) (m : BitMatrix) (rows cols : Nat)
    (hr : 0 < rows) (hc : 0 < cols) :
    1 ≤ h.SNOWBOY_MEM_ALIGN / 8 ∧
    ∃ m1, m.AllocateBitMatrixMemory h rows cols = Except.ok m1 ∧
      m1.Stride = cols + (h.SNOWBOY_MEM_ALIGN / 8 - cols % (h.SNOWBOY_MEM_ALIGN / 8)) %
        (h.SNOWBOY_MEM_ALIGN / 8) ∧
      m1.Stride % (h.SNOWBOY_MEM_ALIGN / 8) = 0 ∧ cols ≤ m1.Stride ∧
      m1.Stride < cols + h.SNOWBOY_MEM_ALIGN / 8 ∧
      (∀ s, s % (h.SNOWBOY_MEM_ALIGN / 8) = 0 → cols ≤ s → m1.Stride ≤ s) ∧
      (m1.Stride = cols ↔ h.SNOWBOY_MEM_ALIGN / 8 ∣ cols) := by
  obtain ⟨h4, h8, hal⟩ := hh
  have hn : 1 ≤ h.SNOWBOY_MEM_ALIGN / 8 := by omega
  refine ⟨hn, ?_⟩
  obtain ⟨p1, p2, p3⟩ := padOf_spec (h.SNOWBOY_MEM_ALIGN / 8) cols hn
  obtain ⟨data, hd⟩ := Option.isSome_iff_exists.mp (hal h.SNOWBOY_MEM_ALIGN
    (8 * (rows : Int).toNat * ((cols : Int).toNat +
      padOf (h.SNOWBOY_MEM_ALIGN / 8) (cols : Int).toNat)))
  rw [BitMatrix.Allocate_eq h h4 h8 m rows cols (by omega) (by omega), hd]
  refine ⟨_, rfl, ?_, ?_, ?_, ?_, ?_, ?_⟩
  · show (cols : Int).toNat + padOf _ (cols : Int).toNat = _
    rw [Int.toNat_ofNat]
    rfl
  · show ((cols : Int).toNat + padOf _ (cols : Int).toNat) % _ = 0
    rw [Int.toNat_ofNat]
    exact p1
  · show cols ≤ (cols : Int).toNat + padOf _ (cols : Int).toNat
    rw [Int.toNat_ofNat]
    omega
  · show (cols : Int).toNat + padOf _ (cols : Int).toNat < _
    rw [Int.toNat_ofNat]
    omega
  · intro s hs hcs
    show (cols : Int).toNat + padOf _ (cols : Int).toNat ≤ s
    rw [Int.toNat_ofNat]
    exact padOf_least _ cols s hn hs hcs
  · show (cols : Int).toNat + padOf _ (cols : Int).toNat = cols ↔ _
    rw [Int.toNat_ofNat, Nat.dvd_iff_mod_eq_zero]
    constructor
    · intro he
      exact p3.mp (by omega)
    · intro he
      have := p3.mpr he
      omega

/-- Witness of C27: with 16-byte alignment (`n = 2`) a 2 x 3 request gets stride 4 and a
2 x 4 request gets stride 4. -/
theorem stride_formula_witness :
    (∃ m1, BitMatrix.BitMatrix_default.AllocateBitMatrixMemory heap16 2 3 = Except.ok m1 ∧
      m1.Stride = 4) ∧
    ∃ m1, BitMatrix.BitMatrix_default.AllocateBitMatrixMemory heap16 2 4 = Except.ok m1 ∧
      m1.Stride = 4 := by
  obtain ⟨_, m1, hm1, h1, _⟩ := stride_formula heap16 heap16_ok BitMatrix.BitMatrix_default 2 3
    (by decide) (by decide)
  obtain ⟨_, m2, hm2, h2, _⟩ := stride_formula heap16 heap16_ok BitMatrix.BitMatrix_default 2 4
    (by decide) (by decide)
  exact ⟨⟨m1, hm1, h1.trans (by decide)⟩, ⟨m2, hm2, h2.trans (by decide)⟩⟩

/-! ## Indexing -/

theorem assert_bind_error {α : Type} (c : Prop) [Decidable c] (x : Except Failure α)
    (hx : x ≠ Except.error Failure.assertion) :
    ((SNOWBOY_ASSERT c >>= fun _ => x) = Except.error Failure.assertion) ↔ ¬ c := by
  by_cases hc : c
  · rw [assert_ok _ hc, bind_ok]
    exact ⟨fun h => absurd h hx, fun h => absurd hc h⟩
  · rw [assert_fail _ hc, bind_error]
    exact ⟨fun _ => hc, fun _ => rfl⟩

theorem readWord_ne_assertion (data : Option (Nat → Nat)) (off : Nat) :
    readWord data off ≠ Except.error Failure.assertion := by
  unfold readWord
  split
  · intro h; cases h
  · intro h; cases h

/-- C25. For every `BitMatrix` `m`: `m(r, c)` fails with an assertion exactly when not
(`0 <= r < NumRows` and `0 <= c < NumCols`); `RowData(r)` and `Row(r)` fail exactly when not
`0 <= r < NumRows`, and their failure is an assertion; for every view `v`, `v(k)` fails with
an assertion exactly when not `0 <= k < Dim`; and an in-range `m(r, c)` of a matrix with a
buffer reads the word at offset `r * stride + c`, the in-range `v(k)` of a view of row `r`
being that same word for `c = k`. -/
theorem indexing_fail_fast (m : BitMatrix) (v : BitVector) (r c k : Int) :
    (m.get r c = Except.error Failure.assertion ↔
      ¬ (0 ≤ r ∧ r < m.NumRows ∧ 0 ≤ c ∧ c < m.NumCols)) ∧
    ((∃ e, m.RowData r = Except.error e) ↔ ¬ (0 ≤ r ∧ r < m.NumRows)) ∧
    ((∃ e, m.Row r = Except.error e) ↔ ¬ (0 ≤ r ∧ r < m.NumRows)) ∧
    (¬ (0 ≤ r ∧ r < m.NumRows) → m.RowData r = Except.error Failure.assertion ∧
      m.Row r = Except.error Failure.assertion) ∧
    (v.get k = Except.error Failure.assertion ↔ ¬ (0 ≤ k ∧ k < v.Dim)) ∧
    (∀ f, m.data_ = some f → 0 ≤ r → r < m.NumRows → 0 ≤ c → c < m.NumCols →
      m.get r c = Except.ok (f (r.toNat * m.Stride + c.toNat)) ∧
      ∃ w, m.Row r = Except.ok w ∧ w.get c = m.get r c) := by
  simp only [BitMatrix.NumRows, BitMatrix.NumCols, BitMatrix.Stride, BitVector.Dim]
  refine ⟨?_, ?_, ?_, ?_, ?_, ?_⟩
  · unfold BitMatrix.get
    rw [assert_bind_error _ _ (readWord_ne_assertion _ _)]
    constructor <;> intro h <;> omega
  · unfold BitMatrix.RowData
    by_cases hr : r < (m.num_rows_ : Int) ∧ r ≥ 0
    · rw [assert_ok _ hr, bind_ok]
      constructor
      · rintro ⟨e, he⟩; cases he
      · intro h; omega
    · rw [assert_fail _ hr, bind_error]
      exact ⟨fun _ => by omega, fun _ => ⟨_, rfl⟩⟩
  · unfold BitMatrix.Row BitMatrix.RowData
    by_cases hr : r < (m.num_rows_ : Int) ∧ r ≥ 0
    · rw [assert_ok _ hr, bind_ok, bind_ok]
      constructor
      · rintro ⟨e, he⟩; cases he
      · intro h; omega
    · rw [assert_fail _ hr, bind_error]
      exact ⟨fun _ => by omega, fun _ => ⟨_, rfl⟩⟩
  · intro hn
    have hr : ¬ (r < (m.num_rows_ : Int) ∧ r ≥ 0) := by omega
    unfold BitMatrix.Row BitMatrix.RowData
    rw [assert_fail _ hr, bind_error]
    exact ⟨rfl, rfl⟩
  · unfold BitVector.get
    rw [assert_bind_error _ _ (readWord_ne_assertion _ _)]
    constructor <;> intro h <;> omega
  · intro f hf h0 h1 h2 h3
    have ha : (r < (m.num_rows_ : Int) ∧ c < (m.num_cols_ : Int) ∧ r ≥ 0 ∧ c ≥ 0) := by omega
    have hb : (r < (m.num_rows_ : Int) ∧ r ≥ 0) := by omega
    have hg : m.get r c = Except.ok (f (r.toNat * m.stride_ + c.toNat)) := by
      unfold BitMatrix.get
      rw [assert_ok _ ha, bind_ok, hf]
      rfl
    refine ⟨hg, ?_⟩
    rw [hg]
    unfold BitMatrix.Row BitMatrix.RowData
    rw [assert_ok _ hb, bind_ok, bind_ok, hf]
    refine ⟨_, rfl, ?_⟩
    have hc : (c < ((m.NumCols : Nat) : Int) ∧ c ≥ 0) := by
      simp only [BitMatrix.NumCols]; omega
    unfold BitVector.get
    simp only [bind_ok, pure_eq_ok, Option.map_some']
    rw [assert_ok _ hc, bind_ok]
    rfl

/-- Witness of C25: on the one-word matrix `rampBits`, `m(0, 0)` reads its word, `m(0, 1)`,
`m(-1, 0)` and `Row(1)` fail with an assertion, and the view of row 0 reads the same word. -/
theorem indexing_fail_fast_witness :
    rampBits.get 0 0 = Except.ok 283686952306183 ∧
    rampBits.get 0 1 = Except.error Failure.assertion ∧
    rampBits.get (-1) 0 = Except.error Failure.assertion ∧
    rampBits.Row 1 = Except.error Failure.assertion ∧
    ∃ w, rampBits.Row 0 = Except.ok w ∧ w.get 0 = Except.ok 283686952306183 := by
  have h00 := indexing_fail_fast rampBits (constView 1 0 1) 0 0 0
  have h01 := indexing_fail_fast rampBits (constView 1 0 1) 0 1 0
  have h10 := indexing_fail_fast rampBits (constView 1 0 1) (-1) 0 0
  have h1 := indexing_fail_fast rampBits (constView 1 0 1) 1 0 0
  obtain ⟨hg, w, hw, hwg⟩ := h00.2.2.2.2.2 (fun _ => 283686952306183) rfl (by decide)
    (by decide) (by decide) (by decide)
  exact ⟨hg, h01.1.2 (by decide), h10.1.2 (by decide), (h1.2.2.2.1 (by decide)).2,
    w, hw, hwg.trans hg⟩

/-! ## The empty boundary -/

theorem BitMatrix.Valid.empty {m : BitMatrix} (hv : m.Valid) (hr : m.num_rows_ = 0) :
    m.num_cols_ = 0 ∧ m.stride_ = 0 ∧ m.data_ = none := by
  rcases hv with ⟨h0, _, h2, h3⟩ | ⟨_, h1, _, _⟩
  · refine ⟨h2, h3, ?_⟩
    cases hd : m.data_ with
    | none => rfl
    | some f => rw [hd] at h0; cases h0
  · omega

/-- `Quantize` of a source without rows and columns, in any memory environment: no block is
requested and the result is the empty state with the metadata of the target. -/
theorem BitMatrix.Quantize_empty (fu : FloatUnit) (h : Heap) (m : BitMatrix) (inp : MatrixBase)
    (hv : m.Valid)
    (ha0 : 0 < m.align_bits_) (ha1 : m.align_bits_ ≤ 64) (hq : m.quant_bits_ ≤ m.align_bits_)
    (hr : inp.num_rows_ = 0) (hc : inp.num_cols_ = 0) :
    ∃ m2, m.Quantize fu h inp = Except.ok m2 ∧ m2.num_rows_ = 0 ∧ m2.num_cols_ = 0 ∧
      m2.stride_ = 0 ∧ m2.data_ = none ∧ m2.quant_bits_ = m.quant_bits_ ∧
      m2.align_bits_ = m.align_bits_ ∧ m2.scale_ = m.scale_ := by
  obtain ⟨hl, _⟩ := BitMatrix.lanesPerWord_ok m.align_bits_ ha0 ha1
  have hres : ∃ m1, (if m.num_rows_ ≠ inp.num_rows_ ∨
      m.num_cols_ ≠ inp.num_cols_ / lanes m.align_bits_ then
      m.Resize h inp.num_rows_ (inp.num_cols_ / lanes m.align_bits_ : Nat) else pure m) =
        Except.ok m1 ∧ m1.Valid ∧ m1.num_rows_ = 0 ∧ m1.num_cols_ = 0 ∧
        m1.quant_bits_ = m.quant_bits_ ∧ m1.align_bits_ = m.align_bits_ ∧
        m1.scale_ = m.scale_ := by
    rw [hr, hc, Nat.zero_div]
    by_cases hne : m.num_rows_ ≠ 0 ∨ m.num_cols_ ≠ 0
    · rw [if_pos hne, BitMatrix.Resize_ne h m 0 0 hne]
      obtain ⟨m1, hm1, hv1, a1, a2, a3, a4, a5⟩ := BitMatrix.Allocate_zero h
        (if m.data_.isSome then m.ReleaseBitMatrixMemory else m) 0 0 (Or.inl rfl)
      refine ⟨m1, hm1, hv1, a1, a2, ?_, ?_, ?_⟩
      · rw [a4]; split <;> rfl
      · rw [a5]; split <;> rfl
      · rw [a3]; split <;> rfl
    · rw [if_neg hne]
      exact ⟨m, rfl, hv, by omega, by omega, rfl, rfl, rfl⟩
  obtain ⟨m1, hm1, hv1, b1, b2, b3, b4, b5⟩ := hres
  have hs : m1.num_rows_ = inp.num_rows_ ∧ m1.num_cols_ = inp.num_cols_ / lanes m.align_bits_ := by
    rw [hr, hc, Nat.zero_div]; exact ⟨b1, b2⟩
  unfold BitMatrix.Quantize
  rw [assert_ok _ ha0, bind_ok, BitMatrix.wordsPerRow_ok m.align_bits_ ha0 ha1, bind_ok, hm1,
    bind_ok, assert_ok _ hs, bind_ok,
    assert_ok (m1.align_bits_ ≥ m1.quant_bits_) (by rw [b3, b4]; exact hq), bind_ok, b4, hl,
    bind_ok, b1]
  obtain ⟨e1, e2, e3⟩ := hv1.empty b1
  exact ⟨m1, rfl, b1, e1, e2, e3, b3, b4, b5⟩

/-- C26. In any memory environment, for `1 <= quant_bits <= align_bits <= 64` and a source
without rows and columns: both quantizing constructors, and `Quantize` on any valid target
with these bit widths, succeed and yield `NumRows = NumCols = Stride = 0` and no buffer; and
`BitMatBitMat` on two operands without rows and columns with an output without rows and
columns succeeds and returns the output as it was, its loops having no iteration. The
arithmetic `fu` of the quantizer is arbitrary. -/
theorem empty_boundary (fu : FloatUnit) (h : Heap) (qb ab : Int) (h1 : 1 ≤ qb) (h2 : qb ≤ ab)
    (h3 : ab ≤ 64)
    (inp : MatrixBase) (hr : inp.num_rows_ = 0) (hc : inp.num_cols_ = 0) :
    (∃ m, BitMatrix.BitMatrix_quant_align fu h inp qb ab = Except.ok m ∧ m.NumRows = 0 ∧
      m.NumCols = 0 ∧ m.Stride = 0 ∧ m.data_ = none) ∧
    (∃ m, BitMatrix.BitMatrix_in_bits fu h inp ab = Except.ok m ∧ m.NumRows = 0 ∧
      m.NumCols = 0 ∧ m.Stride = 0 ∧ m.data_ = none) ∧
    (∀ t : BitMatrix, t.Valid → t.QuantBits = qb → t.AlignBits = ab →
      ∃ m, t.Quantize fu h inp = Except.ok m ∧ m.NumRows = 0 ∧ m.NumCols = 0 ∧ m.Stride = 0 ∧
        m.data_ = none) ∧
    ∀ x y : BitMatrix, ∀ out : MatrixBase, x.NumRows = 0 → x.NumCols = 0 → y.NumRows = 0 →
      y.NumCols = 0 → out.num_rows_ = 0 → out.num_cols_ = 0 →
      BitMatBitMat x y out = Except.ok out := by
  have hctor : ∀ q : Int, q ≤ ab →
      ∃ m, BitMatrix.BitMatrix_quant_align fu h inp q ab = Except.ok m ∧ m.NumRows = 0 ∧
        m.NumCols = 0 ∧ m.Stride = 0 ∧ m.data_ = none := by
    intro q hq
    have hv0 : (BitMatrix.ctorState q ab).Valid := Or.inl ⟨rfl, rfl, rfl, rfl⟩
    obtain ⟨m2, hm2, a1, a2, a3, a4, _⟩ := BitMatrix.Quantize_empty fu h (BitMatrix.ctorState q ab)
      inp hv0 (by show 0 < ab; omega) h3 hq hr hc
    refine ⟨m2, ?_, a1, a2, a3, a4⟩
    unfold BitMatrix.BitMatrix_quant_align
    rw [BitMatrix.wordsPerRow_ok ab (by omega) h3, bind_ok, hr, hc, Nat.zero_div]
    have hres : (BitMatrix.ctorState q ab).Resize h ((0 : Nat) : Int) ((0 : Nat) : Int) =
        Except.ok (BitMatrix.ctorState q ab) := by
      unfold BitMatrix.Resize
      rw [if_pos ⟨rfl, rfl⟩]
      exact BitMatrix.Set_empty _ 0 rfl
    rw [hres, bind_ok]
    exact hm2
  refine ⟨hctor qb h2, hctor ab (le_refl _), ?_, ?_⟩
  · intro t hv hq ha
    simp only [BitMatrix.QuantBits, BitMatrix.AlignBits] at hq ha
    obtain ⟨m2, hm2, a1, a2, a3, a4, _⟩ := BitMatrix.Quantize_empty fu h t inp hv
      (by rw [ha]; omega) (by rw [ha]; exact h3) (by rw [hq, ha]; exact h2) hr hc
    exact ⟨m2, hm2, a1, a2, a3, a4⟩
  · intro x y out hx1 hx2 hy1 hy2 ho1 ho2
    simp only [BitMatrix.NumRows, BitMatrix.NumCols] at hx1 hx2 hy1 hy2
    have ha : (x.NumCols = y.NumCols ∧ x.NumRows = out.num_rows_ ∧
        y.NumRows = out.num_cols_) := by
      simp only [BitMatrix.NumRows, BitMatrix.NumCols]; omega
    unfold BitMatBitMat
    rw [assert_ok _ ha, bind_ok, ho1]
    rfl

/-- Witness of C26: the empty dense matrix quantized with 8-bit lanes in an environment
without memory, and the product of two default-constructed matrices. -/
theorem empty_boundary_witness :
    (∃ m, BitMatrix.BitMatrix_quant_align FloatUnit.ieee heapFull emptyDense 8 8 = Except.ok m ∧
      m.NumRows = 0 ∧ m.NumCols = 0 ∧ m.Stride = 0 ∧ m.data_ = none) ∧
    BitMatBitMat BitMatrix.BitMatrix_default BitMatrix.BitMatrix_default emptyDense =
      Except.ok emptyDense := by
  have h := empty_boundary FloatUnit.ieee heapFull 8 8 (by decide) (by decide) (by decide)
    emptyDense rfl rfl
  exact ⟨h.1, h.2.2.2 _ _ _ rfl rfl rfl rfl rfl rfl⟩

/-! ## Metadata set at quantization time -/

/-- A property that every successful iteration carries over holds for the result of a loop
that succeeds. -/
theorem forRange_ok_inv {ε σ : Type} (P : σ → Prop) (n : Nat) (body : Nat → σ → Except ε σ)
    (s t : σ) (hbody : ∀ i s1 t1, P s1 → body i s1 = Except.ok t1 → P t1) (hs : P s)
    (h : forRange n body s = Except.ok t) : P t := by
  induction n generalizing t with
  | zero =>
    simp only [forRange, Except.ok.injEq] at h
    rw [← h]; exact hs
  | succ k ih =>
    simp only [forRange] at h
    cases hk : forRange k body s with
    | error e => rw [hk] at h; cases h
    | ok t1 =>
      rw [hk] at h
      exact hbody k t1 t (ih t1 hk) h

theorem SameMeta.trans {a b c : BitMatrix} (h1 : SameMeta a b) (h2 : SameMeta b c) :
    SameMeta a c :=
  ⟨h2.1.trans h1.1, h2.2.1.trans h1.2.1, h2.2.2.trans h1.2.2⟩

theorem BitMatrix.set_meta (m m1 : BitMatrix) (r c : Int) (w : Nat)
    (h : m.set r c w = Except.ok m1) : SameMeta m m1 := by
  unfold BitMatrix.set at h
  obtain ⟨_, _, h⟩ := bind_eq_ok h
  obtain ⟨d, _, h⟩ := bind_eq_ok h
  simp only [pure_eq_ok, Except.ok.injEq] at h
  rw [← h]
  exact ⟨rfl, rfl, rfl⟩

theorem BitMatrix.Resize_meta (hp : Heap) (m m1 : BitMatrix) (rows cols : Int)
    (h : m.Resize hp rows cols = Except.ok m1) : SameMeta m m1 := by
  unfold BitMatrix.Resize at h
  split at h
  · unfold BitMatrix.Set at h
    refine forRange_ok_inv (SameMeta m) _ _ m m1 ?_ ⟨rfl, rfl, rfl⟩ h
    intro i s1 t1 hs1 h1
    refine forRange_ok_inv (SameMeta m) _ _ s1 t1 ?_ hs1 h1
    intro j s2 t2 hs2 h2
    exact hs2.trans (BitMatrix.set_meta s2 t2 _ _ _ h2)
  · simp only at h
    have h0 : SameMeta m (if m.data_.isSome then m.ReleaseBitMatrixMemory else m) := by
      split <;> exact ⟨rfl, rfl, rfl⟩
    refine h0.trans ?_
    generalize (if m.data_.isSome then m.ReleaseBitMatrixMemory else m) = m0 at h
    unfold BitMatrix.AllocateBitMatrixMemory at h
    obtain ⟨_, _, h⟩ := bind_eq_ok h
    split at h
    · simp only [pure_eq_ok, Except.ok.injEq] at h
      rw [← h]; exact ⟨rfl, rfl, rfl⟩
    · obtain ⟨_, _, h⟩ := bind_eq_ok h
      simp only at h
      split at h
      · cases h
      · split at h
        · simp only [pure_eq_ok, Except.ok.injEq] at h
          rw [← h]; exact ⟨rfl, rfl, rfl⟩
        · cases h

theorem BitMatrix.Quantize_meta (fu : FloatUnit) (hp : Heap) (m m2 : BitMatrix) (inp : MatrixBase)
    (h : m.Quantize fu hp inp = Except.ok m2) : SameMeta m m2 := by
  unfold BitMatrix.Quantize at h
  obtain ⟨_, _, h⟩ := bind_eq_ok h
  obtain ⟨cols, _, h⟩ := bind_eq_ok h
  obtain ⟨m1, hm1, h⟩ := bind_eq_ok h
  obtain ⟨_, _, h⟩ := bind_eq_ok h
  obtain ⟨_, _, h⟩ := bind_eq_ok h
  obtain ⟨L, _, h⟩ := bind_eq_ok h
  have h1 : SameMeta m m1 := by
    split at hm1
    · exact BitMatrix.Resize_meta hp m m1 _ _ hm1
    · simp only [pure_eq_ok, Except.ok.injEq] at hm1
      rw [← hm1]; exact ⟨rfl, rfl, rfl⟩
  refine h1.trans ?_
  refine forRange_ok_inv (SameMeta m1) _ _ m1 m2 ?_ ⟨rfl, rfl, rfl⟩ h
  intro i s1 t1 hs1 h2
  refine forRange_ok_inv (SameMeta m1) _ _ s1 t1 ?_ hs1 h2
  intro j s2 t2 hs2 h3
  obtain ⟨_, _, h3⟩ := bind_eq_ok h3
  obtain ⟨_, _, h3⟩ := bind_eq_ok h3
  simp only [pure_eq_ok, Except.ok.injEq] at h3
  rw [← h3]
  exact hs2

/-- The metadata of every matrix the quantizing constructor returns. -/
theorem BitMatrix.BitMatrix_quant_align_meta (fu : FloatUnit) (hp : Heap) (inp : MatrixBase)
    (qb ab : Int)
    (m : BitMatrix) (h : BitMatrix.BitMatrix_quant_align fu hp inp qb ab = Except.ok m) :
    m.quant_bits_ = qb ∧ m.align_bits_ = ab ∧ m.scale_ = 1 / ((2 : ℚ) ^ qb - 1) := by
  unfold BitMatrix.BitMatrix_quant_align at h
  obtain ⟨_, _, h⟩ := bind_eq_ok h
  obtain ⟨m1, hm1, h⟩ := bind_eq_ok h
  have h1 := BitMatrix.Resize_meta hp _ m1 _ _ hm1
  have h2 := BitMatrix.Quantize_meta fu hp m1 m inp h
  exact h1.trans h2

/-- C22. For every source matrix and every `quant_bits >= 1`: every matrix the constructor
`BitMatrix(in, quant_bits, align_bits)` returns has the given `quant_bits` and `align_bits`
and `scale = 1 / (2 ^ quant_bits - 1)`, which is 1 for `quant_bits = 1` and `1 / 255` for
`quant_bits = 8`; every matrix `BitMatrix(in, bits)` returns has
`align_bits = quant_bits = bits` and `scale = 1 / (2 ^ bits - 1)`; and in a working memory
environment the constructors do return a matrix when `quant_bits <= align_bits <= 64` and
the source is empty or has a full group of columns in each of its rows. The arithmetic `fu`
of the quantizer is arbitrary. -/
theorem constructor_metadata (fu : FloatUnit) (h : Heap) (inp : MatrixBase) (qb ab : Int)
    (hq1 : 1 ≤ qb) :
    (∀ m, BitMatrix.BitMatrix_quant_align fu h inp qb ab = Except.ok m →
      m.QuantBits = qb ∧ m.AlignBits = ab ∧ m.Scale = 1 / ((2 : ℚ) ^ qb - 1) ∧
      (qb = 1 → m.Scale = 1) ∧ (qb = 8 → m.Scale = 1 / 255)) ∧
    (∀ m, BitMatrix.BitMatrix_in_bits fu h inp qb = Except.ok m →
      m.QuantBits = qb ∧ m.AlignBits = qb ∧ m.Scale = 1 / ((2 : ℚ) ^ qb - 1)) ∧
    (h.Ok → qb ≤ ab → ab ≤ 64 →
      ((inp.num_rows_ = 0 ∧ inp.num_cols_ / lanes ab = 0) ∨
        (0 < inp.num_rows_ ∧ 0 < inp.num_cols_ / lanes ab)) →
      ∃ m, BitMatrix.BitMatrix_quant_align fu h inp qb ab = Except.ok m) ∧
    (h.Ok → qb ≤ 64 →
      ((inp.num_rows_ = 0 ∧ inp.num_cols_ / lanes qb = 0) ∨
        (0 < inp.num_rows_ ∧ 0 < inp.num_cols_ / lanes qb)) →
      ∃ m, BitMatrix.BitMatrix_in_bits fu h inp qb = Except.ok m) := by
  simp only [BitMatrix.QuantBits, BitMatrix.AlignBits, BitMatrix.Scale]
  refine ⟨?_, ?_, ?_, ?_⟩
  · intro m hm
    obtain ⟨a1, a2, a3⟩ := BitMatrix.BitMatrix_quant_align_meta fu h inp qb ab m hm
    refine ⟨a1, a2, a3, ?_, ?_⟩
    · intro h1
      rw [a3, h1]; norm_num
    · intro h8
      rw [a3, h8]; norm_num
  · intro m hm
    exact BitMatrix.BitMatrix_quant_align_meta fu h inp qb qb m hm
  · intro hh hqa ha hshape
    obtain ⟨m, hm, _⟩ := BitMatrix.BitMatrix_quant_align_spec fu h hh inp qb ab (by omega) ha hqa
      hshape
    exact ⟨m, hm⟩
  · intro hh ha hshape
    obtain ⟨m, hm, _⟩ := BitMatrix.BitMatrix_quant_align_spec fu h hh inp qb qb (by omega) ha
      (le_refl _) hshape
    exact ⟨m, hm⟩

/-- Witness of C22: the 1 x 8 source `sourceRamp` quantized to 8 bits in 8-bit lanes gives a
matrix with `quant_bits = 8`, `align_bits = 8` and `scale = 1 / 255`. -/
theorem constructor_metadata_witness :
    ∃ m, BitMatrix.BitMatrix_quant_align FloatUnit.ieee heap16 sourceRamp 8 8 = Except.ok m ∧
      m.QuantBits = 8 ∧ m.AlignBits = 8 ∧ m.Scale = 1 / 255 := by
  have h := constructor_metadata FloatUnit.ieee heap16 sourceRamp 8 8 (by decide)
  obtain ⟨m, hm⟩ := h.2.2.1 heap16_ok (by decide) (by decide) (Or.inr (by decide))
  obtain ⟨a1, a2, _, _, a5⟩ := h.1 m hm
  exact ⟨m, hm, a1, a2, a5 rfl⟩

/-! ## C21: the binary layout -/

theorem wordsFrom_congr (w1 w2 : Nat → Nat) (n : Nat) (h : ∀ k, k < n → w1 k = w2 k) :
    wordsFrom w1 0 n = wordsFrom w2 0 n := by
  unfold wordsFrom
  apply List.map_congr_left
  intro k hk
  rw [List.mem_range'_1] at hk
  rw [h k (by omega)]

theorem wordsFrom_length (wl : Nat → Nat) (a n : Nat) : (wordsFrom wl a n).length = n := by
  simp [wordsFrom]

/-- C21. For every valid `BitMatrix`, `Write(binary = true)` appends to the stream, in this
order, the format tag `BM`, the row count, the column count, `<QuantBits>` and `quant_bits`,
`<AlignBits>` and `align_bits`, `<Scale>` and `scale`, and then exactly `NumRows * NumCols`
words, word `k` of them being `m(k / NumCols, k % NumCols)`: row-major, without the padding
of the stride. A second valid matrix with the same shape, metadata and words in range,
whatever its stride, is written to the same stream elements. -/
theorem Write_layout (m : BitMatrix) (hv : m.Valid) (os : List Item) :
    (m.Write true os = Except.ok (os ++
      [Item.token "BM", Item.int32 m.NumRows, Item.int32 m.NumCols,
       Item.token "<QuantBits>", Item.int32 m.QuantBits,
       Item.token "<AlignBits>", Item.int32 m.AlignBits,
       Item.token "<Scale>", Item.float m.Scale] ++
      (List.range (m.NumRows * m.NumCols)).map
        (fun k => Item.word (m.word (k / m.NumCols) (k % m.NumCols))))) ∧
    ((List.range (m.NumRows * m.NumCols)).map
        (fun k => Item.word (m.word (k / m.NumCols) (k % m.NumCols)))).length =
      m.NumRows * m.NumCols ∧
    ∀ m2 : BitMatrix, m2.Valid → m2.NumRows = m.NumRows → m2.NumCols = m.NumCols →
      m2.QuantBits = m.QuantBits → m2.AlignBits = m.AlignBits → m2.Scale = m.Scale →
      (∀ r c, r < m.NumRows → c < m.NumCols → m2.word r c = m.word r c) →
      m2.Write true os = m.Write true os := by
  simp only [BitMatrix.NumRows, BitMatrix.NumCols, BitMatrix.QuantBits, BitMatrix.AlignBits,
    BitMatrix.Scale]
  refine ⟨?_, by simp, ?_⟩
  · rw [Write_binary_onto m hv os, List.range_eq_range']
    rfl
  · intro m2 hv2 e1 e2 e3 e4 e5 hw
    rw [Write_binary_onto m hv os, Write_binary_onto m2 hv2 os, e1, e2, e3, e4, e5]
    congr 2
    apply wordsFrom_congr
    intro k hk
    have hc : 0 < m.num_cols_ := by
      rcases Nat.eq_zero_or_pos m.num_cols_ with h0 | h0
      · rw [h0, Nat.mul_zero] at hk; omega
      · exact h0
    unfold rowMajor
    rw [e2]
    exact hw _ _ (Nat.div_lt_of_lt_mul (by rw [Nat.mul_comm]; exact hk)) (Nat.mod_lt _ hc)

/-- Witness of C21: the one-word matrix `rampBits` (stride 2, written row by row) and the same
word stored with stride 1 (written as one block) give the same stream. -/
theorem Write_layout_witness :
    rampBits.Write true [] = Except.ok
      [Item.token "BM", Item.int32 1, Item.int32 1, Item.token "<QuantBits>", Item.int32 8,
       Item.token "<AlignBits>", Item.int32 8, Item.token "<Scale>", Item.float (1 / 255),
       Item.word 283686952306183] ∧
    rampBits.Stride ≠ rampBits.NumCols ∧ rampPacked.Stride = rampPacked.NumCols ∧
    rampPacked.Write true [] = rampBits.Write true [] := by
  have h := Write_layout rampBits (by decide) []
  refine ⟨h.1, by decide, rfl, ?_⟩
  exact h.2.2 rampPacked (by decide) rfl rfl rfl rfl rfl (fun r c _ _ => rfl)

/-! ## The kernel on arbitrary magnitude words -/

theorem byteLane_lt (x i : Nat) : byteLane x i < 256 := Nat.mod_lt _ (by norm_num)

theorem packN_byteLane (x : Nat) : packN (byteLane x) 8 = x % 2 ^ 64 := by
  simp only [packN, byteLane, Finset.sum_range_succ, Finset.sum_range_zero]
  norm_num
  omega

theorem popcountll_land_mod (x w : Nat) :
    popcountll (x % 2 ^ 64 &&& w) = popcountll (x &&& w) := by
  simp only [popcountll_eq_sum]
  refine Finset.sum_congr rfl (fun j hj => ?_)
  rw [Finset.mem_range] at hj
  have e : (x % 2 ^ 64).testBit j = x.testBit j := by
    rw [Nat.testBit_mod_two_pow]
    simp [hj]
  rw [Nat.testBit_land, Nat.testBit_land, e]

theorem kernel_mod (x y : Nat) :
    bit_kernel_for_uint64_8_1 (x % 2 ^ 64) y = bit_kernel_for_uint64_8_1 x y := by
  rw [kernel_eq_raw, kernel_eq_raw]
  refine Finset.sum_congr rfl (fun b _ => ?_)
  unfold planeDiff
  rw [popcountll_land_mod, popcountll_land_mod]

theorem testBit_one (k : Nat) : Nat.testBit 1 k = decide (k = 0) := by
  have h : (2 ^ 0).testBit k = decide (0 = k) := Nat.testBit_two_pow
  rw [Nat.pow_zero] at h
  rw [h]
  by_cases hk : k = 0
  · simp [hk]
  · have : ¬ 0 = k := fun h0 => hk h0.symm
    simp [hk, this]

theorem testBit_mask (j : Nat) : mask_8_1.testBit j = (decide (j < 64) && decide (j % 8 = 0)) := by
  rw [mask_8_1_eq, testBit_packN _ (fun _ => by norm_num)]
  by_cases hj : j < 64
  · have h8 : j % 8 < 8 := Nat.mod_lt _ (by norm_num)
    simp only [hj, decide_True, Bool.true_and, show j < 8 * 8 from hj]
    exact testBit_one _
  · have : ¬ j < 8 * 8 := hj
    simp [hj, this]

/-- A sign word, one that has no bit outside the mask, is the packing of its sign flags. -/
theorem sign_word_packN (y : Nat) (hy64 : y < 2 ^ 64) (hy : y &&& not64 mask_8_1 = 0) :
    y = packN (signLane (signFlag y)) 8 := by
  apply Nat.eq_of_testBit_eq
  intro j
  rw [testBit_packN _ (signLane_lt _)]
  have hbit : (y &&& not64 mask_8_1).testBit j = false := by rw [hy]; simp
  rw [Nat.testBit_land, testBit_not64, testBit_mask] at hbit
  by_cases hj : j < 64
  · have hj8 : j < 8 * 8 := hj
    simp only [hj, decide_True, Bool.true_and] at hbit
    simp only [hj8, decide_True, Bool.true_and]
    unfold signLane signFlag
    by_cases h0 : j % 8 = 0
    · have e : 8 * (j / 8) = j := by omega
      rw [e, h0]
      cases y.testBit j <;> simp
    · simp only [h0, decide_False, Bool.not_false, Bool.and_true] at hbit
      rw [hbit]
      have hlt : j % 8 < 8 := Nat.mod_lt _ (by norm_num)
      cases y.testBit (8 * (j / 8))
      · simp
      · simp only [if_true]
        rw [testBit_one]
        simp [h0]
  · have hj8 : ¬ j < 8 * 8 := hj
    have hlt : y < 2 ^ j := lt_of_lt_of_le hy64 (Nat.pow_le_pow_right (by norm_num) (by omega))
    simp [hj8, Nat.testBit_lt_two_pow hlt]

/-- The kernel on an arbitrary magnitude word and a sign word: the signed sum of the byte
lanes of the magnitude word. -/
theorem kernel_bytes (x y : Nat) (hy64 : y < 2 ^ 64) (hy : y &&& not64 mask_8_1 = 0) :
    bit_kernel_for_uint64_8_1 x y =
      ∑ i in Finset.range 8, (byteLane x i : Int) * (if signFlag y i then 1 else -1) := by
  rw [← kernel_mod, ← packN_byteLane]
  conv_lhs => rw [sign_word_packN y hy64 hy]
  exact kernel_packN (byteLane x) (byteLane_lt x) (signFlag y)

/-! ## C29, C30: bounds and antisymmetry of the kernel -/

/-- The kernel on a sign word lies between `-2040` and `2040`. -/
theorem kernel_sign_bounds (x y : Nat) (hy64 : y < 2 ^ 64) (hy : y &&& not64 mask_8_1 = 0) :
    -2040 ≤ bit_kernel_for_uint64_8_1 x y ∧ bit_kernel_for_uint64_8_1 x y ≤ 2040 := by
  rw [kernel_bytes x y hy64 hy]
  have hterm : ∀ i ∈ Finset.range 8,
      (-255 : Int) ≤ (byteLane x i : Int) * (if signFlag y i then 1 else -1) ∧
      (byteLane x i : Int) * (if signFlag y i then 1 else -1) ≤ 255 := by
    intro i _
    have h := byteLane_lt x i
    split <;> omega
  constructor
  · have h := Finset.sum_le_sum (fun i hi => (hterm i hi).1)
    simp only [Finset.sum_const, Finset.card_range, nsmul_eq_mul] at h
    have h8 : ((8 : Nat) : Int) = 8 := rfl
    rw [h8] at h
    linarith
  · have h := Finset.sum_le_sum (fun i hi => (hterm i hi).2)
    simp only [Finset.sum_const, Finset.card_range, nsmul_eq_mul] at h
    have h8 : ((8 : Nat) : Int) = 8 := rfl
    rw [h8] at h
    linarith

theorem vecSum_sign_bounds (f g : Nat → Nat) (n : Nat)
    (hs : ∀ k, k < n → g k < 2 ^ 64 ∧ g k &&& not64 mask_8_1 = 0) :
    -(2040 * (n : Int)) ≤ vecSum f g n ∧ vecSum f g n ≤ 2040 * (n : Int) := by
  induction n with
  | zero => simp [vecSum]
  | succ n ih =>
    have h := kernel_sign_bounds (f n) (g n) (hs n (Nat.lt_succ_self n)).1
      (hs n (Nat.lt_succ_self n)).2
    have e : vecSum f g (n + 1) = vecSum f g n + bit_kernel_for_uint64_8_1 (f n) (g n) := by
      simp [vecSum, Finset.sum_range_succ]
    have ih1 := ih (fun k hk => hs k (Nat.lt_succ_of_lt hk))
    rw [e]
    push_cast
    omega

/-- C29. For every word `x` and every sign word `y` (no bit outside `0x0101010101010101`)
the kernel lies in `[-2040, 2040]`. Hence for two views of equal dimension `d <= 1052688`
whose second operand has `QuantBits() = 1` and holds sign words, every partial sum of the
kernel values fits the `int32` accumulator, and `VecVec` returns the exact sum, of absolute
value at most `2040 * d`. -/
theorem accumulator_safe (x y : BitVector) (f g : Nat → Nat) (hx : x.data_ = some f)
    (hy : y.data_ = some g) (hd : x.Dim = y.Dim) (hq : y.QuantBits = 1)
    (hs : ∀ k, k < x.Dim → g k < 2 ^ 64 ∧ g k &&& not64 mask_8_1 = 0)
    (hdim : x.Dim ≤ 1052688) :
    (∀ w s : Nat, s < 2 ^ 64 → s &&& not64 mask_8_1 = 0 →
      -2040 ≤ bit_kernel_for_uint64_8_1 w s ∧ bit_kernel_for_uint64_8_1 w s ≤ 2040) ∧
    (∀ n, n ≤ x.Dim → -2147483648 ≤ vecSum f g n ∧ vecSum f g n < 2147483648) ∧
    ∃ v, VecVec x y = Except.ok v ∧ v = vecSum f g x.Dim ∧
      -(2040 * (x.Dim : Int)) ≤ v ∧ v ≤ 2040 * (x.Dim : Int) := by
  simp only [BitVector.Dim, BitVector.QuantBits] at hd hq hs hdim ⊢
  have hfit : ∀ n, n ≤ x.dim_ → -2147483648 ≤ vecSum f g n ∧ vecSum f g n < 2147483648 := by
    intro n hn
    have hb := vecSum_sign_bounds f g n (fun k hk => hs k (by omega))
    have hn1 : (n : Int) ≤ 1052688 := by exact_mod_cast (le_trans hn hdim)
    constructor <;> omega
  refine ⟨fun w s h1 h2 => kernel_sign_bounds w s h1 h2, hfit, vecSum f g x.dim_, ?_, rfl,
    vecSum_sign_bounds f g x.dim_ hs⟩
  rw [VecVec_spec x y f g hx hy hd, if_pos hq,
    toInt32_of_range _ (hfit _ (Nat.le_refl _)).1 (hfit _ (Nat.le_refl _)).2]

/-- Witness of C29: three words of all lanes 255 against three sign words of all flags set
give 6120, three times the bound 2040. -/
theorem accumulator_safe_witness :
    VecVec (constView 3 18446744073709551615 8) (constView 3 mask_8_1 1) = Except.ok 6120 := by
  obtain ⟨_, _, v, hv, hv1, _⟩ := accumulator_safe (constView 3 18446744073709551615 8)
    (constView 3 mask_8_1 1) (fun _ => 18446744073709551615) (fun _ => mask_8_1) rfl rfl rfl rfl
    (fun _ _ => (by decide : mask_8_1 < 2 ^ 64 ∧ mask_8_1 &&& not64 mask_8_1 = 0)) (by decide)
  rw [hv, hv1, vecSum_const]
  have : bit_kernel_for_uint64_8_1 18446744073709551615 mask_8_1 = 2040 := by decide
  rw [this]
  rfl

/-- C30. With `M = 0x0101010101010101`: for every word `x` and every sign word `y` (no bit
outside `M`), the kernel at `(~y) & M` is the negation of the kernel at `y`; the kernel at
`M` is the sum of the eight byte lanes of `x`, and the kernel at 0 is its negation. -/
theorem kernel_antisymmetry (x y : Nat) (hy64 : y < 2 ^ 64) (hy : y &&& not64 mask_8_1 = 0) :
    bit_kernel_for_uint64_8_1 x (not64 y &&& mask_8_1) = -bit_kernel_for_uint64_8_1 x y ∧
    bit_kernel_for_uint64_8_1 x mask_8_1 = (byteSum x : Int) ∧
    bit_kernel_for_uint64_8_1 x 0 = -(byteSum x : Int) := by
  have hk : ∀ sg : Nat → Bool, bit_kernel_for_uint64_8_1 x (packN (signLane sg) 8) =
      ∑ i in Finset.range 8, (byteLane x i : Int) * (if sg i then 1 else -1) := by
    intro sg
    rw [← kernel_mod, ← packN_byteLane]
    exact kernel_packN (byteLane x) (byteLane_lt x) sg
  have hM : mask_8_1 = packN (signLane (fun _ => true)) 8 := by
    rw [mask_8_1_eq]; rfl
  have h0 : (0 : Nat) = packN (signLane (fun _ => false)) 8 := by
    simp [packN, signLane]
  refine ⟨?_, ?_, ?_⟩
  · have e := sign_word_packN y hy64 hy
    have e1 : not64 y &&& mask_8_1 = packN (signLane (fun i => !signFlag y i)) 8 := by
      conv_lhs => rw [e]
      exact not64_sign (signFlag y)
    rw [e1, hk]
    conv_rhs => rw [e, hk]
    rw [← Finset.sum_neg_distrib]
    refine Finset.sum_congr rfl (fun i _ => ?_)
    cases signFlag y i <;> simp
  · rw [hM, hk]
    simp [byteSum]
  · rw [h0, hk]
    simp [byteSum]

/-- Witness of C30: for the ramp word `0x0001020304050607` and the sign word with the flags
of lanes 0 and 1 set, the kernel is -2 and at the complemented flags 2; at the full mask
it is the byte sum 28. -/
theorem kernel_antisymmetry_witness :
    bit_kernel_for_uint64_8_1 283686952306183 257 = -2 ∧
    bit_kernel_for_uint64_8_1 283686952306183 (not64 257 &&& mask_8_1) = 2 ∧
    bit_kernel_for_uint64_8_1 283686952306183 mask_8_1 = 28 := by
  have h := kernel_antisymmetry 283686952306183 257 (by decide) (by decide)
  have hv : bit_kernel_for_uint64_8_1 283686952306183 257 = -2 := by decide
  refine ⟨hv, ?_, ?_⟩
  · rw [h.1, hv]; rfl
  · rw [h.2.1]; decide

/-! ## C32: sources narrower than one word -/

/-- `Resize` to a shape with a zero dimension, from a different shape, in any memory
environment: the empty state, with the metadata kept. -/
theorem BitMatrix.Resize_zero (h : Heap) (m : BitMatrix) (rows cols : Nat)
    (hne : m.num_rows_ ≠ rows ∨ m.num_cols_ ≠ cols) (hz : rows = 0 ∨ cols = 0) :
    ∃ m1, m.Resize h rows cols = Except.ok m1 ∧ m1.Valid ∧ m1.num_rows_ = 0 ∧
      m1.num_cols_ = 0 ∧ m1.quant_bits_ = m.quant_bits_ ∧ m1.align_bits_ = m.align_bits_ := by
  rw [BitMatrix.Resize_ne h m rows cols hne]
  obtain ⟨m1, hm1, hv1, a1, a2, a3, a4, a5⟩ := BitMatrix.Allocate_zero h
    (if m.data_.isSome then m.ReleaseBitMatrixMemory else m) rows cols hz
  refine ⟨m1, hm1, hv1, a1, a2, ?_, ?_⟩
  · rw [a4]; split <;> rfl
  · rw [a5]; split <;> rfl

/-- C32. For every source with `NumRows > 0` and `0 < NumCols < 64 / align_bits`, in any
memory environment: the `Resize` of the quantizing constructors yields the empty 0 x 0
state, `Quantize` on that state fails with an assertion (its shape assertion, after a second
`Resize` to the same empty state), and so both constructors fail with an assertion and
produce no matrix. The arithmetic `fu` of the quantizer is arbitrary. -/
theorem narrow_source_fails (fu : FloatUnit) (h : Heap) (inp : MatrixBase) (qb ab : Int)
    (ha0 : 0 < ab)
    (hr : 0 < inp.num_rows_) (hc0 : 0 < inp.num_cols_) (hc : inp.num_cols_ < 64 / ab.toNat) :
    (∃ m1, (BitMatrix.ctorState qb ab).Resize h inp.num_rows_
        ((inp.num_cols_ / (64 / ab.toNat) : Nat) : Int) = Except.ok m1 ∧
      m1.NumRows = 0 ∧ m1.NumCols = 0 ∧
      m1.Quantize fu h inp = Except.error Failure.assertion) ∧
    BitMatrix.BitMatrix_quant_align fu h inp qb ab = Except.error Failure.assertion ∧
    BitMatrix.BitMatrix_in_bits fu h inp ab = Except.error Failure.assertion := by
  have ha1 : ab ≤ 64 := by
    by_contra hgt
    have : 64 / ab.toNat = 0 := Nat.div_eq_of_lt (by omega)
    omega
  have hdiv : inp.num_cols_ / lanes ab = 0 := Nat.div_eq_of_lt hc
  have hq : ∀ m1 : BitMatrix, m1.Valid → m1.num_rows_ = 0 → m1.align_bits_ = ab →
      m1.Quantize fu h inp = Except.error Failure.assertion := by
    intro m1 hv1 h0 hab
    obtain ⟨m2, hm2, _, b1, b2, _, _⟩ := BitMatrix.Resize_zero h m1 inp.num_rows_ 0
      (Or.inl (by omega)) (Or.inr rfl)
    have hs : ¬ (m2.num_rows_ = inp.num_rows_ ∧ m2.num_cols_ = 0) := by omega
    have hcond : m1.num_rows_ ≠ inp.num_rows_ ∨ m1.num_cols_ ≠ 0 := Or.inl (by omega)
    unfold BitMatrix.Quantize
    rw [hab, assert_ok _ ha0, bind_ok, BitMatrix.wordsPerRow_ok ab ha0 ha1, bind_ok, hdiv,
      if_pos hcond, hm2, bind_ok, assert_fail _ hs, bind_error]
  have hctor : ∀ q : Int, ∃ m1, (BitMatrix.ctorState q ab).Resize h inp.num_rows_
        ((inp.num_cols_ / (64 / ab.toNat) : Nat) : Int) = Except.ok m1 ∧
      m1.NumRows = 0 ∧ m1.NumCols = 0 ∧
      m1.Quantize fu h inp = Except.error Failure.assertion := by
    intro q
    have hd : inp.num_cols_ / (64 / ab.toNat) = 0 := hdiv
    rw [hd]
    obtain ⟨m1, hm1, hv1, a1, a2, _, a4⟩ := BitMatrix.Resize_zero h (BitMatrix.ctorState q ab)
      inp.num_rows_ 0 (Or.inl (by show (0 : Nat) ≠ inp.num_rows_; omega)) (Or.inr rfl)
    exact ⟨m1, hm1, a1, a2, hq m1 hv1 a1 a4⟩
  have hfail : ∀ q : Int,
      BitMatrix.BitMatrix_quant_align fu h inp q ab = Except.error Failure.assertion := by
    intro q
    obtain ⟨m1, hm1, _, _, hq1⟩ := hctor q
    unfold BitMatrix.BitMatrix_quant_align
    rw [BitMatrix.wordsPerRow_ok ab ha0 ha1, bind_ok]
    have hm1a : (BitMatrix.ctorState q ab).Resize h inp.num_rows_
        ((inp.num_cols_ / lanes ab : Nat) : Int) = Except.ok m1 := hm1
    rw [hm1a, bind_ok]
    exact hq1
  exact ⟨hctor qb, hfail qb, hfail ab⟩

/-- Witness of C32: a 2 x 3 source with 8-bit lanes (eight lanes per word). -/
theorem narrow_source_fails_witness :
    BitMatrix.BitMatrix_quant_align FloatUnit.ieee heap16 narrowSource 8 8 =
      Except.error Failure.assertion ∧
    BitMatrix.BitMatrix_in_bits FloatUnit.ieee heap16 narrowSource 8 =
      Except.error Failure.assertion :=
  (narrow_source_fails FloatUnit.ieee heap16 narrowSource 8 8 (by decide) (by decide) (by decide)
    (by decide)).2

/-! ## C34: what VecVec depends on -/

theorem vecSum_congr (f g f2 g2 : Nat → Nat) (n : Nat) (hf : ∀ k, k < n → f2 k = f k)
    (hg : ∀ k, k < n → g2 k = g k) : vecSum f2 g2 n = vecSum f g n := by
  unfold vecSum
  refine Finset.sum_congr rfl (fun k hk => ?_)
  rw [Finset.mem_range] at hk
  rw [hf k hk, hg k hk]

/-- C34. Two calls of `VecVec` on views over present buffers, with the same dimension, the
same words in the first operands, the same words in the second operands, and second operands
that agree on whether `QuantBits()` is 1, return the same result and do not fail, whatever
the `quant_bits` of the first operands and the `align_bits` and scale fields of all four
views are. -/
theorem VecVec_noninterference (x y x2 y2 : BitVector) (f g f2 g2 : Nat → Nat)
    (hx : x.data_ = some f) (hy : y.data_ = some g) (hx2 : x2.data_ = some f2)
    (hy2 : y2.data_ = some g2) (hd : x.Dim = y.Dim) (hdx : x2.Dim = x.Dim)
    (hdy : y2.Dim = y.Dim) (hwx : ∀ k, k < x.Dim → f2 k = f k)
    (hwy : ∀ k, k < x.Dim → g2 k = g k) (hq : y.QuantBits = 1 ↔ y2.QuantBits = 1) :
    VecVec x2 y2 = VecVec x y ∧ ∃ v, VecVec x y = Except.ok v := by
  simp only [BitVector.Dim, BitVector.QuantBits] at hd hdx hdy hwx hwy hq
  rw [VecVec_spec x y f g hx hy hd, VecVec_spec x2 y2 f2 g2 hx2 hy2 (by omega)]
  refine ⟨?_, _, rfl⟩
  by_cases h1 : y.quant_bits_ = 1
  · rw [if_pos h1, if_pos (hq.mp h1), hdx, vecSum_congr f g f2 g2 x.dim_ hwx hwy]
  · rw [if_neg h1, if_neg (fun h2 => h1 (hq.mpr h2))]

/-- Witness of C34: views of three words, once as an 8-bit operand with 8-bit lanes against
a sign operand, once with 5 quantization bits, 16-bit lanes and other scale fields: both give
6120. -/
theorem VecVec_noninterference_witness :
    VecVec (plainView 3 18446744073709551615 5 16 7) (plainView 3 mask_8_1 1 64 3) =
      VecVec (constView 3 18446744073709551615 8) (constView 3 mask_8_1 1) ∧
    VecVec (constView 3 18446744073709551615 8) (constView 3 mask_8_1 1) = Except.ok 6120 := by
  have h := VecVec_noninterference (constView 3 18446744073709551615 8) (constView 3 mask_8_1 1)
    (plainView 3 18446744073709551615 5 16 7) (plainView 3 mask_8_1 1 64 3)
    (fun _ => 18446744073709551615) (fun _ => mask_8_1) (fun _ => 18446744073709551615)
    (fun _ => mask_8_1) rfl rfl rfl rfl rfl rfl rfl (fun _ _ => rfl) (fun _ _ => rfl)
    ⟨fun _ => rfl, fun _ => rfl⟩
  refine ⟨h.1, ?_⟩
  rw [VecVec_spec (constView 3 18446744073709551615 8) (constView 3 mask_8_1 1)
    (fun _ => 18446744073709551615) (fun _ => mask_8_1) rfl rfl rfl]
  show Except.ok (if (1 : Int) = 1 then
    toInt32 (vecSum (fun _ => 18446744073709551615) (fun _ => mask_8_1) 3) else 0) = _
  rw [if_pos rfl, vecSum_const]
  have : bit_kernel_for_uint64_8_1 18446744073709551615 mask_8_1 = 2040 := by decide
  rw [this]
  rfl

/-! ## C31: one lane per word -/

/-- The word stored for a source value in `[0, 1]` with one lane per word and
`1 ≤ quant_bits ≤ 30`, in either arithmetic: the rounded value itself. -/
theorem word_one_lane_unit (fu : FloatUnit) (qb : Int) (hq1 : 1 ≤ qb) (hq30 : qb ≤ 30) (x : ℚ)
    (h0 : 0 ≤ x) (h1 : x ≤ 1) :
    ((toUInt64 (laneSum (64 : Int).toNat
      (fun _ => (BitMatrix.ctorState qb 64).quantize fu x) 1) : Nat) : ℚ) =
      (quantValue fu qb x : ℚ) := by
  obtain ⟨b0, b1, _, _⟩ := quantValue_unit fu qb x hq1 hq30 h0 h1
  have hpi : (2 : Int) ^ qb.toNat ≤ 2 ^ 30 := pow_le_pow_right₀ (by norm_num) (by omega)
  have e1 : (BitMatrix.ctorState qb 64).quantize fu x = quantValue fu qb x := by
    show toInt32 (quantValue fu qb x) = quantValue fu qb x
    exact toInt32_of_range _ (by omega) (by omega)
  rw [laneSum_one, e1, toUInt64_of_range _ b0 (by omega)]
  have : ((quantValue fu qb x).toNat : Int) = quantValue fu qb x := Int.toNat_of_nonneg b0
  exact_mod_cast this

/-- C31 (amended). In a working memory environment and in either arithmetic `fu`, with
`align_bits = 64` (one lane per word) and `2 <= quant_bits <= 30`, for every source `A` with
entries in `[0, 1]`: the constructor followed by `ToMatrix` into an output of the shape of
`A` succeeds, and every element of the result differs from the element of `A` by at most
`1 / (2 * (2 ^ quant_bits - 1)) + 2 ^ (-23)`, the second term bounding the rounding of the
product in the quantizer (the product of `ToMatrix` is taken exactly). -/
theorem one_lane_roundtrip (fu : FloatUnit) (h : Heap) (hh : h.Ok) (A out : MatrixBase)
    (qb : Int) (hA : A.Valid) (hq2 : 2 ≤ qb) (hq30 : qb ≤ 30)
    (hunit : ∀ r c, r < A.num_rows_ → c < A.num_cols_ → 0 ≤ A.elem r c ∧ A.elem r c ≤ 1)
    (hor : out.num_rows_ = A.num_rows_) (hoc : out.num_cols_ = A.num_cols_) :
    ∃ m o, BitMatrix.BitMatrix_quant_align fu h A qb 64 = Except.ok m ∧
      m.ToMatrix out = Except.ok o ∧
      o.num_rows_ = A.num_rows_ ∧ o.num_cols_ = A.num_cols_ ∧
      ∀ r c, r < A.num_rows_ → c < A.num_cols_ →
        |o.elem r c - A.elem r c| ≤ 1 / (2 * ((2 : ℚ) ^ qb - 1)) + 1 / 2 ^ 23 := by
  have hshape : (A.num_rows_ = 0 ∧ A.num_cols_ / lanes 64 = 0) ∨
      (0 < A.num_rows_ ∧ 0 < A.num_cols_ / lanes 64) := by
    rw [lanes_64_cols]
    unfold MatrixBase.Valid at hA
    omega
  obtain ⟨m, hm, hv, d1, d2, d3, d4, d5, hw⟩ :=
    BitMatrix.BitMatrix_quant_align_spec fu h hh A qb 64 (by norm_num) (by norm_num) (by omega)
      hshape
  rw [lanes_64_cols] at d2
  obtain ⟨o, ho, e1, e2, e3, _⟩ := BitMatrix.ToMatrix_spec m out hv (by omega) (by omega)
  refine ⟨m, o, hm, ho, e1.trans hor, e2.trans hoc, ?_⟩
  intro r c hr hc
  have hu := hunit r c hr hc
  have hne : ¬ (m.quant_bits_ = 1) := by omega
  rw [e3 r c (by omega) (by omega), if_neg hne, hw r c (by omega) (by omega), lanes_64, d3]
  have hword := word_one_lane_unit fu qb (by omega) hq30 (A.elem r c) hu.1 hu.2
  rw [laneSum_one] at hword ⊢
  rw [Nat.mul_one, Nat.add_zero, hword]
  have hN : (3 : ℚ) ≤ (2 : ℚ) ^ qb - 1 := by
    rw [two_zpow_sub_one qb (by omega)]
    have h4 : 2 ^ 2 ≤ 2 ^ qb.toNat := Nat.pow_le_pow_right (by norm_num) (by omega)
    have h5 : 3 ≤ 2 ^ qb.toNat - 1 := by omega
    exact_mod_cast h5
  have hNpos : (0 : ℚ) < (2 : ℚ) ^ qb - 1 := by linarith
  have herr := (quantValue_unit fu qb (A.elem r c) (by omega) hq30 hu.1 hu.2).2.2.2
  have key : (quantValue fu qb (A.elem r c) : ℚ) * (1 / ((2 : ℚ) ^ qb - 1)) -
      A.elem r c = ((quantValue fu qb (A.elem r c) : ℚ) -
        A.elem r c * ((2 : ℚ) ^ qb - 1)) / ((2 : ℚ) ^ qb - 1) := by
    have hne0 : (2 : ℚ) ^ qb - 1 ≠ 0 := ne_of_gt hNpos
    field_simp
    ring
  have hbound : (1 : ℚ) / (2 * ((2 : ℚ) ^ qb - 1)) + 1 / 2 ^ 23 =
      (1 / 2 + ((2 : ℚ) ^ qb - 1) / 2 ^ 23) / ((2 : ℚ) ^ qb - 1) := by
    have hne0 : (2 : ℚ) ^ qb - 1 ≠ 0 := ne_of_gt hNpos
    field_simp
    ring
  rw [key, abs_div, abs_of_pos hNpos, hbound]
  exact div_le_div_of_nonneg_right herr (le_of_lt hNpos)

/-- The quantizer of the machine at the source value 1 with 31 bits: the factor
`2 ^ 31 - 1` is not a `float`, and the nearest one is `2 ^ 31`. -/
theorem quantValue_one_31 : quantValue FloatUnit.ieee 31 1 = 2147483648 := by
  have h1 : (2 : ℚ) ^ (30 : Int) ≤ |(2147483647 : ℚ)| := by
    rw [abs_of_pos (by norm_num)]; norm_num
  have h2 : |(2147483647 : ℚ)| < (2 : ℚ) ^ ((30 : Int) + 1) := by
    rw [abs_of_pos (by norm_num)]; norm_num
  have hd : FloatUnit.ieee.toDouble ((2147483647 : Int) : ℚ) = ((2147483647 : Int) : ℚ) :=
    FloatUnit.toDouble_intCast _ _ (by norm_num)
  have hf : FloatUnit.ieee.toFloat (2147483647 : ℚ) = 2147483648 := by
    show roundToPrecision 24 (2147483647 : ℚ) = 2147483648
    rw [roundToPrecision_of_binade 24 _ 30 h1 h2]
    have e : (2147483647 : ℚ) / (2 : ℚ) ^ ((30 : Int) - ((24 : Nat) : Int) + 1) =
        2147483647 / 128 := by norm_num
    rw [e, roundEven_up (2147483647 / 128) 16777215 (by norm_num) (by norm_num)]
    norm_num
  unfold quantValue
  rw [toDouble_factor _ 31 (by norm_num) (by norm_num)]
  have e : (1 : ℚ) * ((2 : ℚ) ^ (31 : Int) - 1) = ((2147483647 : Int) : ℚ) := by norm_num
  rw [e, hd]
  have e2 : ((2147483647 : Int) : ℚ) = 2147483647 := by norm_num
  rw [e2, hf]
  have e3 : (2147483648 : ℚ) = ((2147483648 : Int) : ℚ) := by norm_num
  rw [e3, roundf_intCast]

/-- C31 (counterexample). With the arithmetic of the machine, `quant_bits = 31`, one 64-bit
lane and the 1 x 1 source holding 1: the factor `2 ^ 31 - 1` is narrowed to the `float`
`2 ^ 31`, whose conversion to `int32` gives `-2 ^ 31`; the stored word is `2 ^ 64 - 2 ^ 31`
and `ToMatrix` writes `(2 ^ 64 - 2 ^ 31) / (2 ^ 31 - 1)`, about `2 ^ 33`, which is not
within `1 / (2 * (2 ^ 31 - 1))` of 1. -/
theorem one_lane_roundtrip_counterexample :
    (0 ≤ (allOnes 1 1).elem 0 0 ∧ (allOnes 1 1).elem 0 0 ≤ 1) ∧
    ∃ m o, BitMatrix.BitMatrix_quant_align FloatUnit.ieee heap16 (allOnes 1 1) 31 64 =
        Except.ok m ∧
      m.get 0 0 = Except.ok 18446744071562067968 ∧
      m.ToMatrix oneCell = Except.ok o ∧
      o.elem 0 0 = 18446744071562067968 / 2147483647 ∧
      ¬ (|o.elem 0 0 - (allOnes 1 1).elem 0 0| ≤ 1 / (2 * ((2 : ℚ) ^ (31 : Int) - 1))) := by
  refine ⟨⟨by norm_num [allOnes], by norm_num [allOnes]⟩, ?_⟩
  obtain ⟨m, hm, hv, d1, d2, d3, d4, d5, hw⟩ :=
    BitMatrix.BitMatrix_quant_align_spec FloatUnit.ieee heap16 heap16_ok (allOnes 1 1) 31 64
      (by decide) (by decide) (by decide) (Or.inr (by decide))
  have hr : m.num_rows_ = 1 := d1
  have hc : m.num_cols_ = 1 := by rw [d2]; decide
  have hword : m.word 0 0 = 18446744071562067968 := by
    rw [hw 0 0 (by omega) (by omega), lanes_64, laneSum_one, BitMatrix.quantize_eq]
    show toUInt64 (toInt32 (quantValue FloatUnit.ieee 31 1)) = _
    rw [quantValue_one_31]
    rfl
  obtain ⟨o, ho, _, _, e3, _⟩ := BitMatrix.ToMatrix_spec m oneCell hv
    (by rw [hr]; decide) (by rw [hc]; decide)
  have hne : ¬ (m.quant_bits_ = 1) := by rw [d4]; decide
  have hval : o.elem 0 0 = 18446744071562067968 / 2147483647 := by
    rw [e3 0 0 (by omega) (by omega), if_neg hne, hword, d3]
    norm_num
  refine ⟨m, o, hm, ?_, ho, hval, ?_⟩
  · have hg := BitMatrix.get_eq_word m hv 0 0 (by omega) (by omega)
    simp only [Nat.cast_zero] at hg
    rw [hg, hword]
  · rw [hval]
    show ¬ (|(18446744071562067968 / 2147483647 : ℚ) - 1| ≤
      1 / (2 * ((2 : ℚ) ^ (31 : Int) - 1)))
    rw [abs_of_pos (by norm_num)]
    norm_num

/-- Witness of C31 (amended): with the arithmetic of the machine, the 1 x 2 source holding 0
and 1, with 8 quantization bits and one lane per word. -/
theorem one_lane_roundtrip_witness :
    ∃ m o, BitMatrix.BitMatrix_quant_align FloatUnit.ieee heap16 sourceEnds 8 64 =
        Except.ok m ∧
      m.ToMatrix rowOfTwo = Except.ok o ∧
      |o.elem 0 1 - 1| ≤ 1 / (2 * ((2 : ℚ) ^ (8 : Int) - 1)) + 1 / 2 ^ 23 := by
  obtain ⟨m, o, hm, ho, _, _, hb⟩ := one_lane_roundtrip FloatUnit.ieee heap16 heap16_ok
    sourceEnds rowOfTwo 8
    (by show ((1 : Nat) = 0 ↔ (2 : Nat) = 0); decide) (by decide) (by decide)
    (fun r c _ _ => by
      show (0 : ℚ) ≤ (if c = 0 then 0 else 1) ∧ (if c = 0 then (0 : ℚ) else 1) ≤ 1
      split <;> norm_num)
    rfl rfl
  exact ⟨m, o, hm, ho, hb 0 1 (by decide) (by decide)⟩

/-! ## C33: the product stored in a bit matrix -/

theorem toInt32_range (v : Int) : -2147483648 ≤ toInt32 v ∧ toInt32 v < 2147483648 := by
  unfold toInt32; omega

theorem toInt64_toUInt64 (v : Int) (h1 : -9223372036854775808 ≤ v)
    (h2 : v < 9223372036854775808) : toInt64 (toUInt64 v) = v := by
  have hc := toUInt64_cast v
  have hlt := toUInt64_lt v
  have hm : toUInt64 v % 2 ^ 64 = toUInt64 v := Nat.mod_eq_of_lt hlt
  unfold toInt64
  rw [hm]
  split <;> omega

theorem cellValue_range (x y : BitMatrix) (r c : Nat) :
    -2147483648 ≤ cellValue x y r c ∧ cellValue x y r c < 2147483648 := by
  unfold cellValue
  split
  · exact toInt32_range _
  · constructor <;> norm_num

/-- The dot product of two row views, for any quantization width of the second operand. -/
theorem VecVec_rowViews (x y : BitMatrix) (f g : Nat → Nat) (hf : x.data_ = some f)
    (hg : y.data_ = some g) (r c : Nat) (hcols : x.num_cols_ = y.num_cols_) :
    VecVec (x.rowView f r) (y.rowView g c) = Except.ok (cellValue x y r c) := by
  have e : vecSum (fun k => f (r * x.stride_ + k)) (fun k => g (c * y.stride_ + k))
      x.num_cols_ = kernelSum x y r c x.num_cols_ := by
    unfold vecSum kernelSum BitMatrix.word
    rw [hf, hg]
  have h := VecVec_spec (x.rowView f r) (y.rowView g c) (fun k => f (r * x.stride_ + k))
    (fun k => g (c * y.stride_ + k)) rfl rfl hcols
  rw [h]
  show Except.ok (if y.quant_bits_ = 1 then
    toInt32 (vecSum (fun k => f (r * x.stride_ + k)) (fun k => g (c * y.stride_ + k))
      x.num_cols_) else 0) = _
  rw [e]
  unfold cellValue
  exact Eq.refl _

/-- What `BitMatBitMat` computes for any quantization width of the second operand: every
cell of the output is the product of the two scales and the value of `VecVec`. -/
theorem BitMatBitMat_cells (x y : BitMatrix) (out : MatrixBase) (hx : x.Valid) (hy : y.Valid)
    (hcols : x.num_cols_ = y.num_cols_) (hrows : x.num_rows_ = out.num_rows_)
    (hoc : y.num_rows_ = out.num_cols_) :
    ∃ o, BitMatBitMat x y out = Except.ok o ∧ o.num_rows_ = out.num_rows_ ∧
      o.num_cols_ = out.num_cols_ ∧
      ∀ r c, r < out.num_rows_ → c < out.num_cols_ →
        o.elem r c = x.scale_ * y.scale_ * (cellValue x y r c : ℚ) := by
  unfold BitMatBitMat
  simp only [BitMatrix.NumCols, BitMatrix.NumRows, BitMatrix.Scale,
    assert_ok _ (And.intro hcols (And.intro hrows hoc)), bind_ok]
  refine forRange_post
    (fun i (o : MatrixBase) => o.num_rows_ = out.num_rows_ ∧ o.num_cols_ = out.num_cols_ ∧
      ∀ r c, r < i → c < out.num_cols_ →
        o.elem r c = x.scale_ * y.scale_ * (cellValue x y r c : ℚ))
    ⟨rfl, rfl, fun r c hr => absurd hr (Nat.not_lt_zero r)⟩ ?_ (fun t ht => ht)
  intro i o1 hi hI
  obtain ⟨h1, h2, h3⟩ := hI
  obtain ⟨f, hf⟩ := hx.data_some (by omega)
  refine forRange_post
    (fun j (o : MatrixBase) => o.num_rows_ = out.num_rows_ ∧ o.num_cols_ = out.num_cols_ ∧
      (∀ r c, r < i → c < out.num_cols_ →
        o.elem r c = x.scale_ * y.scale_ * (cellValue x y r c : ℚ)) ∧
      ∀ c, c < j → o.elem i c = x.scale_ * y.scale_ * (cellValue x y i c : ℚ))
    ⟨h1, h2, h3, fun c hc => absurd hc (Nat.not_lt_zero c)⟩ ?_ ?_
  · intro j o3 hj hJ
    obtain ⟨k1, k2, k3, k4⟩ := hJ
    obtain ⟨g, hg⟩ := hy.data_some (by omega)
    rw [BitMatrix.Row_ok x f hf i (by omega), bind_ok, BitMatrix.Row_ok y g hg j (by omega),
      bind_ok, VecVec_rowViews x y f g hf hg i j hcols, bind_ok,
      MatrixBase.set_ok o3 i j _ (by omega) (by omega)]
    refine ⟨_, rfl, k1, k2, ?_, ?_⟩
    · intro r c hr hc
      have : ¬ (r = i ∧ c = j) := fun h => absurd h.1 (Nat.ne_of_lt hr)
      simp only [this, if_false]
      exact k3 r c hr hc
    · intro c hc
      by_cases hcj : c = j
      · simp [hcj]
      · have hlt : c < j := by omega
        simp only [hcj, and_false, if_false]
        exact k4 c hlt
  · intro o2 hinv2
    refine ⟨hinv2.1, hinv2.2.1, ?_⟩
    intro r c hr hc
    rcases Nat.lt_succ_iff_lt_or_eq.mp hr with hlt | heq
    · exact hinv2.2.2.1 r c hlt hc
    · rw [heq]; exact hinv2.2.2.2 c hc

/-- What `AddBitMatBitMat` computes: the word at `(r, c)` becomes the value of `VecVec`
converted to `uint64`, the scale becomes the product of the scales, and the shape, the
stride and the bit widths are kept. -/
theorem BitMatrix.AddBitMatBitMat_spec (t m1 m2 : BitMatrix) (ht : t.Valid) (h1 : m1.Valid)
    (h2 : m2.Valid) (hcols : m1.num_cols_ = m2.num_cols_) (hrows : m1.num_rows_ = t.num_rows_)
    (hoc : m2.num_rows_ = t.num_cols_) :
    ∃ t1, t.AddBitMatBitMat m1 m2 = Except.ok t1 ∧ t1.Valid ∧
      t1.num_rows_ = t.num_rows_ ∧ t1.num_cols_ = t.num_cols_ ∧ t1.stride_ = t.stride_ ∧
      t1.quant_bits_ = t.quant_bits_ ∧ t1.align_bits_ = t.align_bits_ ∧
      t1.scale_ = m1.scale_ * m2.scale_ ∧
      ∀ r c, r < t.num_rows_ → c < t.num_cols_ →
        t1.word r c = toUInt64 (cellValue m1 m2 r c) := by
  have hstr : t.num_cols_ ≤ t.stride_ := by
    rcases ht with ⟨_, h0, _, _⟩ | ⟨_, _, _, h4⟩
    · omega
    · exact h4
  have hloop : ∃ ta, forRange t.num_rows_ (fun r ma =>
      forRange ma.num_cols_ (fun c mb => do
        let xr ← m1.Row r
        let yc ← m2.Row c
        let v ← VecVec xr yc
        let d ← writeWord mb.data_ (r * mb.stride_ + c) (toUInt64 v)
        pure { mb with data_ := d }) ma) t = Except.ok ta ∧ SameFrame t ta ∧
      ∀ r c, r < t.num_rows_ → c < t.num_cols_ →
        ta.word r c = toUInt64 (cellValue m1 m2 r c) := by
    refine forRange_post
      (fun i (ma : BitMatrix) => SameFrame t ma ∧
        ∀ r c, r < i → c < t.num_cols_ → ma.word r c = toUInt64 (cellValue m1 m2 r c))
      ⟨SameFrame.refl t, fun r c hr => absurd hr (Nat.not_lt_zero r)⟩ ?_ (fun x hx => hx)
    intro i ma hi hI
    obtain ⟨hfa, hwa⟩ := hI
    rw [hfa.2.1]
    obtain ⟨f, hf⟩ := h1.data_some (by omega)
    refine forRange_post
      (fun j (mb : BitMatrix) => SameFrame t mb ∧
        (∀ r c, r < i → c < t.num_cols_ → mb.word r c = toUInt64 (cellValue m1 m2 r c)) ∧
        ∀ c, c < j → mb.word i c = toUInt64 (cellValue m1 m2 i c))
      ⟨hfa, hwa, fun c hc => absurd hc (Nat.not_lt_zero c)⟩ ?_ ?_
    · intro j mb hj hJ
      obtain ⟨hfb, hwb, hwbi⟩ := hJ
      have hvb : mb.Valid := hfb.valid ht
      obtain ⟨fb, hdb⟩ := hvb.data_some (by rw [hfb.1]; omega)
      obtain ⟨g, hg⟩ := h2.data_some (by omega)
      rw [BitMatrix.Row_ok m1 f hf i (by omega), bind_ok,
        BitMatrix.Row_ok m2 g hg j (by omega), bind_ok,
        VecVec_rowViews m1 m2 f g hf hg i j hcols, bind_ok, hdb]
      simp only [writeWord, bind_ok, pure_eq_ok]
      refine ⟨_, rfl, ?_, ?_, ?_⟩
      · obtain ⟨a1, a2, a3, a4, a5, a6, a7⟩ := hfb
        refine ⟨a1, a2, a3, a4, a5, a6, ?_⟩
        rw [← a7, hdb]
        rfl
      · intro r c hr hc
        rw [BitMatrix.word_write mb fb hdb, hfb.2.2.1]
        have hne := offset_ne t.stride_ t.num_cols_ i r j c (by omega) hc hstr
          (fun h => absurd h.1 (Nat.ne_of_lt hr))
        simp only [hne, if_false]
        exact hwb r c hr hc
      · intro c hc
        rw [BitMatrix.word_write mb fb hdb, hfb.2.2.1]
        by_cases hcj : c = j
        · subst hcj
          simp only [if_true]
        · have hne := offset_ne t.stride_ t.num_cols_ i i j c (by omega) (by omega) hstr
            (fun h => hcj h.2)
          simp only [hne, if_false]
          exact hwbi c (by omega)
    · intro mb hJ
      obtain ⟨hfb, hwb, hwbi⟩ := hJ
      refine ⟨hfb, ?_⟩
      intro r c hr hc
      rcases Nat.lt_succ_iff_lt_or_eq.mp hr with hlt | heq
      · exact hwb r c hlt hc
      · rw [heq]; exact hwbi c hc
  obtain ⟨ta, hta, hfa, hwa⟩ := hloop
  have ha : (m1.NumCols = m2.NumCols ∧ m1.NumRows = t.num_rows_ ∧
      m2.NumRows = t.num_cols_) := ⟨hcols, hrows, hoc⟩
  unfold BitMatrix.AddBitMatBitMat
  rw [assert_ok _ ha, bind_ok, hta, bind_ok]
  have hva : ta.Valid := hfa.valid ht
  obtain ⟨a1, a2, a3, a4, a5, a6, a7⟩ := hfa
  refine ⟨_, rfl, ?_, a1, a2, a3, a5, a6, rfl, ?_⟩
  · exact hva
  · intro r c hr hc
    exact hwa r c hr hc

/-- C33. For valid target `T` and operands `m1`, `m2` (other objects than `T`) with
`m1.NumCols = m2.NumCols`, `T.NumRows = m1.NumRows` and `T.NumCols = m2.NumRows`:
`T.AddBitMatBitMat(m1, m2)` succeeds; the shape, `quant_bits` and `align_bits` of `T` are
unchanged and its scale is `m1.scale * m2.scale`; every word `T(r, c)`, read as a two's
complement signed 64-bit integer, is the value of `VecVec(m1.Row(r), m2.Row(c))`, whatever
`T` held before; and the scale times that signed word is the value
`BitMatBitMat(m1, m2, out)` writes to `out(r, c)`. -/
theorem AddBitMatBitMat_agrees (t m1 m2 : BitMatrix) (ht : t.Valid) (h1 : m1.Valid)
    (h2 : m2.Valid) (hcols : m1.NumCols = m2.NumCols) (hrows : t.NumRows = m1.NumRows)
    (hoc : t.NumCols = m2.NumRows) :
    ∃ t1, t.AddBitMatBitMat m1 m2 = Except.ok t1 ∧
      t1.NumRows = t.NumRows ∧ t1.NumCols = t.NumCols ∧ t1.QuantBits = t.QuantBits ∧
      t1.AlignBits = t.AlignBits ∧ t1.Scale = m1.Scale * m2.Scale ∧
      ∀ r c : Nat, r < t.NumRows → c < t.NumCols →
        ∃ xr yc v w, m1.Row r = Except.ok xr ∧ m2.Row c = Except.ok yc ∧
          VecVec xr yc = Except.ok v ∧ t1.get r c = Except.ok w ∧ toInt64 w = v ∧
          ∀ out : MatrixBase, out.num_rows_ = m1.NumRows → out.num_cols_ = m2.NumRows →
            ∃ o, BitMatBitMat m1 m2 out = Except.ok o ∧
              o.elem r c = t1.Scale * (toInt64 w : ℚ) := by
  simp only [BitMatrix.NumRows, BitMatrix.NumCols, BitMatrix.QuantBits, BitMatrix.AlignBits,
    BitMatrix.Scale] at hcols hrows hoc ⊢
  obtain ⟨t1, ht1, hv1, a1, a2, a3, a4, a5, a6, hw⟩ := BitMatrix.AddBitMatBitMat_spec t m1 m2
    ht h1 h2 hcols hrows.symm hoc.symm
  refine ⟨t1, ht1, a1, a2, a4, a5, a6, ?_⟩
  intro r c hr hc
  obtain ⟨f, hf⟩ := h1.data_some (by omega)
  obtain ⟨g, hg⟩ := h2.data_some (by omega)
  have hcv := cellValue_range m1 m2 r c
  have hsigned : toInt64 (toUInt64 (cellValue m1 m2 r c)) = cellValue m1 m2 r c :=
    toInt64_toUInt64 _ (by omega) (by omega)
  refine ⟨m1.rowView f r, m2.rowView g c, cellValue m1 m2 r c,
    toUInt64 (cellValue m1 m2 r c), BitMatrix.Row_ok m1 f hf r (by omega),
    BitMatrix.Row_ok m2 g hg c (by omega), VecVec_rowViews m1 m2 f g hf hg r c hcols, ?_,
    hsigned, ?_⟩
  · rw [BitMatrix.get_eq_word t1 hv1 r c (by omega) (by omega), hw r c hr hc]
  · intro out ho1 ho2
    obtain ⟨o, ho, _, _, hcell⟩ := BitMatBitMat_cells m1 m2 out h1 h2 hcols ho1.symm ho2.symm
    refine ⟨o, ho, ?_⟩
    rw [hcell r c (by omega) (by omega), a6, hsigned]

/-- Witness of C33: the one-word operands `smallMagnitudes` and `smallSigns` stored into a
1 x 1 target that held the word 99: the target then holds 257 and the scale `1 / 255`. -/
theorem AddBitMatBitMat_agrees_witness :
    ∃ t1 w, productTarget.AddBitMatBitMat smallMagnitudes smallSigns = Except.ok t1 ∧
      t1.get 0 0 = Except.ok w ∧ toInt64 w = 257 ∧ t1.Scale = 1 / 255 := by
  obtain ⟨t1, ht1, _, _, _, _, hs, hcell⟩ := AddBitMatBitMat_agrees productTarget
    smallMagnitudes smallSigns (by decide) (by decide) (by decide) rfl rfl rfl
  obtain ⟨xr, yc, v, w, hxr, hyc, hv, hw, hwv, _⟩ := hcell 0 0 (by decide) (by decide)
  have e1 := BitMatrix.Row_ok smallMagnitudes (fun _ => 33488899) rfl 0 (by decide)
  have e2 := BitMatrix.Row_ok smallSigns (fun _ => 72340172821299201) rfl 0 (by decide)
  have e1a : smallMagnitudes.Row ((0 : Nat) : Int) = Except.ok xr := hxr
  have e2a : smallSigns.Row ((0 : Nat) : Int) = Except.ok yc := hyc
  rw [e1] at e1a
  rw [e2] at e2a
  simp only [Except.ok.injEq] at e1a e2a
  rw [← e1a, ← e2a, VecVec_rowViews smallMagnitudes smallSigns _ _ rfl rfl 0 0 rfl] at hv
  simp only [Except.ok.injEq] at hv
  have hk : cellValue smallMagnitudes smallSigns 0 0 = 257 := by
    unfold cellValue
    rw [if_pos (show smallSigns.quant_bits_ = 1 from rfl)]
    show toInt32 (kernelSum smallMagnitudes smallSigns 0 0 1) = 257
    rw [kernelSum_const smallMagnitudes smallSigns 33488899 72340172821299201 0 0 1
      (fun k => rfl) (fun k => rfl)]
    have : bit_kernel_for_uint64_8_1 33488899 72340172821299201 = 257 := by decide
    rw [this]
    rfl
  refine ⟨t1, w, ht1, hw, ?_, ?_⟩
  · rw [hwv, ← hv, hk]
  · rw [hs]
    show (1 / 255 : ℚ) * 1 = 1 / 255
    norm_num

/-! ## C36: assignment -/

/-- What `CopyFromBitMat` computes for two valid matrices of the same shape that are not the
same object: the shape, the stride and the metadata of the target are kept and its words in
range become those of the source. -/
theorem BitMatrix.CopyFromBitMat_spec (m mat : BitMatrix) (hv : m.Valid) (hvm : mat.Valid)
    (hr : m.num_rows_ = mat.num_rows_) (hc : m.num_cols_ = mat.num_cols_) :
    ∃ m1, m.CopyFromBitMat mat false = Except.ok m1 ∧ SameFrame m m1 ∧
      ∀ r c, r < m.num_rows_ → c < m.num_cols_ → m1.word r c = mat.word r c := by
  have hstr : m.num_cols_ ≤ m.stride_ := by
    rcases hv with ⟨_, h0, _, _⟩ | ⟨_, _, _, h4⟩
    · omega
    · exact h4
  have ha : (m.num_rows_ = mat.NumRows ∧ m.num_cols_ = mat.NumCols) := ⟨hr, hc⟩
  unfold BitMatrix.CopyFromBitMat
  simp only [Bool.false_eq_true, if_false]
  rw [assert_ok _ ha, bind_ok]
  refine forRange_post
    (fun i (m1 : BitMatrix) => SameFrame m m1 ∧
      ∀ r c, r < i → c < m.num_cols_ → m1.word r c = mat.word r c)
    ⟨SameFrame.refl m, fun r c hr => absurd hr (Nat.not_lt_zero r)⟩ ?_ (fun t ht => ht)
  intro i m1 hi hI
  obtain ⟨hf1, hw1⟩ := hI
  have hv1 : m1.Valid := hf1.valid hv
  obtain ⟨f, hf⟩ := hv1.data_some (by rw [hf1.1]; omega)
  obtain ⟨g, hg⟩ := hvm.data_some (by omega)
  have hcpos : 0 < m.num_cols_ := by
    rcases hv with ⟨_, h0, _, _⟩ | ⟨_, _, h3, _⟩
    · omega
    · exact h3
  have hdim : (m1.rowView f i).Dim = (mat.rowView g i).Dim := by
    show m1.num_cols_ = mat.num_cols_
    rw [hf1.2.1, hc]
  have hne : ¬ (m1.rowView f i).dim_ = 0 := by
    show ¬ m1.num_cols_ = 0
    rw [hf1.2.1]; omega
  rw [BitMatrix.Row_ok m1 f hf i (by rw [hf1.1]; exact hi), bind_ok,
    BitMatrix.Row_ok mat g hg i (by omega), bind_ok]
  unfold BitVector.CopyFromBitVec
  rw [assert_ok _ hdim, bind_ok, if_neg hne]
  simp only [BitMatrix.rowView, pure_eq_ok, bind_ok, hf, writeBack]
  refine ⟨_, rfl, ?_, ?_⟩
  · obtain ⟨a1, a2, a3, a4, a5, a6, a7⟩ := hf1
    refine ⟨a1, a2, a3, a4, a5, a6, ?_⟩
    rw [← a7, hf]
    rfl
  · intro r c hr1 hc1
    simp only [BitMatrix.word]
    rw [hf1.2.2.1, hf1.2.1]
    rcases Nat.lt_succ_iff_lt_or_eq.mp hr1 with hlt | heq
    · have hb := row_before m.stride_ m.num_cols_ r i c hlt hc1 hstr
      rw [if_neg (by omega)]
      have := hw1 r c hlt hc1
      simp only [BitMatrix.word, hf, hf1.2.2.1] at this
      exact this
    · subst heq
      have e : r * m.stride_ + c - r * m.stride_ = c := by omega
      rw [if_pos (by omega), e, if_pos hc1, hg]

/-- What `operator=` computes in a working memory environment for a valid target and a
valid source that is another object: a valid matrix with the shape, the metadata and the
words of the source. -/
theorem BitMatrix.assign_spec (h : Heap) (hh : h.Ok) (a b : BitMatrix) (ha : a.Valid)
    (hb : b.Valid) :
    ∃ a1, a.assign h b false = Except.ok a1 ∧ a1.Valid ∧
      a1.num_rows_ = b.num_rows_ ∧ a1.num_cols_ = b.num_cols_ ∧
      a1.quant_bits_ = b.quant_bits_ ∧ a1.align_bits_ = b.align_bits_ ∧
      a1.scale_ = b.scale_ ∧
      ∀ r c, r < b.num_rows_ → c < b.num_cols_ → a1.word r c = b.word r c := by
  have hshape : (b.num_rows_ = 0 ∧ b.num_cols_ = 0) ∨ (0 < b.num_rows_ ∧ 0 < b.num_cols_) := by
    rcases hb with ⟨_, h1, h2, _⟩ | ⟨_, h1, h2, _⟩
    · exact Or.inl ⟨h1, h2⟩
    · exact Or.inr ⟨h1, h2⟩
  obtain ⟨m1, hm1, hv1, b1, b2, _, _, _⟩ := BitMatrix.Quantize_resize h hh a b.num_rows_
    b.num_cols_ ha hshape
  have hvw : (m1.withMeta b).Valid := by
    rcases hv1 with ⟨h0, h1, h2, h3⟩ | ⟨h0, h1, h2, h3⟩
    · exact Or.inl ⟨h0, h1, h2, h3⟩
    · exact Or.inr ⟨h0, h1, h2, h3⟩
  obtain ⟨a1, ha1, hf, hw⟩ := BitMatrix.CopyFromBitMat_spec (m1.withMeta b) b hvw hb b1 b2
  unfold BitMatrix.assign
  simp only [BitMatrix.NumRows, BitMatrix.NumCols]
  rw [hm1, bind_ok, ha1]
  obtain ⟨c1, c2, c3, c4, c5, c6, c7⟩ := hf
  refine ⟨a1, rfl, SameFrame.valid ⟨c1, c2, c3, c4, c5, c6, c7⟩ hvw, c1.trans b1, c2.trans b2,
    c5, c6, c4, ?_⟩
  intro r c hr hc
  exact hw r c (by show r < m1.num_rows_; omega) (by show c < m1.num_cols_; omega)

/-- C36. In a working memory environment, for valid `a` and `b`: the assignment `a = b`
succeeds and `a` then has the `NumRows`, `NumCols`, `quant_bits`, `align_bits` and `scale`
of `b` and `a(r, c) = b(r, c)` for every `(r, c)` in range (`b` is an argument that the
operator only reads); the self-assignment `a = a` returns `a` as it was; and
`CopyFromBitMat` on another object of a different shape fails with an assertion. -/
theorem assign_copies (h : Heap) (hh : h.Ok) (a b : BitMatrix) (ha : a.Valid) (hb : b.Valid) :
    (∃ a1, a.assign h b false = Except.ok a1 ∧
      a1.NumRows = b.NumRows ∧ a1.NumCols = b.NumCols ∧ a1.QuantBits = b.QuantBits ∧
      a1.AlignBits = b.AlignBits ∧ a1.Scale = b.Scale ∧
      ∀ r c : Nat, r < b.NumRows → c < b.NumCols →
        a1.get r c = b.get r c ∧ b.get r c = Except.ok (b.word r c)) ∧
    a.assign h a true = Except.ok a ∧
    ((a.NumRows ≠ b.NumRows ∨ a.NumCols ≠ b.NumCols) →
      a.CopyFromBitMat b false = Except.error Failure.assertion) := by
  simp only [BitMatrix.NumRows, BitMatrix.NumCols, BitMatrix.QuantBits, BitMatrix.AlignBits,
    BitMatrix.Scale]
  refine ⟨?_, ?_, ?_⟩
  · obtain ⟨a1, ha1, hv1, d1, d2, d3, d4, d5, hw⟩ := BitMatrix.assign_spec h hh a b ha hb
    refine ⟨a1, ha1, d1, d2, d3, d4, d5, ?_⟩
    intro r c hr hc
    rw [BitMatrix.get_eq_word a1 hv1 r c (by omega) (by omega),
      BitMatrix.get_eq_word b hb r c hr hc, hw r c hr hc]
    exact ⟨rfl, rfl⟩
  · unfold BitMatrix.assign
    have hcond : ¬ (a.num_rows_ ≠ a.NumRows ∨ a.num_cols_ ≠ a.NumCols) := by
      simp [BitMatrix.NumRows, BitMatrix.NumCols]
    rw [if_neg hcond]
    rfl
  · intro hne
    have hn : ¬ (a.num_rows_ = b.NumRows ∧ a.num_cols_ = b.NumCols) := by
      simp only [BitMatrix.NumRows, BitMatrix.NumCols]
      omega
    unfold BitMatrix.CopyFromBitMat
    simp only [Bool.false_eq_true, if_false]
    rw [assert_fail _ hn, bind_error]

/-- Witness of C36: the one-word matrix `rampBits` assigned to a default-constructed matrix
and to the 1 x 1 matrix `productTarget`. -/
theorem assign_copies_witness :
    (∃ a1, BitMatrix.BitMatrix_default.assign heap16 rampBits false = Except.ok a1 ∧
      a1.NumRows = 1 ∧ a1.NumCols = 1 ∧ a1.QuantBits = 8 ∧ a1.AlignBits = 8 ∧
      a1.Scale = 1 / 255 ∧ a1.get 0 0 = Except.ok 283686952306183) ∧
    rampBits.assign heap16 rampBits true = Except.ok rampBits ∧
    BitMatrix.BitMatrix_default.CopyFromBitMat rampBits false =
      Except.error Failure.assertion := by
  have h := assign_copies heap16 heap16_ok BitMatrix.BitMatrix_default rampBits (by decide)
    (by decide)
  have h2 := assign_copies heap16 heap16_ok rampBits rampBits (by decide) (by decide)
  obtain ⟨a1, ha1, e1, e2, e3, e4, e5, hw⟩ := h.1
  exact ⟨⟨a1, ha1, e1, e2, e3, e4, e5, (hw 0 0 (by decide) (by decide)).1.trans rfl⟩,
    h2.2.1, h.2.2 (Or.inl (by decide))⟩

/-! ## C35: the shape invariant -/

theorem SameShape.here (m : BitMatrix) : SameShape m m := ⟨rfl, rfl, rfl, rfl⟩

theorem SameShape.step {a b c : BitMatrix} (h1 : SameShape a b) (h2 : SameShape b c) :
    SameShape a c :=
  ⟨h2.1.trans h1.1, h2.2.1.trans h1.2.1, h2.2.2.1.trans h1.2.2.1, h2.2.2.2.trans h1.2.2.2⟩

theorem SameShape.keeps {m m1 : BitMatrix} (h : SameShape m m1) (hv : m.Valid) : m1.Valid := by
  obtain ⟨a1, a2, a3, a4⟩ := h
  unfold BitMatrix.Valid at hv ⊢
  rw [a1, a2, a3, a4]
  exact hv

theorem writeWord_isSome (d d1 : Option (Nat → Nat)) (off w : Nat)
    (h : writeWord d off w = Except.ok d1) : d1.isSome = d.isSome := by
  unfold writeWord at h
  split at h
  · simp only [Except.ok.injEq] at h
    rw [← h]; rfl
  · cases h

theorem BitMatrix.set_shape (m m1 : BitMatrix) (r c : Int) (w : Nat)
    (h : m.set r c w = Except.ok m1) : SameShape m m1 := by
  unfold BitMatrix.set at h
  obtain ⟨_, _, h⟩ := bind_eq_ok h
  obtain ⟨d, hd, h⟩ := bind_eq_ok h
  simp only [pure_eq_ok, Except.ok.injEq] at h
  rw [← h]
  exact ⟨rfl, rfl, rfl, writeWord_isSome _ _ _ _ hd⟩

theorem BitMatrix.Set_shape (m m1 : BitMatrix) (v : Nat) (h : m.Set v = Except.ok m1) :
    SameShape m m1 := by
  unfold BitMatrix.Set at h
  refine forRange_ok_inv (SameShape m) _ _ m m1 ?_ (SameShape.here m) h
  intro i s1 t1 hs1 h1
  refine forRange_ok_inv (SameShape m) _ _ s1 t1 ?_ hs1 h1
  intro j s2 t2 hs2 h2
  exact hs2.step (BitMatrix.set_shape s2 t2 _ _ _ h2)

theorem BitMatrix.Allocate_valid (hp : Heap) (m m1 : BitMatrix) (rows cols : Int)
    (h : m.AllocateBitMatrixMemory hp rows cols = Except.ok m1) : m1.Valid := by
  unfold BitMatrix.AllocateBitMatrixMemory at h
  obtain ⟨_, ha, h⟩ := bind_eq_ok h
  have hpos : rows ≥ 0 ∧ cols ≥ 0 := by
    by_contra hn
    rw [assert_fail _ hn] at ha
    cases ha
  split at h
  · simp only [pure_eq_ok, Except.ok.injEq] at h
    rw [← h]
    exact Or.inl ⟨rfl, rfl, rfl, rfl⟩
  · rename_i hz
    obtain ⟨_, _, h⟩ := bind_eq_ok h
    simp only at h
    split at h
    · cases h
    · split at h
      · simp only [pure_eq_ok, Except.ok.injEq] at h
        rw [← h]
        refine Or.inr ⟨rfl, ?_, ?_, ?_⟩
        · show 0 < rows.toNat
          omega
        · show 0 < cols.toNat
          omega
        · show cols.toNat ≤ cols.toNat + _
          omega
      · cases h

theorem BitMatrix.Resize_valid (hp : Heap) (m m1 : BitMatrix) (rows cols : Int) (hv : m.Valid)
    (h : m.Resize hp rows cols = Except.ok m1) : m1.Valid := by
  unfold BitMatrix.Resize at h
  split at h
  · exact (BitMatrix.Set_shape m m1 0 h).keeps hv
  · exact BitMatrix.Allocate_valid hp _ m1 rows cols h

theorem BitMatrix.Quantize_valid (fu : FloatUnit) (hp : Heap) (m m2 : BitMatrix) (inp : MatrixBase)
    (hv : m.Valid) (h : m.Quantize fu hp inp = Except.ok m2) : m2.Valid := by
  unfold BitMatrix.Quantize at h
  obtain ⟨_, _, h⟩ := bind_eq_ok h
  obtain ⟨cols, _, h⟩ := bind_eq_ok h
  obtain ⟨m1, hm1, h⟩ := bind_eq_ok h
  obtain ⟨_, _, h⟩ := bind_eq_ok h
  obtain ⟨_, _, h⟩ := bind_eq_ok h
  obtain ⟨L, _, h⟩ := bind_eq_ok h
  have hv1 : m1.Valid := by
    split at hm1
    · exact BitMatrix.Resize_valid hp m m1 _ _ hv hm1
    · simp only [pure_eq_ok, Except.ok.injEq] at hm1
      rw [← hm1]; exact hv
  refine SameShape.keeps ?_ hv1
  refine forRange_ok_inv (SameShape m1) _ _ m1 m2 ?_ (SameShape.here m1) h
  intro i s1 t1 hs1 h2
  refine forRange_ok_inv (SameShape m1) _ _ s1 t1 ?_ hs1 h2
  intro j s2 t2 hs2 h3
  obtain ⟨_, _, h3⟩ := bind_eq_ok h3
  obtain ⟨d, hd, h3⟩ := bind_eq_ok h3
  simp only [pure_eq_ok, Except.ok.injEq] at h3
  rw [← h3]
  exact hs2.step ⟨rfl, rfl, rfl, writeWord_isSome _ _ _ _ hd⟩

theorem BitMatrix.BitMatrix_quant_align_valid (fu : FloatUnit) (hp : Heap) (inp : MatrixBase)
    (qb ab : Int)
    (m : BitMatrix) (h : BitMatrix.BitMatrix_quant_align fu hp inp qb ab = Except.ok m) :
    m.Valid := by
  unfold BitMatrix.BitMatrix_quant_align at h
  obtain ⟨_, _, h⟩ := bind_eq_ok h
  obtain ⟨m1, hm1, h⟩ := bind_eq_ok h
  have hv0 : (BitMatrix.ctorState qb ab).Valid := Or.inl ⟨rfl, rfl, rfl, rfl⟩
  have hv1 := BitMatrix.Resize_valid hp _ m1 _ _ hv0 hm1
  exact BitMatrix.Quantize_valid fu hp m1 m inp hv1 h

theorem writeBack_isSome (d row : Option (Nat → Nat)) (off : Nat) :
    (writeBack d off row).isSome = d.isSome := by
  cases d <;> cases row <;> rfl

theorem BitMatrix.CopyFromBitMat_shape (m mat m1 : BitMatrix) (same : Bool)
    (h : m.CopyFromBitMat mat same = Except.ok m1) : SameShape m m1 := by
  unfold BitMatrix.CopyFromBitMat at h
  split at h
  · simp only [pure_eq_ok, Except.ok.injEq] at h
    rw [← h]; exact SameShape.here m
  · obtain ⟨_, _, h⟩ := bind_eq_ok h
    refine forRange_ok_inv (SameShape m) _ _ m m1 ?_ (SameShape.here m) h
    intro i s1 t1 hs1 h1
    obtain ⟨_, _, h1⟩ := bind_eq_ok h1
    obtain ⟨_, _, h1⟩ := bind_eq_ok h1
    obtain ⟨row, _, h1⟩ := bind_eq_ok h1
    simp only [pure_eq_ok, Except.ok.injEq] at h1
    rw [← h1]
    exact hs1.step ⟨rfl, rfl, rfl, writeBack_isSome _ _ _⟩

theorem BitMatrix.assign_valid (hp : Heap) (a b a1 : BitMatrix) (same : Bool) (hv : a.Valid)
    (h : a.assign hp b same = Except.ok a1) : a1.Valid := by
  unfold BitMatrix.assign at h
  obtain ⟨m1, hm1, h⟩ := bind_eq_ok h
  have hv1 : m1.Valid := by
    split at hm1
    · exact BitMatrix.Resize_valid hp a m1 _ _ hv hm1
    · simp only [pure_eq_ok, Except.ok.injEq] at hm1
      rw [← hm1]; exact hv
  have hs : SameShape m1 (m1.withMeta b) := ⟨rfl, rfl, rfl, rfl⟩
  exact (hs.step (BitMatrix.CopyFromBitMat_shape _ b a1 same h)).keeps hv1

theorem BitMatrix.AddBitMatBitMat_shape (t m1 m2 t1 : BitMatrix)
    (h : t.AddBitMatBitMat m1 m2 = Except.ok t1) : SameShape t t1 := by
  unfold BitMatrix.AddBitMatBitMat at h
  obtain ⟨_, _, h⟩ := bind_eq_ok h
  obtain ⟨ta, hta, h⟩ := bind_eq_ok h
  simp only [pure_eq_ok, Except.ok.injEq] at h
  rw [← h]
  have hs : SameShape ta (ta.withScale (m1.scale_ * m2.scale_)) := ⟨rfl, rfl, rfl, rfl⟩
  refine SameShape.step ?_ hs
  refine forRange_ok_inv (SameShape t) _ _ t ta ?_ (SameShape.here t) hta
  intro i s1 u1 hs1 h1
  refine forRange_ok_inv (SameShape t) _ _ s1 u1 ?_ hs1 h1
  intro j s2 u2 hs2 h2
  obtain ⟨_, _, h2⟩ := bind_eq_ok h2
  obtain ⟨_, _, h2⟩ := bind_eq_ok h2
  obtain ⟨_, _, h2⟩ := bind_eq_ok h2
  obtain ⟨d, hd, h2⟩ := bind_eq_ok h2
  simp only [pure_eq_ok, Except.ok.injEq] at h2
  rw [← h2]
  exact hs2.step ⟨rfl, rfl, rfl, writeWord_isSome _ _ _ _ hd⟩

theorem SameBuffer.keeps_buffer {m m1 : BitMatrix} (h : SameBuffer m m1) (hv : m.Valid) :
    m1.Valid := by
  obtain ⟨a1, a2, a3, a4⟩ := h
  unfold BitMatrix.Valid at hv ⊢
  rw [a1, a2, a3, a4]
  exact hv

theorem resizeAt_valid (hp : Heap) (m m1 : BitMatrix) (rows cols : Int) (hv : m.Valid)
    (h : resizeAt hp m rows cols = Except.ok m1) : m1.Valid := by
  unfold resizeAt at h
  split at h
  · rename_i m2 hm2
    simp only [Except.ok.injEq] at h
    rw [← h]
    exact BitMatrix.Resize_valid hp m m2 rows cols hv hm2
  · cases h

theorem readBlock_shape (m m1 : BitMatrix) (off n : Nat) (is rest : List Item)
    (h : readBlock m off n is = Except.ok (m1, rest)) : SameShape m m1 := by
  unfold readBlock at h
  split at h
  · rename_i d hd
    split at h
    · simp only [Except.ok.injEq, Prod.mk.injEq] at h
      rw [← h.1]
      refine ⟨rfl, rfl, rfl, ?_⟩
      unfold storeWords at hd
      split at hd
      · rename_i f hf
        simp only [Except.ok.injEq] at hd
        rw [← hd, hf]; rfl
      · rename_i hnone
        split at hd
        · simp only [Except.ok.injEq] at hd
          rw [← hd, hnone]
        · cases hd
    · cases h
  · cases h

theorem readBinaryBody_valid (hp : Heap) (m m1 : BitMatrix) (rows cols : Int)
    (is rest : List Item) (hv : m.Valid)
    (h : readBinaryBody hp m rows cols is = Except.ok (m1, rest)) : m1.Valid := by
  unfold readBinaryBody at h
  obtain ⟨m2, hm2, h⟩ := bind_eq_ok h
  have hv2 : m2.Valid := by
    split at hm2
    · exact resizeAt_valid hp m m2 rows cols hv hm2
    · simp only [pure_eq_ok, Except.ok.injEq] at hm2
      rw [← hm2]; exact hv
  split at h
  · split at h
    · exact (readBlock_shape m2 m1 _ _ _ _ h).keeps hv2
    · have hP := forRange_ok_inv (fun (st : BitMatrix × List Item) => SameShape m2 st.1) _ _
        (m2, is) (m1, rest) ?_ (SameShape.here m2) h
      · exact SameShape.keeps hP hv2
      intro i s1 t1 hs1 h1
      obtain ⟨_, _, h1⟩ := bind_eq_ok h1
      exact SameShape.step hs1 (readBlock_shape s1.1 t1.1 _ _ _ t1.2 h1)
  · simp only [pure_eq_ok, Except.ok.injEq, Prod.mk.injEq] at h
    rw [← h.1]; exact hv2

theorem readTextBody_valid (hp : Heap) (m m1 : BitMatrix) (is rest : List Item) (hv : m.Valid)
    (h : readTextBody hp m is = Except.ok (m1, rest)) : m1.Valid := by
  unfold readTextBody at h
  obtain ⟨_, _, h⟩ := bind_eq_ok h
  obtain ⟨_, _, h⟩ := bind_eq_ok h
  obtain ⟨r, _, h⟩ := bind_eq_ok h
  obtain ⟨_, _, h⟩ := bind_eq_ok h
  obtain ⟨m2, hm2, h⟩ := bind_eq_ok h
  obtain ⟨m3, hm3, h⟩ := bind_eq_ok h
  simp only [pure_eq_ok, Except.ok.injEq, Prod.mk.injEq] at h
  rw [← h.1]
  have hv2 := resizeAt_valid hp m m2 _ _ hv hm2
  refine SameShape.keeps ?_ hv2
  refine forRange_ok_inv (SameShape m2) _ _ m2 m3 ?_ (SameShape.here m2) hm3
  intro i s1 t1 hs1 h1
  refine forRange_ok_inv (SameShape m2) _ _ s1 t1 ?_ hs1 h1
  intro j s2 t2 hs2 h2
  split at h2
  · rename_i m5 hm5
    simp only [Except.ok.injEq] at h2
    rw [← h2]
    exact hs2.step (BitMatrix.set_shape s2 m5 _ _ _ hm5)
  · cases h2

theorem BitMatrix.Read_valid (hp : Heap) (binary : Bool) (m m1 : BitMatrix)
    (is rest : List Item) (hv : m.Valid)
    (h : BitMatrix.Read hp binary m is = Except.ok (m1, rest)) : m1.Valid := by
  unfold BitMatrix.Read at h
  obtain ⟨_, _, h⟩ := bind_eq_ok h
  split at h
  · obtain ⟨_, _, h⟩ := bind_eq_ok h
    obtain ⟨r, _, h⟩ := bind_eq_ok h
    obtain ⟨c, _, h⟩ := bind_eq_ok h
    obtain ⟨hd, hhd, h⟩ := bind_eq_ok h
    have hvh := ((readHeader_frame m c.2).2 hd.1 hd.2 hhd).keeps_buffer hv
    exact readBinaryBody_valid hp hd.1 m1 _ _ _ rest hvh h
  · obtain ⟨hd, hhd, h⟩ := bind_eq_ok h
    have hvh := ((readHeader_frame m is).2 hd.1 hd.2 hhd).keeps_buffer hv
    exact readTextBody_valid hp hd.1 m1 _ rest hvh h

/-- Every reachable state satisfies the shape invariant. -/
theorem Reachable.shape_ok {m : BitMatrix} (hr : Reachable m) : m.Valid := by
  induction hr with
  | default => exact Or.inl ⟨rfl, rfl, rfl, rfl⟩
  | quant_align fu h inp qb ab m hm =>
    exact BitMatrix.BitMatrix_quant_align_valid fu h inp qb ab m hm
  | in_bits fu h inp b m hm => exact BitMatrix.BitMatrix_quant_align_valid fu h inp b b m hm
  | resize h m m1 rows cols _ hm ih => exact BitMatrix.Resize_valid h m m1 rows cols ih hm
  | quantize fu h m m1 inp _ hm ih => exact BitMatrix.Quantize_valid fu h m m1 inp ih hm
  | set m m1 v _ hm ih => exact (BitMatrix.Set_shape m m1 v hm).keeps ih
  | assign h m other m1 same _ hm ih => exact BitMatrix.assign_valid h m other m1 same ih hm
  | addBitMatBitMat m mat1 mat2 m1 _ hm ih =>
    exact (BitMatrix.AddBitMatBitMat_shape m mat1 mat2 m1 hm).keeps ih
  | read h binary m m1 is rest _ hm ih => exact BitMatrix.Read_valid h binary m m1 is rest ih hm

/-- C35. Every `BitMatrix` state reachable from the default constructor or a quantizing
constructor through successful `Resize`, `Quantize`, `Set`, `operator=`, `AddBitMatBitMat`
and `Read` calls satisfies: `NumRows = 0` iff `NumCols = 0` iff `Stride = 0` iff there is no
buffer, and otherwise `NumRows > 0`, `NumCols > 0` and `Stride >= NumCols`. -/
theorem shape_invariant (m : BitMatrix) (hr : Reachable m) :
    (m.NumRows = 0 ↔ m.NumCols = 0) ∧ (m.NumCols = 0 ↔ m.Stride = 0) ∧
    (m.Stride = 0 ↔ m.data_ = none) ∧
    (m.NumRows ≠ 0 → 0 < m.NumRows ∧ 0 < m.NumCols ∧ m.NumCols ≤ m.Stride) := by
  simp only [BitMatrix.NumRows, BitMatrix.NumCols, BitMatrix.Stride]
  rcases hr.shape_ok with ⟨h0, h1, h2, h3⟩ | ⟨h0, h1, h2, h3⟩
  · have hn : m.data_ = none := by
      cases hd : m.data_ with
      | none => rfl
      | some f => rw [hd] at h0; cases h0
    refine ⟨by omega, by omega, ⟨fun _ => hn, fun _ => h3⟩, fun h => absurd h1 h⟩
  · have hn : m.data_ ≠ none := by
      intro hd
      rw [hd] at h0
      cases h0
    refine ⟨by omega, by omega, ⟨fun h => by omega, fun h => absurd h hn⟩,
      fun _ => ⟨h1, h2, h3⟩⟩

/-- Witness of C35: the default-constructed matrix resized to 2 x 3 with 16-byte alignment
has two rows, three columns, the stride 4 and a buffer. -/
theorem shape_invariant_witness :
    BitMatrix.BitMatrix_default.Resize heap16 2 3 =
      Except.ok (BitMatrix.BitMatrix_default.allocated (fun _ => 0) 2 3 4) ∧
    ((BitMatrix.BitMatrix_default.allocated (fun _ => 0) 2 3 4).NumRows ≠ 0 →
      0 < (BitMatrix.BitMatrix_default.allocated (fun _ => 0) 2 3 4).NumRows ∧
      0 < (BitMatrix.BitMatrix_default.allocated (fun _ => 0) 2 3 4).NumCols ∧
      (BitMatrix.BitMatrix_default.allocated (fun _ => 0) 2 3 4).NumCols ≤
        (BitMatrix.BitMatrix_default.allocated (fun _ => 0) 2 3 4).Stride) :=
  ⟨rfl, (shape_invariant _ (Reachable.resize heap16 BitMatrix.BitMatrix_default _ 2 3
    Reachable.default rfl)).2.2.2⟩

end snowboy
